import Mathlib

/-!
Verification of the housing-algo core: a shallow embedding in Lean 4 of the
deterministic scoring module (scoring.ts) and of the assignment solver module
(assignment.ts) of the repository, together with theorems settling the
specification claims about them.

Numbers: JavaScript numbers are modelled by the rationals (exact arithmetic);
the IEEE Infinity value used by the solver's shortest-path search is modelled
by Option (none = Infinity), and the non-finite inputs rejected by
normalizeValues are modelled by the JsNum type below.  Strings are modelled by
Lean strings; charCodeAt is modelled by Char.toNat, which agrees with the
UTF-16 code unit for every character of the Basic Multilingual Plane (all
identifiers appearing in this development are ASCII).
-/

-- ─────────────────────────────────────────────────────────────────────────────
-- Data model (types.ts)
-- ─────────────────────────────────────────────────────────────────────────────

inductive BedType
  | single
  | double
deriving DecidableEq, Repr

inductive Gender
  | female
  | male
  | nonbinary
  | other
deriving DecidableEq, Repr

inductive RelationshipStatus
  | single
  | partnered
deriving DecidableEq, Repr

inductive PartnerLocation
  | none
  | external
  | house
deriving DecidableEq, Repr

inductive KitchenPreference
  | close
  | far
  | none
deriving DecidableEq, Repr

structure Relationship where
  status : RelationshipStatus
  partnerLocation : PartnerLocation
  partnerId : Option String := Option.none
deriving DecidableEq, Repr

structure Room where
  id : String
  name : String
  sizeSqm : ℚ
  windows : ℚ
  attractiveness : ℚ
  bedType : BedType
  floor : ℤ
  isFrontFacing : Bool
  noise : ℚ
  storage : ℚ
  sunlight : ℚ
  nearKitchen : Bool
  ensuite : Bool
deriving DecidableEq, Repr

structure PreferenceWeights where
  size : ℚ
  windows : ℚ
  attractiveness : ℚ
  bedType : ℚ
  sunlight : ℚ
  storage : ℚ
  quiet : ℚ
  kitchenProximity : ℚ
  ensuite : ℚ
  floor : ℚ
deriving DecidableEq, Repr

/-- Partial PreferenceWeights: every field optional (a per-person override set). -/
structure PreferenceOverrides where
  size : Option ℚ := Option.none
  windows : Option ℚ := Option.none
  attractiveness : Option ℚ := Option.none
  bedType : Option ℚ := Option.none
  sunlight : Option ℚ := Option.none
  storage : Option ℚ := Option.none
  quiet : Option ℚ := Option.none
  kitchenProximity : Option ℚ := Option.none
  ensuite : Option ℚ := Option.none
  floor : Option ℚ := Option.none
deriving DecidableEq, Repr

structure PriorityWeights where
  foundHouse : ℚ
  handledAgent : ℚ
  attendedViewing : ℚ
deriving DecidableEq, Repr

/-- Partial PriorityWeights: every field optional. -/
structure PriorityOverrides where
  foundHouse : Option ℚ := Option.none
  handledAgent : Option ℚ := Option.none
  attendedViewing : Option ℚ := Option.none
deriving DecidableEq, Repr

structure PersonDefaults where
  preferenceWeights : PreferenceWeights
  priorityWeights : PriorityWeights
  safetyConcern : ℚ
  bedUpgradeWeight : ℚ
  bedDowngradePenalty : ℚ
  doubleBedPartnerWeight : ℚ
  singleBedInternalCoupleWeight : ℚ
  doubleBedInternalCoupleWeight : ℚ
  priorityScale : ℚ
deriving DecidableEq, Repr

structure Person where
  id : String
  name : String
  gender : Gender
  foundHouse : Bool
  handledAgent : Bool
  attendedViewing : Bool
  currentBedType : BedType
  relationship : Relationship
  kitchenPreference : Option KitchenPreference := Option.none
  hasSafetyConcern : Option Bool := Option.none
  preferenceWeights : Option PreferenceOverrides := Option.none
  priorityWeights : Option PriorityOverrides := Option.none
  safetyConcern : Option ℚ := Option.none
  bedUpgradeWeight : Option ℚ := Option.none
  bedDowngradePenalty : Option ℚ := Option.none
  doubleBedPartnerWeight : Option ℚ := Option.none
  singleBedInternalCoupleWeight : Option ℚ := Option.none
  doubleBedInternalCoupleWeight : Option ℚ := Option.none
deriving DecidableEq, Repr

structure RoomMetrics where
  size : ℚ
  windows : ℚ
  attractiveness : ℚ
  sunlight : ℚ
  storage : ℚ
  quiet : ℚ
  kitchenProximity : ℚ
  ensuite : ℚ
  safetyRisk : ℚ
  bedValue : ℚ
  floorLevel : ℚ
deriving DecidableEq, Repr

structure PersonMeta where
  preferenceWeights : PreferenceWeights
  priorityWeights : PriorityWeights
  priorityScore : ℚ
  priorityMultiplier : ℚ
  safetyConcern : ℚ
  hasSafetyConcern : Bool
  kitchenPreference : KitchenPreference
  bedUpgradeWeight : ℚ
  bedDowngradePenalty : ℚ
  doubleBedPartnerWeight : ℚ
  singleBedInternalCoupleWeight : ℚ
  doubleBedInternalCoupleWeight : ℚ
deriving DecidableEq, Repr

structure HouseMeta where
  hasSingleBed : Bool
deriving DecidableEq, Repr

inductive PriorityMode
  | amplify
  | bonus
deriving DecidableEq, Repr

inductive ScoringPreferenceKey
  | size
  | windows
  | attractiveness
  | bedType
  | sunlight
  | storage
  | quiet
  | kitchenProximity
  | ensuite
  | floor
deriving DecidableEq, Repr

structure ScoringOverrides where
  ignorePreferences : Option (List ScoringPreferenceKey) := Option.none
deriving DecidableEq, Repr

-- ─────────────────────────────────────────────────────────────────────────────
-- Normalizer (scoring.ts, normalizeValues)
-- ─────────────────────────────────────────────────────────────────────────────

deriving instance DecidableEq for Except

/-- JavaScript number, distinguishing the non-finite values normalizeValues
rejects: NaN, Infinity and -Infinity. -/
inductive JsNum
  | num (q : ℚ)
  | nan
  | posInf
  | negInf
deriving DecidableEq, Repr

/-- Number.isFinite. -/
def JsNum.isFinite : JsNum → Bool
  | .num _ => true
  | _ => false

/-- Rational carried by a finite JsNum (only ever applied after the
Number.isFinite guard inside normalizeValues; non-finite values map to 0). -/
def JsNum.val : JsNum → ℚ
  | .num q => q
  | _ => 0

/-- Math.min over a list of (finite) values. -/
def listMin (qs : List ℚ) : ℚ := qs.foldl Min.min (qs.headD 0)

/-- Math.max over a list of (finite) values. -/
def listMax (qs : List ℚ) : ℚ := qs.foldl Max.max (qs.headD 0)

/-- Normalizes an array of numbers to the 0-1 range using min-max scaling;
returns all 1s if all values are equal; empty arrays return empty arrays;
arrays with NaN or Infinity values throw (modelled by Except.error). -/
def normalizeValues (values : List JsNum) : Except String (List ℚ) :=
  if values.length = 0 then
    .ok []
  else if values.any (fun v => !v.isFinite) then
    .error "Cannot normalize values: array contains NaN or Infinity. Check that all room attributes are valid numbers."
  else
    let qs := values.map JsNum.val
    let mn := listMin qs
    let mx := listMax qs
    if mx = mn then
      .ok (qs.map (fun _ => 1))
    else
      .ok (qs.map (fun value => (value - mn) / (mx - mn)))

-- ─────────────────────────────────────────────────────────────────────────────
-- People metadata (scoring.ts)
-- ─────────────────────────────────────────────────────────────────────────────

/-- Merges default preference weights with person-specific overrides
(object-spread semantics, field by field). -/
def mergePreferenceWeights (defaults : PreferenceWeights)
    (overrides : Option PreferenceOverrides) : PreferenceWeights :=
  match overrides with
  | Option.none => defaults
  | Option.some o =>
    { size := o.size.getD defaults.size
      windows := o.windows.getD defaults.windows
      attractiveness := o.attractiveness.getD defaults.attractiveness
      bedType := o.bedType.getD defaults.bedType
      sunlight := o.sunlight.getD defaults.sunlight
      storage := o.storage.getD defaults.storage
      quiet := o.quiet.getD defaults.quiet
      kitchenProximity := o.kitchenProximity.getD defaults.kitchenProximity
      ensuite := o.ensuite.getD defaults.ensuite
      floor := o.floor.getD defaults.floor }

/-- Merges default priority weights with person-specific overrides. -/
def mergePriorityWeights (defaults : PriorityWeights)
    (overrides : Option PriorityOverrides) : PriorityWeights :=
  match overrides with
  | Option.none => defaults
  | Option.some o =>
    { foundHouse := o.foundHouse.getD defaults.foundHouse
      handledAgent := o.handledAgent.getD defaults.handledAgent
      attendedViewing := o.attendedViewing.getD defaults.attendedViewing }

/-- Calculates a person's priority score based on their contributions. -/
def calculatePriorityScore (person : Person) (weights : PriorityWeights) : ℚ :=
  (if person.foundHouse then weights.foundHouse else 0) +
  (if person.handledAgent then weights.handledAgent else 0) +
  (if person.attendedViewing then weights.attendedViewing else 0)

/-- Builds metadata for each person including resolved weights and priority
info (body of the map inside buildPeopleMeta). -/
def resolvePersonMeta (defaults : PersonDefaults) (person : Person) : PersonMeta :=
  let preferenceWeights := mergePreferenceWeights defaults.preferenceWeights person.preferenceWeights
  let priorityWeights := mergePriorityWeights defaults.priorityWeights person.priorityWeights
  let priorityScore := calculatePriorityScore person priorityWeights
  let priorityMultiplier := 1 + priorityScore / defaults.priorityScale
  { preferenceWeights := preferenceWeights
    priorityWeights := priorityWeights
    priorityScore := priorityScore
    priorityMultiplier := priorityMultiplier
    safetyConcern := person.safetyConcern.getD defaults.safetyConcern
    hasSafetyConcern := person.hasSafetyConcern.getD false
    kitchenPreference := person.kitchenPreference.getD KitchenPreference.none
    bedUpgradeWeight := person.bedUpgradeWeight.getD defaults.bedUpgradeWeight
    bedDowngradePenalty := person.bedDowngradePenalty.getD defaults.bedDowngradePenalty
    doubleBedPartnerWeight := person.doubleBedPartnerWeight.getD defaults.doubleBedPartnerWeight
    singleBedInternalCoupleWeight := person.singleBedInternalCoupleWeight.getD defaults.singleBedInternalCoupleWeight
    doubleBedInternalCoupleWeight := person.doubleBedInternalCoupleWeight.getD defaults.doubleBedInternalCoupleWeight }

/-- Builds metadata for each person (people.map of the resolution above). -/
def buildPeopleMeta (people : List Person) (defaults : PersonDefaults) : List PersonMeta :=
  people.map (resolvePersonMeta defaults)

-- ─────────────────────────────────────────────────────────────────────────────
-- Room scoring (scoring.ts, scoreRoom)
-- ─────────────────────────────────────────────────────────────────────────────

/-- Determines if a person has safety concerns (per-person setting). -/
def personHasSafetyConcern (meta : PersonMeta) : Bool :=
  meta.hasSafetyConcern && decide ((0 : ℚ) < meta.safetyConcern)

/-- Scores how well a room fits a person based on their preferences.  This is
a direct transcription of scoreRoom: three running totals (preferenceScore,
bonusScore, penaltyScore) accumulated in statement order, then combined
according to the priority mode. -/
def scoreRoom (person : Person) (room : Room) (metrics : RoomMetrics)
    (meta : PersonMeta) (houseMeta : HouseMeta)
    (priorityMode : PriorityMode := PriorityMode.amplify)
    (overrides : ScoringOverrides := {}) : ℚ :=
  let ignored := overrides.ignorePreferences.getD []
  let isIncluded := fun (key : ScoringPreferenceKey) => !(ignored.contains key)
  let preferenceScore : ℚ := 0
  let preferenceScore := if isIncluded .size then
      preferenceScore + metrics.size * meta.preferenceWeights.size else preferenceScore
  let preferenceScore := if isIncluded .windows then
      preferenceScore + metrics.windows * meta.preferenceWeights.windows else preferenceScore
  let preferenceScore := if isIncluded .attractiveness then
      preferenceScore + metrics.attractiveness * meta.preferenceWeights.attractiveness else preferenceScore
  let preferenceScore := if isIncluded .sunlight then
      preferenceScore + metrics.sunlight * meta.preferenceWeights.sunlight else preferenceScore
  let preferenceScore := if isIncluded .storage then
      preferenceScore + metrics.storage * meta.preferenceWeights.storage else preferenceScore
  let preferenceScore := if isIncluded .quiet then
      preferenceScore + metrics.quiet * meta.preferenceWeights.quiet else preferenceScore
  let preferenceScore := if isIncluded .kitchenProximity then
      (if meta.kitchenPreference = .close then
        preferenceScore + metrics.kitchenProximity * meta.preferenceWeights.kitchenProximity
      else if meta.kitchenPreference = .far then
        preferenceScore + (1 - metrics.kitchenProximity) * meta.preferenceWeights.kitchenProximity
      else preferenceScore)
    else preferenceScore
  let preferenceScore := if isIncluded .ensuite then
      preferenceScore + metrics.ensuite * meta.preferenceWeights.ensuite else preferenceScore
  let preferenceScore := if isIncluded .floor then
      preferenceScore + metrics.floorLevel * meta.preferenceWeights.floor else preferenceScore
  let preferenceScore := if isIncluded .bedType then
      preferenceScore + metrics.bedValue * meta.preferenceWeights.bedType else preferenceScore
  let bonusScore : ℚ := 0
  let penaltyScore : ℚ := 0
  let bonusScore := if person.currentBedType = .single ∧ room.bedType = .double then
      bonusScore + meta.bedUpgradeWeight else bonusScore
  let penaltyScore := if person.currentBedType = .double ∧ room.bedType = .single then
      penaltyScore + meta.bedDowngradePenalty else penaltyScore
  let bonusScore := if person.relationship.status = .partnered ∧
      person.relationship.partnerLocation = .external ∧ room.bedType = .double then
      bonusScore + meta.doubleBedPartnerWeight else bonusScore
  let bonusScore := if person.relationship.status = .partnered ∧
      person.relationship.partnerLocation = .house ∧ houseMeta.hasSingleBed then
      let partnerId := person.relationship.partnerId
      let getsDouble : Bool := match partnerId with
        | Option.some pid => decide (person.id < pid)
        | Option.none => false
      if getsDouble && decide (room.bedType = BedType.double) then
        bonusScore + meta.doubleBedInternalCoupleWeight
      else if (!getsDouble) && decide (room.bedType = BedType.single) then
        bonusScore + meta.singleBedInternalCoupleWeight
      else bonusScore
    else bonusScore
  let penaltyScore := if personHasSafetyConcern meta then
      penaltyScore + metrics.safetyRisk * meta.safetyConcern else penaltyScore
  if priorityMode = .amplify then
    (preferenceScore + bonusScore - penaltyScore) * meta.priorityMultiplier
  else
    (preferenceScore + bonusScore) * meta.priorityMultiplier - penaltyScore

-- ─────────────────────────────────────────────────────────────────────────────
-- The three running totals as plain sums (the terms of the specification)
-- ─────────────────────────────────────────────────────────────────────────────

/-- Sum of the preference terms of scoreRoom for a given pairing. -/
def preferenceScoreTerms (metrics : RoomMetrics) (meta : PersonMeta)
    (overrides : ScoringOverrides) : ℚ :=
  let ignored := overrides.ignorePreferences.getD []
  let isIncluded := fun (key : ScoringPreferenceKey) => !(ignored.contains key)
  (if isIncluded .size then metrics.size * meta.preferenceWeights.size else 0) +
  (if isIncluded .windows then metrics.windows * meta.preferenceWeights.windows else 0) +
  (if isIncluded .attractiveness then metrics.attractiveness * meta.preferenceWeights.attractiveness else 0) +
  (if isIncluded .sunlight then metrics.sunlight * meta.preferenceWeights.sunlight else 0) +
  (if isIncluded .storage then metrics.storage * meta.preferenceWeights.storage else 0) +
  (if isIncluded .quiet then metrics.quiet * meta.preferenceWeights.quiet else 0) +
  (if isIncluded .kitchenProximity then
    (if meta.kitchenPreference = .close then
      metrics.kitchenProximity * meta.preferenceWeights.kitchenProximity
    else if meta.kitchenPreference = .far then
      (1 - metrics.kitchenProximity) * meta.preferenceWeights.kitchenProximity
    else 0)
  else 0) +
  (if isIncluded .ensuite then metrics.ensuite * meta.preferenceWeights.ensuite else 0) +
  (if isIncluded .floor then metrics.floorLevel * meta.preferenceWeights.floor else 0) +
  (if isIncluded .bedType then metrics.bedValue * meta.preferenceWeights.bedType else 0)

/-- Sum of the bonus terms of scoreRoom for a given pairing. -/
def bonusScoreTerms (person : Person) (room : Room) (meta : PersonMeta)
    (houseMeta : HouseMeta) : ℚ :=
  (if person.currentBedType = .single ∧ room.bedType = .double then meta.bedUpgradeWeight else 0) +
  (if person.relationship.status = .partnered ∧
      person.relationship.partnerLocation = .external ∧ room.bedType = .double then
    meta.doubleBedPartnerWeight else 0) +
  (if person.relationship.status = .partnered ∧
      person.relationship.partnerLocation = .house ∧ houseMeta.hasSingleBed then
    let getsDouble : Bool := match person.relationship.partnerId with
      | Option.some pid => decide (person.id < pid)
      | Option.none => false
    if getsDouble && decide (room.bedType = BedType.double) then meta.doubleBedInternalCoupleWeight
    else if (!getsDouble) && decide (room.bedType = BedType.single) then meta.singleBedInternalCoupleWeight
    else 0
  else 0)

/-- Sum of the penalty terms of scoreRoom for a given pairing. -/
def penaltyScoreTerms (person : Person) (room : Room) (metrics : RoomMetrics)
    (meta : PersonMeta) : ℚ :=
  (if person.currentBedType = .double ∧ room.bedType = .single then meta.bedDowngradePenalty else 0) +
  (if personHasSafetyConcern meta then metrics.safetyRisk * meta.safetyConcern else 0)


-- ─────────────────────────────────────────────────────────────────────────────
-- Stable hash function (assignment.ts)
-- ─────────────────────────────────────────────────────────────────────────────

/-- 32-bit FNV-1a hash of a string, as the unsigned integer the JavaScript
expression (hash >>> 0) denotes.  Each step xors in the UTF-16 code unit of
the next character (Char.toNat for BMP strings) and multiplies by the FNV
prime modulo 2 to the 32, which is the unsigned residue of Math.imul. -/
def fnv1aNat (str : String) : ℕ :=
  str.data.foldl (fun hash c => ((hash ^^^ c.toNat) * 16777619) % 4294967296) 2166136261

/-- Computes a stable hash value for a string using the FNV-1a algorithm,
normalized by the maximum 32-bit value 0xffffffff. -/
def fnv1aHash (str : String) : ℚ :=
  (fnv1aNat str : ℚ) / 4294967295

/-- Computes a deterministic tie-breaker value for a (personId, roomId) pair. -/
def computeTieBreaker (personId : String) (roomId : String) : ℚ :=
  fnv1aHash (personId ++ ":" ++ roomId)

-- ─────────────────────────────────────────────────────────────────────────────
-- Score matrix with epsilon perturbation (assignment.ts)
-- ─────────────────────────────────────────────────────────────────────────────

/-- Builds a perturbed score matrix: every cell receives
epsilon * computeTieBreaker(personId, roomId). -/
def buildPerturbedScores (scores : List (List ℚ)) (people : List Person)
    (rooms : List Room) (epsilon : ℚ := 1 / 1000000000) : List (List ℚ) :=
  scores.mapIdx (fun personIndex personScores =>
    let personId := ((people.get? personIndex).map Person.id).getD ""
    personScores.mapIdx (fun roomIndex score =>
      let roomId := ((rooms.get? roomIndex).map Room.id).getD ""
      let tieBreaker := computeTieBreaker personId roomId
      score + epsilon * tieBreaker))

-- ─────────────────────────────────────────────────────────────────────────────
-- Hungarian algorithm (assignment.ts)
-- ─────────────────────────────────────────────────────────────────────────────

/-- JavaScript strict comparison a < b on numbers extended with Infinity
(none denotes Infinity, as in the minv array and delta variable). -/
def ltInf (a : Option ℚ) (b : Option ℚ) : Bool :=
  match a, b with
  | Option.none, _ => false
  | Option.some _, Option.none => true
  | Option.some q, Option.some r => decide (q < r)

/-- JavaScript subtraction a - d where a may be Infinity (none). -/
def subInf (a : Option ℚ) (d : ℚ) : Option ℚ :=
  match a with
  | Option.none => Option.none
  | Option.some q => Option.some (q - d)

/-- Accumulator of the inner for-loop of the shortest augmenting path search:
the minv and way arrays together with the running delta and j1 variables. -/
structure ScanAcc where
  minv : ℕ → Option ℚ
  way : ℕ → ℕ
  delta : Option ℚ
  j1 : ℕ

/-- One step of the inner for-loop over a column j: merges the reduced cost of
the current row into minv[j] and updates the running minimum delta and its
argument j1.  Used columns are skipped. -/
def scanStep (cost : ℕ → ℕ → ℚ) (u v : ℕ → ℚ) (i0 j0 : ℕ) (used : ℕ → Bool)
    (acc : ScanAcc) (j : ℕ) : ScanAcc :=
  if used j then acc
  else
    let cur := cost (i0 - 1) (j - 1) - u i0 - v j
    let acc1 := if ltInf (Option.some cur) (acc.minv j) then
        { acc with minv := Function.update acc.minv j (Option.some cur),
                   way := Function.update acc.way j j0 }
      else acc
    if ltInf (acc1.minv j) acc1.delta then { acc1 with delta := acc1.minv j, j1 := j }
    else acc1

/-- The inner for-loop over columns j = 1..size. -/
def innerScan (cost : ℕ → ℕ → ℚ) (u v : ℕ → ℚ) (i0 j0 : ℕ) (used : ℕ → Bool)
    (minv : ℕ → Option ℚ) (way : ℕ → ℕ) (size : ℕ) : ScanAcc :=
  (List.range' 1 size).foldl (scanStep cost u v i0 j0 used) ⟨minv, way, Option.none, 0⟩

/-- Mutable state updated by the potential-update for-loop: the row and column
potentials and the minv array. -/
structure UpdAcc where
  u : ℕ → ℚ
  v : ℕ → ℚ
  minv : ℕ → Option ℚ

/-- One step of the potential-update for-loop over a column j: used columns
shift the potentials of their assigned row and of themselves by delta, unused
columns decrease minv[j] by delta. -/
def updateStep (p : ℕ → ℕ) (used : ℕ → Bool) (d : ℚ) (acc : UpdAcc) (j : ℕ) : UpdAcc :=
  if used j then
    { acc with u := Function.update acc.u (p j) (acc.u (p j) + d),
               v := Function.update acc.v j (acc.v j - d) }
  else
    { acc with minv := Function.update acc.minv j (subInf (acc.minv j) d) }

/-- The potential-update for-loop over columns j = 0..size. -/
def applyDelta (p : ℕ → ℕ) (used : ℕ → Bool) (d : ℚ) (u v : ℕ → ℚ)
    (minv : ℕ → Option ℚ) (size : ℕ) : UpdAcc :=
  (List.range (size + 1)).foldl (updateStep p used d) ⟨u, v, minv⟩

/-- State of the do-while augmenting path search. -/
structure InnerState where
  u : ℕ → ℚ
  v : ℕ → ℚ
  way : ℕ → ℕ
  minv : ℕ → Option ℚ
  used : ℕ → Bool
  j0 : ℕ

/-- The do-while loop of the Hungarian algorithm: marks the current column
used, scans for the closest unused column, shifts potentials, and repeats
until the selected column is unmatched.  The fuel counts remaining loop
iterations; none models the (unreachable) divergence of the JavaScript loop
when delta stays Infinity. -/
def findPath (cost : ℕ → ℕ → ℚ) (p : ℕ → ℕ) (size : ℕ) :
    ℕ → InnerState → Option InnerState
  | 0, _ => Option.none
  | fuel + 1, s =>
    let used := Function.update s.used s.j0 true
    let i0 := p s.j0
    let scan := innerScan cost s.u s.v i0 s.j0 used s.minv s.way size
    match scan.delta with
    | Option.none => Option.none
    | Option.some d =>
      let upd := applyDelta p used d s.u s.v scan.minv size
      let s' : InnerState := ⟨upd.u, upd.v, scan.way, upd.minv, used, scan.j1⟩
      if p s'.j0 = 0 then Option.some s' else findPath cost p size fuel s'

/-- Reconstructs the augmenting path by walking the way back-pointers,
shifting the matched row of each visited column. -/
def augment (way : ℕ → ℕ) : ℕ → (ℕ → ℕ) → ℕ → Option (ℕ → ℕ)
  | 0, _, _ => Option.none
  | fuel + 1, p, j0 =>
    if j0 = 0 then Option.some p
    else augment way fuel (Function.update p j0 (p (way j0))) (way j0)

/-- Persistent solver state across outer-loop rounds: the potentials, the
matching p (p j is the row assigned to column j, 0 if none) and the way
array. -/
structure OuterState where
  u : ℕ → ℚ
  v : ℕ → ℚ
  p : ℕ → ℕ
  way : ℕ → ℕ

/-- One round of the outer loop: introduces row i via the virtual column 0,
searches an augmenting path and applies it. -/
def hungarianRound (cost : ℕ → ℕ → ℚ) (size : ℕ) (st : OuterState) (i : ℕ) :
    Option OuterState :=
  let p := Function.update st.p 0 i
  let s0 : InnerState := ⟨st.u, st.v, st.way, fun _ => Option.none, fun _ => false, 0⟩
  match findPath cost p size (size + 2) s0 with
  | Option.none => Option.none
  | Option.some s =>
    match augment s.way (size + 2) p s.j0 with
    | Option.none => Option.none
    | Option.some pAug => Option.some ⟨s.u, s.v, pAug, s.way⟩

/-- Reads entry (i, j) of a row-major matrix (with 0 outside). -/
def entry (matrix : List (List ℚ)) (i j : ℕ) : ℚ :=
  (matrix.getD i []).getD j 0

/-- Solves the assignment problem with the Hungarian algorithm: builds the
negated square cost matrix (padded with zeros for the extra columns), runs
one augmenting round per row, and reads the assigned column of every real
row back off the matching.  Rectangular matrices require rows <= columns;
empty matrices yield the empty assignment.  The error on fuel exhaustion
models the divergence of the JavaScript loop, which is proved unreachable. -/
def hungarian (matrix : List (List ℚ)) : Except String (List ℤ) :=
  let n := matrix.length
  let m := (matrix.head?.map List.length).getD 0
  if n = 0 ∨ m = 0 then .ok []
  else if n > m then
    .error ("Hungarian algorithm requires #people <= #rooms. Got " ++ toString n
      ++ " people and " ++ toString m ++ " rooms.")
  else
    let size := max n m
    let cost : ℕ → ℕ → ℚ := fun i j => if i < n ∧ j < m then -(entry matrix i j) else 0
    match List.foldlM (hungarianRound cost size)
        (⟨fun _ => 0, fun _ => 0, fun _ => 0, fun _ => 0⟩ : OuterState)
        (List.range' 1 size) with
    | Option.none => .error "Hungarian algorithm did not terminate."
    | Option.some st =>
      let result := (List.range' 1 m).foldl (fun res j =>
        let personIndex : ℤ := (st.p j : ℤ) - 1
        if 0 ≤ personIndex ∧ personIndex < (n : ℤ) then
          Function.update res (st.p j - 1) ((j : ℤ) - 1)
        else res) (fun _ => (-1 : ℤ))
      .ok ((List.range n).map result)

-- ─────────────────────────────────────────────────────────────────────────────
-- Integer mirror of the Hungarian algorithm.  The solver only ever adds,
-- subtracts, negates and compares matrix values, so a run on a matrix whose
-- entries are integer multiples of a fixed positive rational is mirrored,
-- step for step, by a run on the integer numerators.  The mirror is kernel
-- computable, which the rational version is not, and the transfer theorem
-- below lets concrete runs of the rational solver be evaluated through it.
-- ─────────────────────────────────────────────────────────────────────────────

/-- Mirror of ltInf over the integers. -/
def ltInfZ (a : Option ℤ) (b : Option ℤ) : Bool :=
  match a, b with
  | Option.none, _ => false
  | Option.some _, Option.none => true
  | Option.some q, Option.some r => decide (q < r)

/-- Mirror of subInf over the integers. -/
def subInfZ (a : Option ℤ) (d : ℤ) : Option ℤ :=
  match a with
  | Option.none => Option.none
  | Option.some q => Option.some (q - d)

/-- Mirror of ScanAcc over the integers. -/
structure ScanAccZ where
  minv : ℕ → Option ℤ
  way : ℕ → ℕ
  delta : Option ℤ
  j1 : ℕ

/-- Mirror of scanStep over the integers. -/
def scanStepZ (cost : ℕ → ℕ → ℤ) (u v : ℕ → ℤ) (i0 j0 : ℕ) (used : ℕ → Bool)
    (acc : ScanAccZ) (j : ℕ) : ScanAccZ :=
  if used j then acc
  else
    let cur := cost (i0 - 1) (j - 1) - u i0 - v j
    let acc1 := if ltInfZ (Option.some cur) (acc.minv j) then
        { acc with minv := Function.update acc.minv j (Option.some cur),
                   way := Function.update acc.way j j0 }
      else acc
    if ltInfZ (acc1.minv j) acc1.delta then { acc1 with delta := acc1.minv j, j1 := j }
    else acc1

/-- Mirror of innerScan over the integers. -/
def innerScanZ (cost : ℕ → ℕ → ℤ) (u v : ℕ → ℤ) (i0 j0 : ℕ) (used : ℕ → Bool)
    (minv : ℕ → Option ℤ) (way : ℕ → ℕ) (size : ℕ) : ScanAccZ :=
  (List.range' 1 size).foldl (scanStepZ cost u v i0 j0 used) ⟨minv, way, Option.none, 0⟩

/-- Mirror of UpdAcc over the integers. -/
structure UpdAccZ where
  u : ℕ → ℤ
  v : ℕ → ℤ
  minv : ℕ → Option ℤ

/-- Mirror of updateStep over the integers. -/
def updateStepZ (p : ℕ → ℕ) (used : ℕ → Bool) (d : ℤ) (acc : UpdAccZ) (j : ℕ) : UpdAccZ :=
  if used j then
    { acc with u := Function.update acc.u (p j) (acc.u (p j) + d),
               v := Function.update acc.v j (acc.v j - d) }
  else
    { acc with minv := Function.update acc.minv j (subInfZ (acc.minv j) d) }

/-- Mirror of applyDelta over the integers. -/
def applyDeltaZ (p : ℕ → ℕ) (used : ℕ → Bool) (d : ℤ) (u v : ℕ → ℤ)
    (minv : ℕ → Option ℤ) (size : ℕ) : UpdAccZ :=
  (List.range (size + 1)).foldl (updateStepZ p used d) ⟨u, v, minv⟩

/-- Mirror of InnerState over the integers. -/
structure InnerStateZ where
  u : ℕ → ℤ
  v : ℕ → ℤ
  way : ℕ → ℕ
  minv : ℕ → Option ℤ
  used : ℕ → Bool
  j0 : ℕ

/-- Mirror of findPath over the integers. -/
def findPathZ (cost : ℕ → ℕ → ℤ) (p : ℕ → ℕ) (size : ℕ) :
    ℕ → InnerStateZ → Option InnerStateZ
  | 0, _ => Option.none
  | fuel + 1, s =>
    let used := Function.update s.used s.j0 true
    let i0 := p s.j0
    let scan := innerScanZ cost s.u s.v i0 s.j0 used s.minv s.way size
    match scan.delta with
    | Option.none => Option.none
    | Option.some d =>
      let upd := applyDeltaZ p used d s.u s.v scan.minv size
      let s' : InnerStateZ := ⟨upd.u, upd.v, scan.way, upd.minv, used, scan.j1⟩
      if p s'.j0 = 0 then Option.some s' else findPathZ cost p size fuel s'

/-- Mirror of OuterState over the integers. -/
structure OuterStateZ where
  u : ℕ → ℤ
  v : ℕ → ℤ
  p : ℕ → ℕ
  way : ℕ → ℕ

/-- Mirror of hungarianRound over the integers. -/
def hungarianRoundZ (cost : ℕ → ℕ → ℤ) (size : ℕ) (st : OuterStateZ) (i : ℕ) :
    Option OuterStateZ :=
  let p := Function.update st.p 0 i
  let s0 : InnerStateZ := ⟨st.u, st.v, st.way, fun _ => Option.none, fun _ => false, 0⟩
  match findPathZ cost p size (size + 2) s0 with
  | Option.none => Option.none
  | Option.some s =>
    match augment s.way (size + 2) p s.j0 with
    | Option.none => Option.none
    | Option.some pAug => Option.some ⟨s.u, s.v, pAug, s.way⟩

/-- Mirror of entry over the integers. -/
def entryZ (matrix : List (List ℤ)) (i j : ℕ) : ℤ :=
  (matrix.getD i []).getD j 0

/-- Mirror of hungarian over the integers. -/
def hungarianZ (matrix : List (List ℤ)) : Except String (List ℤ) :=
  let n := matrix.length
  let m := (matrix.head?.map List.length).getD 0
  if n = 0 ∨ m = 0 then .ok []
  else if n > m then
    .error ("Hungarian algorithm requires #people <= #rooms. Got " ++ toString n
      ++ " people and " ++ toString m ++ " rooms.")
  else
    let size := max n m
    let cost : ℕ → ℕ → ℤ := fun i j => if i < n ∧ j < m then -(entryZ matrix i j) else 0
    match List.foldlM (hungarianRoundZ cost size)
        (⟨fun _ => 0, fun _ => 0, fun _ => 0, fun _ => 0⟩ : OuterStateZ)
        (List.range' 1 size) with
    | Option.none => .error "Hungarian algorithm did not terminate."
    | Option.some st =>
      let result := (List.range' 1 m).foldl (fun res j =>
        let personIndex : ℤ := (st.p j : ℤ) - 1
        if 0 ≤ personIndex ∧ personIndex < (n : ℤ) then
          Function.update res (st.p j - 1) ((j : ℤ) - 1)
        else res) (fun _ => (-1 : ℤ))
      .ok ((List.range n).map result)

-- ─────────────────────────────────────────────────────────────────────────────
-- Main assignment solver (assignment.ts)
-- ─────────────────────────────────────────────────────────────────────────────

/-- Result of the assignment solver: the personId to roomId mapping (a
JavaScript Map modelled as its insertion-ordered entry list) and the total
score. -/
structure AssignmentResult where
  assignment : List (String × String)
  totalScore : ℚ
deriving DecidableEq, Repr

/-- Options for the assignment solver. -/
structure AssignmentOptions where
  deterministicTieBreak : Option Bool := Option.none
  epsilon : Option ℚ := Option.none
deriving DecidableEq, Repr

/-- JavaScript Map.set: overwrites the value of an existing key in place,
otherwise appends the entry. -/
def mapSet (m : List (String × String)) (k v : String) : List (String × String) :=
  if m.any (fun kv => kv.1 = k) then
    m.map (fun kv => if kv.1 = k then (k, v) else kv)
  else m ++ [(k, v)]

/-- JavaScript Map.get. -/
def mapGet (m : List (String × String)) (k : String) : Option String :=
  (m.find? (fun kv => kv.1 = k)).map (fun kv => kv.2)

/-- Solves the room assignment problem optimally: perturbs the score matrix
for deterministic tie-breaking (by default), runs the Hungarian algorithm,
and translates the index assignment into an id-keyed mapping, summing the
original unperturbed scores of the chosen cells. -/
def solveAssignment (scores : List (List ℚ)) (people : List Person)
    (rooms : List Room) (options : AssignmentOptions := {}) :
    Except String AssignmentResult :=
  let deterministicTieBreak := options.deterministicTieBreak.getD true
  let epsilon := options.epsilon.getD (1 / 1000000000)
  if people.length = 0 then .ok ⟨[], 0⟩
  else if people.length > rooms.length then
    .error ("Cannot assign " ++ toString people.length ++ " people to "
      ++ toString rooms.length ++ " rooms. Need at least as many rooms as people.")
  else
    let workingScores := if deterministicTieBreak then
        buildPerturbedScores scores people rooms epsilon
      else scores
    match hungarian workingScores with
    | .error e => .error e
    | .ok indexAssignment =>
      let acc := (List.range people.length).foldl
        (fun acc personIndex =>
          let roomIndex := ((indexAssignment.getD personIndex (-1)).toNat : ℕ)
          let personId := ((people.get? personIndex).map Person.id).getD ""
          let roomId := ((rooms.get? roomIndex).map Room.id).getD ""
          (mapSet acc.1 personId roomId, acc.2 + entry scores personIndex roomIndex))
        (([], 0) : List (String × String) × ℚ)
      .ok ⟨acc.1, acc.2⟩

/-- Person fixture of the solver test suite: only the id matters to the
assignment solver. -/
def mkPerson (id : String) : Person :=
  { id := id, name := id, gender := Gender.other, foundHouse := false,
    handledAgent := false, attendedViewing := false,
    currentBedType := BedType.double,
    relationship := ⟨RelationshipStatus.single, PartnerLocation.none, Option.none⟩ }

/-- Room fixture of the solver test suite: only the id matters to the
assignment solver. -/
def mkRoom (id : String) : Room :=
  { id := id, name := id, sizeSqm := 15, windows := 2, attractiveness := 5,
    bedType := BedType.double, floor := 1, isFrontFacing := false, noise := 3,
    storage := 5, sunlight := 5, nearKitchen := false, ensuite := false }

-- ─────────────────────────────────────────────────────────────────────────────
-- Predicates for the correctness proof of the Hungarian algorithm.
-- Rows and columns are 1-indexed as in the algorithm state; cost is the
-- 0-indexed square cost matrix.
-- ─────────────────────────────────────────────────────────────────────────────

/-- Reduced cost of the cell (r, j) with respect to potentials u, v
(1-indexed row r and column j). -/
def red (cost : ℕ → ℕ → ℚ) (u v : ℕ → ℚ) (r j : ℕ) : ℚ :=
  cost (r - 1) (j - 1) - u r - v j

/-- The column-to-row assignment p matches columns 1..size to the rows 1..k:
matched values lie in 1..k, every such row is hit, and no row is hit twice. -/
def Matches (size k : ℕ) (p : ℕ → ℕ) : Prop :=
  (∀ j, 1 ≤ j → j ≤ size → p j ≤ k)
  ∧ (∀ r, 1 ≤ r → r ≤ k → ∃ j, (1 ≤ j ∧ j ≤ size) ∧ p j = r)
  ∧ (∀ j j', 1 ≤ j → j ≤ size → 1 ≤ j' → j' ≤ size → p j ≠ 0 → p j = p j' → j = j')

/-- Feasibility of the potentials for the first k rows: every reduced cost is
nonnegative. -/
def Feas (size k : ℕ) (cost : ℕ → ℕ → ℚ) (u v : ℕ → ℚ) : Prop :=
  ∀ r j, 1 ≤ r → r ≤ k → 1 ≤ j → j ≤ size → 0 ≤ red cost u v r j

/-- Complementary slackness: every matched pair is tight. -/
def TightOn (size : ℕ) (cost : ℕ → ℕ → ℚ) (u v : ℕ → ℚ) (p : ℕ → ℕ) : Prop :=
  ∀ j, 1 ≤ j → j ≤ size → p j ≠ 0 → red cost u v (p j) j = 0

/-- Invariant of the do-while loop of findPath, stated at the entry of a loop
body.  L lists the columns already marked used, in the order they were
marked; s.j0 is the column about to be marked; i = p 0 is the row being
inserted this round; p is the matching, constant during the loop. -/
structure LoopInv (size i : ℕ) (cost : ℕ → ℕ → ℚ) (p : ℕ → ℕ) (s : InnerState)
    (L : List ℕ) : Prop where
  nodup : (L ++ [s.j0]).Nodup
  usedIff : ∀ j, s.used j = true ↔ j ∈ L
  Lle : ∀ j ∈ L, j ≤ size
  j0le : s.j0 ≤ size
  firstIter : L = [] → s.j0 = 0
  zeroMem : L ≠ [] → 0 ∈ L
  j0pos : L ≠ [] → 1 ≤ s.j0
  Lmatched : ∀ j ∈ L, j ≠ 0 → p j ≠ 0
  minvNone : L = [] → ∀ j, s.minv j = none
  minvIsSome : L ≠ [] → ∀ j, 1 ≤ j → j ≤ size → j ∉ L → j ≠ s.j0 → s.minv j ≠ none
  minvNN : ∀ j, 1 ≤ j → j ≤ size → j ∉ L → j ≠ s.j0 → ∀ q, s.minv j = some q → 0 ≤ q
  minvLB : ∀ j, 1 ≤ j → j ≤ size → j ∉ L → j ≠ s.j0 → ∀ q, s.minv j = some q →
    ∀ jv ∈ L, q ≤ red cost s.u s.v (p jv) j
  minvAT : ∀ j, 1 ≤ j → j ≤ size → j ∉ L → j ≠ s.j0 → ∀ q, s.minv j = some q →
    s.way j ∈ L ∧ red cost s.u s.v (p (s.way j)) j = q
  feasUnvis : ∀ r, 1 ≤ r → r ≤ i - 1 → (∀ jv ∈ L, p jv ≠ r) →
    ∀ j, 1 ≤ j → j ≤ size → 0 ≤ red cost s.u s.v r j
  visExplored : ∀ jv ∈ L, ∀ j ∈ L, 1 ≤ j → 0 ≤ red cost s.u s.v (p jv) j
  j0Explored : s.j0 ≠ 0 → ∀ jv ∈ L, 0 ≤ red cost s.u s.v (p jv) s.j0
  tightMatched : TightOn size cost s.u s.v p
  wayL : ∀ j ∈ L, j ≠ 0 → s.way j ∈ L ∧ L.indexOf (s.way j) < L.indexOf j
    ∧ red cost s.u s.v (p (s.way j)) j = 0
  j0Way : s.j0 ≠ 0 → s.way s.j0 ∈ L ∧ red cost s.u s.v (p (s.way s.j0)) s.j0 = 0

/-- Facts about the matching p that stay constant during one round of the
outer loop inserting row i (p 0 = i was set at round entry). -/
structure RoundStatics (size i : ℕ) (p : ℕ → ℕ) : Prop where
  ipos : 1 ≤ i
  ile : i ≤ size
  p0 : p 0 = i
  pLe : ∀ j, 1 ≤ j → j ≤ size → p j ≤ i - 1
  pInj : ∀ j j', j ≤ size → j' ≤ size → p j ≠ 0 → p j = p j' → j = j'
  pCover : ∀ r, 1 ≤ r → r ≤ i - 1 → ∃ j, (1 ≤ j ∧ j ≤ size) ∧ p j = r

/-- Characterization of the potential-update fold after processing the column
list l, relative to the accumulator acc0 it started from. -/
structure UpdSpec (p : ℕ → ℕ) (used : ℕ → Bool) (d : ℚ) (acc0 : UpdAcc)
    (l : List ℕ) (out : UpdAcc) : Prop where
  uUpd : ∀ j ∈ l, used j = true → out.u (p j) = acc0.u (p j) + d
  uSkip : ∀ r, (∀ j ∈ l, used j = true → p j ≠ r) → out.u r = acc0.u r
  vUpd : ∀ j ∈ l, used j = true → out.v j = acc0.v j - d
  vSkip : ∀ j, j ∉ l ∨ used j = false → out.v j = acc0.v j
  minvUpd : ∀ j ∈ l, used j = false → out.minv j = subInf (acc0.minv j) d
  minvSkip : ∀ j, j ∉ l ∨ used j = true → out.minv j = acc0.minv j

/-- Nonstrict comparison on numbers extended with Infinity: a is less than or
equal to b exactly when b is not strictly below a. -/
def leInf (a b : Option ℚ) : Prop := ltInf b a = false

/-- Characterization of the inner scan fold after processing the column list
l, relative to the accumulator acc0 it started from. -/
structure ScanSpec (cost : ℕ → ℕ → ℚ) (u v : ℕ → ℚ) (i0 j0 : ℕ) (used : ℕ → Bool)
    (acc0 : ScanAcc) (l : List ℕ) (out : ScanAcc) : Prop where
  minvMerge : ∀ j ∈ l, used j = false →
    out.minv j = (if ltInf (Option.some (red cost u v i0 j)) (acc0.minv j) then
        Option.some (red cost u v i0 j) else acc0.minv j)
    ∧ out.way j = (if ltInf (Option.some (red cost u v i0 j)) (acc0.minv j) then j0
        else acc0.way j)
  minvSkip : ∀ j, j ∉ l → out.minv j = acc0.minv j ∧ out.way j = acc0.way j
  minvUsed : ∀ j, used j = true → out.minv j = acc0.minv j ∧ out.way j = acc0.way j
  deltaAttain : (out.delta = acc0.delta ∧ out.j1 = acc0.j1)
    ∨ (out.j1 ∈ l ∧ used out.j1 = false ∧ out.delta = out.minv out.j1)
  deltaMin : ∀ j ∈ l, used j = false → leInf out.delta (out.minv j)
  deltaMono : leInf out.delta acc0.delta

/-- The remaining back-pointer chain from the current column down to the
virtual column 0: each node is linked by way, below size, tight for the
current matching, and the current column does not reappear. -/
def AugChain (cost : ℕ → ℕ → ℚ) (uu vv : ℕ → ℚ) (way : ℕ → ℕ) (size : ℕ) :
    (ℕ → ℕ) → ℕ → List ℕ → Prop
  | _, j0, [] => j0 = 0
  | p, j0, w :: rest => j0 ≠ 0 ∧ way j0 = w ∧ w ≤ size ∧ j0 ∉ w :: rest
      ∧ red cost uu vv (p w) j0 = 0 ∧ AugChain cost uu vv way size p w rest

/-- Invariant of the augmenting walk: away from the current column, the
matching covers the rows 1..i injectively and tightly. -/
structure AugInv (size i : ℕ) (cost : ℕ → ℕ → ℚ) (uu vv : ℕ → ℚ) (p : ℕ → ℕ)
    (j0 : ℕ) : Prop where
  p0 : p 0 = i
  j0le : j0 ≤ size
  pLe : ∀ j, 1 ≤ j → j ≤ size → p j ≤ i
  cover : ∀ r, 1 ≤ r → r ≤ i → ∃ j, j ≤ size ∧ j ≠ j0 ∧ p j = r
  inj : ∀ j j', j ≤ size → j' ≤ size → j ≠ j0 → j' ≠ j0 → p j ≠ 0 → p j = p j' → j = j'
  tight : ∀ j, 1 ≤ j → j ≤ size → j ≠ j0 → p j ≠ 0 → red cost uu vv (p j) j = 0

/-- Invariant carried across outer-loop rounds: the first k rows are matched,
the potentials are feasible for them, and matched pairs are tight. -/
def RoundInv (size k : ℕ) (cost : ℕ → ℕ → ℚ) (st : OuterState) : Prop :=
  Matches size k st.p ∧ Feas size k cost st.u st.v ∧ TightOn size cost st.u st.v st.p

/-- An index assignment is optimal for the first n rows and m columns of a
score matrix when it selects a valid column injectively for every row and no
injective selection scores a higher total. -/
def IsOptimalAssignment (P : List (List ℚ)) (n m : ℕ) (σ : ℕ → ℕ) : Prop :=
  (∀ k, k < n → σ k < m)
  ∧ (∀ k k', k < n → k' < n → σ k = σ k' → k = k')
  ∧ ∀ τ : ℕ → ℕ, (∀ k, k < n → τ k < m) →
      (∀ k k', k < n → k' < n → τ k = τ k' → k = k') →
      ∑ k in Finset.range n, entry P k (τ k) ≤ ∑ k in Finset.range n, entry P k (σ k)

-- ─────────────────────────────────────────────────────────────────────────────
-- Helper lemmas
-- ─────────────────────────────────────────────────────────────────────────────

/-- Folding an accumulator through a conditional addition equals adding a
conditional term. -/
lemma ite_acc (c : Prop) [Decidable c] (x t : ℚ) :
    (if c then x + t else x) = x + (if c then t else 0) := by
  split <;> simp

/-- Distributes a shared accumulator out of both branches of a conditional. -/
lemma ite_add_fold (c : Prop) [Decidable c] (x a b : ℚ) :
    (if c then x + a else x + b) = x + (if c then a else b) := by
  split <;> rfl

/-- Expansion of scoreRoom into the three running totals: the accumulated
preference, bonus and penalty sums, combined according to the priority mode. -/
lemma scoreRoom_eq_terms (person : Person) (room : Room) (metrics : RoomMetrics)
    (meta : PersonMeta) (houseMeta : HouseMeta) (priorityMode : PriorityMode)
    (overrides : ScoringOverrides) :
    scoreRoom person room metrics meta houseMeta priorityMode overrides =
      if priorityMode = PriorityMode.amplify then
        (preferenceScoreTerms metrics meta overrides
          + bonusScoreTerms person room meta houseMeta
          - penaltyScoreTerms person room metrics meta) * meta.priorityMultiplier
      else
        (preferenceScoreTerms metrics meta overrides
          + bonusScoreTerms person room meta houseMeta) * meta.priorityMultiplier
          - penaltyScoreTerms person room metrics meta := by
  simp only [scoreRoom, preferenceScoreTerms, bonusScoreTerms, penaltyScoreTerms]
  simp only [ite_acc, ite_add_fold]
  split <;> ring

/-- Lower bound for a left fold with min. -/
lemma foldl_min_le_init (l : List ℚ) (a : ℚ) : l.foldl Min.min a ≤ a := by
  induction l generalizing a with
  | nil => simp
  | cons c t ih =>
    simpa using le_trans (ih (min a c)) (min_le_left a c)

/-- The min fold is below every member of the list. -/
lemma foldl_min_le_mem (l : List ℚ) : ∀ (a : ℚ) {b : ℚ}, b ∈ l →
    l.foldl Min.min a ≤ b := by
  induction l with
  | nil => intro a b hb; cases hb
  | cons c t ih =>
    intro a b hb
    rcases List.mem_cons.mp hb with h | h
    · subst h
      simpa using le_trans (foldl_min_le_init t (min a b)) (min_le_right a b)
    · simpa using ih (min a c) h

/-- Upper bound for a left fold with max. -/
lemma le_foldl_max_init (l : List ℚ) (a : ℚ) : a ≤ l.foldl Max.max a := by
  induction l generalizing a with
  | nil => simp
  | cons c t ih =>
    simpa using le_trans (le_max_left a c) (ih (max a c))

/-- The max fold is above every member of the list. -/
lemma le_foldl_max_mem (l : List ℚ) : ∀ (a : ℚ) {b : ℚ}, b ∈ l →
    b ≤ l.foldl Max.max a := by
  induction l with
  | nil => intro a b hb; cases hb
  | cons c t ih =>
    intro a b hb
    rcases List.mem_cons.mp hb with h | h
    · subst h
      simpa using le_trans (le_max_right a b) (le_foldl_max_init t (max a b))
    · simpa using ih (max a c) h

/-- listMin bounds every member from below. -/
lemma listMin_le {qs : List ℚ} {b : ℚ} (hb : b ∈ qs) : listMin qs ≤ b :=
  foldl_min_le_mem qs (qs.headD 0) hb

/-- listMax bounds every member from above. -/
lemma le_listMax {qs : List ℚ} {b : ℚ} (hb : b ∈ qs) : b ≤ listMax qs :=
  le_foldl_max_mem qs (qs.headD 0) hb

-- ─────────────────────────────────────────────────────────────────────────────
-- Transfer between the rational solver and its integer mirror
-- ─────────────────────────────────────────────────────────────────────────────

/-- Comparison transfers along multiplication by a positive constant. -/
lemma ltInf_map (c : ℚ) (hc : 0 < c) (a b : Option ℤ) :
    ltInf (a.map (fun z : ℤ => (z : ℚ) * c)) (b.map (fun z : ℤ => (z : ℚ) * c)) = ltInfZ a b := by
  cases a <;> cases b <;>
    simp [ltInf, ltInfZ, mul_lt_mul_right hc]

/-- Subtraction transfers along multiplication by a positive constant. -/
lemma subInf_map (c : ℚ) (a : Option ℤ) (d : ℤ) :
    subInf (a.map (fun z : ℤ => (z : ℚ) * c)) ((d : ℚ) * c) =
      (subInfZ a d).map (fun z : ℤ => (z : ℚ) * c) := by
  cases a <;> simp [subInf, subInfZ] <;> push_cast <;> ring

/-- Relation between a rational and an integer scan accumulator: the rational
one is the pointwise image of the integer one under multiplication by c. -/
def AccRel (c : ℚ) (aq : ScanAcc) (az : ScanAccZ) : Prop :=
  (∀ j, aq.minv j = (az.minv j).map (fun z : ℤ => (z : ℚ) * c))
  ∧ aq.way = az.way ∧ aq.delta = az.delta.map (fun z : ℤ => (z : ℚ) * c) ∧ aq.j1 = az.j1

/-- scanStep preserves the accumulator relation. -/
lemma scanStep_rel (c : ℚ) (hc : 0 < c) (costQ : ℕ → ℕ → ℚ) (costZ : ℕ → ℕ → ℤ)
    (hcost : ∀ i j, costQ i j = (costZ i j : ℚ) * c)
    (uQ vQ : ℕ → ℚ) (uZ vZ : ℕ → ℤ)
    (hu : ∀ j, uQ j = (uZ j : ℚ) * c) (hv : ∀ j, vQ j = (vZ j : ℚ) * c)
    (i0 j0 : ℕ) (used : ℕ → Bool) (aq : ScanAcc) (az : ScanAccZ)
    (hacc : AccRel c aq az) (j : ℕ) :
    AccRel c (scanStep costQ uQ vQ i0 j0 used aq j) (scanStepZ costZ uZ vZ i0 j0 used az j) := by
  obtain ⟨hminv, hway, hdelta, hj1⟩ := hacc
  unfold scanStep scanStepZ
  by_cases huse : used j
  · simp only [huse, if_true]
    exact ⟨hminv, hway, hdelta, hj1⟩
  · simp only [huse, Bool.false_eq_true, if_false]
    have hcur : costQ (i0 - 1) (j - 1) - uQ i0 - vQ j
        = ((costZ (i0 - 1) (j - 1) - uZ i0 - vZ j : ℤ) : ℚ) * c := by
      rw [hcost, hu, hv]; push_cast; ring
    rw [hcur, hminv j]
    rw [show Option.some (((costZ (i0 - 1) (j - 1) - uZ i0 - vZ j : ℤ) : ℚ) * c)
        = (Option.some (costZ (i0 - 1) (j - 1) - uZ i0 - vZ j)).map (fun z : ℤ => (z : ℚ) * c)
      from rfl]
    rw [ltInf_map c hc]
    by_cases h1 : ltInfZ (Option.some (costZ (i0 - 1) (j - 1) - uZ i0 - vZ j)) (az.minv j) = true
    · simp only [h1, if_true]
      have hminv1 : ∀ j', Function.update aq.minv j
          ((Option.some (costZ (i0 - 1) (j - 1) - uZ i0 - vZ j)).map (fun z : ℤ => (z : ℚ) * c)) j'
          = (Function.update az.minv j
              (Option.some (costZ (i0 - 1) (j - 1) - uZ i0 - vZ j)) j').map
                (fun z : ℤ => (z : ℚ) * c) := by
        intro j'
        by_cases hj : j' = j
        · subst hj; simp
        · simp [Function.update_noteq hj, hminv j']
      rw [hminv1 j, hdelta, ltInf_map c hc]
      by_cases h2 : ltInfZ (Function.update az.minv j
          (Option.some (costZ (i0 - 1) (j - 1) - uZ i0 - vZ j)) j) az.delta = true
      · simp only [h2, if_true]
        exact ⟨hminv1, by rw [hway], rfl, rfl⟩
      · simp only [h2, Bool.false_eq_true, if_false]
        exact ⟨hminv1, by rw [hway], rfl, hj1⟩
    · simp only [h1, Bool.false_eq_true, if_false]
      rw [hminv j, hdelta, ltInf_map c hc]
      by_cases h2 : ltInfZ (az.minv j) az.delta = true
      · simp only [h2, if_true]
        exact ⟨hminv, hway, rfl, rfl⟩
      · simp only [h2, Bool.false_eq_true, if_false]
        exact ⟨hminv, hway, hdelta, hj1⟩

/-- Folding scanStep over any column list preserves the accumulator relation. -/
lemma scan_foldl_rel (c : ℚ) (hc : 0 < c) (costQ : ℕ → ℕ → ℚ) (costZ : ℕ → ℕ → ℤ)
    (hcost : ∀ i j, costQ i j = (costZ i j : ℚ) * c)
    (uQ vQ : ℕ → ℚ) (uZ vZ : ℕ → ℤ)
    (hu : ∀ j, uQ j = (uZ j : ℚ) * c) (hv : ∀ j, vQ j = (vZ j : ℚ) * c)
    (i0 j0 : ℕ) (used : ℕ → Bool) (l : List ℕ) :
    ∀ (aq : ScanAcc) (az : ScanAccZ), AccRel c aq az →
    AccRel c (l.foldl (scanStep costQ uQ vQ i0 j0 used) aq)
      (l.foldl (scanStepZ costZ uZ vZ i0 j0 used) az) := by
  induction l with
  | nil => intro aq az h; exact h
  | cons x xs ih =>
    intro aq az h
    exact ih _ _ (scanStep_rel c hc costQ costZ hcost uQ vQ uZ vZ hu hv i0 j0 used aq az h x)

/-- innerScan preserves the state relation. -/
lemma innerScan_rel (c : ℚ) (hc : 0 < c) (costQ : ℕ → ℕ → ℚ) (costZ : ℕ → ℕ → ℤ)
    (hcost : ∀ i j, costQ i j = (costZ i j : ℚ) * c)
    (uQ vQ : ℕ → ℚ) (uZ vZ : ℕ → ℤ)
    (hu : ∀ j, uQ j = (uZ j : ℚ) * c) (hv : ∀ j, vQ j = (vZ j : ℚ) * c)
    (i0 j0 : ℕ) (used : ℕ → Bool) (minvQ : ℕ → Option ℚ) (minvZ : ℕ → Option ℤ)
    (hminv : ∀ j, minvQ j = (minvZ j).map (fun z : ℤ => (z : ℚ) * c))
    (wayQ wayZ : ℕ → ℕ) (hway : wayQ = wayZ) (size : ℕ) :
    AccRel c (innerScan costQ uQ vQ i0 j0 used minvQ wayQ size)
      (innerScanZ costZ uZ vZ i0 j0 used minvZ wayZ size) := by
  unfold innerScan innerScanZ
  exact scan_foldl_rel c hc costQ costZ hcost uQ vQ uZ vZ hu hv i0 j0 used _ _ _
    ⟨hminv, hway, by simp, rfl⟩

/-- Relation between a rational and an integer potential-update accumulator. -/
def UpdRel (c : ℚ) (aq : UpdAcc) (az : UpdAccZ) : Prop :=
  (∀ j, aq.u j = (az.u j : ℚ) * c) ∧ (∀ j, aq.v j = (az.v j : ℚ) * c)
  ∧ (∀ j, aq.minv j = (az.minv j).map (fun z : ℤ => (z : ℚ) * c))

/-- updateStep preserves the potential-update relation. -/
lemma updateStep_rel (c : ℚ) (p : ℕ → ℕ) (used : ℕ → Bool) (d : ℤ)
    (aq : UpdAcc) (az : UpdAccZ) (h : UpdRel c aq az) (j : ℕ) :
    UpdRel c (updateStep p used ((d : ℚ) * c) aq j) (updateStepZ p used d az j) := by
  obtain ⟨hu, hv, hminv⟩ := h
  unfold updateStep updateStepZ
  by_cases huse : used j
  · simp only [huse, if_true]
    refine ⟨?_, ?_, hminv⟩
    · intro j'
      by_cases hj : j' = p j
      · subst hj; simp [hu]; push_cast; ring
      · simp [Function.update_noteq hj, hu j']
    · intro j'
      by_cases hj : j' = j
      · subst hj; simp [hv]; push_cast; ring
      · simp [Function.update_noteq hj, hv j']
  · simp only [huse, Bool.false_eq_true, if_false]
    refine ⟨hu, hv, ?_⟩
    intro j'
    by_cases hj : j' = j
    · subst hj; simp [hminv, subInf_map]
    · simp [Function.update_noteq hj, hminv j']

/-- Folding updateStep over any column list preserves the relation. -/
lemma upd_foldl_rel (c : ℚ) (p : ℕ → ℕ) (used : ℕ → Bool) (d : ℤ) (l : List ℕ) :
    ∀ (aq : UpdAcc) (az : UpdAccZ), UpdRel c aq az →
    UpdRel c (l.foldl (updateStep p used ((d : ℚ) * c)) aq)
      (l.foldl (updateStepZ p used d) az) := by
  induction l with
  | nil => intro aq az h; exact h
  | cons x xs ih =>
    intro aq az h
    exact ih _ _ (updateStep_rel c p used d aq az h x)

/-- applyDelta preserves the potential-update relation. -/
lemma applyDelta_rel (c : ℚ) (p : ℕ → ℕ) (used : ℕ → Bool) (d : ℤ)
    (uQ vQ : ℕ → ℚ) (uZ vZ : ℕ → ℤ)
    (hu : ∀ j, uQ j = (uZ j : ℚ) * c) (hv : ∀ j, vQ j = (vZ j : ℚ) * c)
    (minvQ : ℕ → Option ℚ) (minvZ : ℕ → Option ℤ)
    (hminv : ∀ j, minvQ j = (minvZ j).map (fun z : ℤ => (z : ℚ) * c)) (size : ℕ) :
    UpdRel c (applyDelta p used ((d : ℚ) * c) uQ vQ minvQ size)
      (applyDeltaZ p used d uZ vZ minvZ size) := by
  unfold applyDelta applyDeltaZ
  exact upd_foldl_rel c p used d _ ⟨uQ, vQ, minvQ⟩ ⟨uZ, vZ, minvZ⟩ ⟨hu, hv, hminv⟩

/-- Relation between a rational and an integer inner (do-while) state. -/
def InnerRel (c : ℚ) (sq : InnerState) (sz : InnerStateZ) : Prop :=
  (∀ j, sq.u j = (sz.u j : ℚ) * c) ∧ (∀ j, sq.v j = (sz.v j : ℚ) * c)
  ∧ sq.way = sz.way
  ∧ (∀ j, sq.minv j = (sz.minv j).map (fun z : ℤ => (z : ℚ) * c))
  ∧ sq.used = sz.used ∧ sq.j0 = sz.j0

/-- findPath over the rationals mirrors findPath over the integers:
both diverge together, or both return related states. -/
lemma findPath_rel (c : ℚ) (hc : 0 < c) (costQ : ℕ → ℕ → ℚ) (costZ : ℕ → ℕ → ℤ)
    (hcost : ∀ i j, costQ i j = (costZ i j : ℚ) * c) (p : ℕ → ℕ) (size : ℕ) :
    ∀ (fuel : ℕ) (sq : InnerState) (sz : InnerStateZ), InnerRel c sq sz →
    (findPath costQ p size fuel sq = Option.none ∧ findPathZ costZ p size fuel sz = Option.none)
    ∨ (∃ tq tz, findPath costQ p size fuel sq = Option.some tq
        ∧ findPathZ costZ p size fuel sz = Option.some tz ∧ InnerRel c tq tz) := by
  intro fuel
  induction fuel with
  | zero => intro sq sz h; exact Or.inl ⟨rfl, rfl⟩
  | succ fuel ih =>
    intro sq sz h
    obtain ⟨hu, hv, hway, hminv, hused, hj0⟩ := h
    simp only [findPath, findPathZ]
    rw [hj0, hused, hway]
    obtain ⟨hsminv, hsway, hsdelta, hsj1⟩ := innerScan_rel c hc costQ costZ hcost
      sq.u sq.v sz.u sz.v hu hv (p sz.j0) sz.j0 (Function.update sz.used sz.j0 true)
      sq.minv sz.minv hminv sz.way sz.way rfl size
    rw [hsdelta]
    cases hdz : (innerScanZ costZ sz.u sz.v (p sz.j0) sz.j0
        (Function.update sz.used sz.j0 true) sz.minv sz.way size).delta with
    | none => exact Or.inl ⟨rfl, rfl⟩
    | some d =>
      simp only [Option.map_some']
      obtain ⟨hu', hv', hminv'⟩ := applyDelta_rel c p (Function.update sz.used sz.j0 true) d
        sq.u sq.v sz.u sz.v hu hv _ _ hsminv size
      rw [hsj1, hsway]
      by_cases hexit : p (innerScanZ costZ sz.u sz.v (p sz.j0) sz.j0
          (Function.update sz.used sz.j0 true) sz.minv sz.way size).j1 = 0
      · simp only [hexit, if_true]
        exact Or.inr ⟨_, _, rfl, rfl, hu', hv', rfl, hminv', rfl, rfl⟩
      · simp only [hexit, if_false]
        exact ih _ _ ⟨hu', hv', rfl, hminv', rfl, rfl⟩

/-- Relation between a rational and an integer outer state. -/
def OuterRel (c : ℚ) (sq : OuterState) (sz : OuterStateZ) : Prop :=
  (∀ j, sq.u j = (sz.u j : ℚ) * c) ∧ (∀ j, sq.v j = (sz.v j : ℚ) * c)
  ∧ sq.p = sz.p ∧ sq.way = sz.way

/-- One outer round over the rationals mirrors one round over the integers. -/
lemma hungarianRound_rel (c : ℚ) (hc : 0 < c) (costQ : ℕ → ℕ → ℚ) (costZ : ℕ → ℕ → ℤ)
    (hcost : ∀ i j, costQ i j = (costZ i j : ℚ) * c) (size : ℕ)
    (sq : OuterState) (sz : OuterStateZ) (h : OuterRel c sq sz) (i : ℕ) :
    (hungarianRound costQ size sq i = Option.none ∧ hungarianRoundZ costZ size sz i = Option.none)
    ∨ (∃ tq tz, hungarianRound costQ size sq i = Option.some tq
        ∧ hungarianRoundZ costZ size sz i = Option.some tz ∧ OuterRel c tq tz) := by
  obtain ⟨hu, hv, hp, hway⟩ := h
  simp only [hungarianRound, hungarianRoundZ]
  rw [hp, hway]
  rcases findPath_rel c hc costQ costZ hcost (Function.update sz.p 0 i) size
      (size + 2) ⟨sq.u, sq.v, sz.way, fun _ => Option.none, fun _ => false, 0⟩
      ⟨sz.u, sz.v, sz.way, fun _ => Option.none, fun _ => false, 0⟩
      ⟨hu, hv, rfl, fun _ => rfl, rfl, rfl⟩ with
    ⟨h1, h2⟩ | ⟨tq, tz, h1, h2, htu, htv, htway, htminv, htused, htj0⟩
  · rw [h1, h2]
    exact Or.inl ⟨rfl, rfl⟩
  · rw [h1, h2]
    dsimp only
    rw [htway, htj0]
    cases haug : augment tz.way (size + 2) (Function.update sz.p 0 i) tz.j0 with
    | none => exact Or.inl ⟨rfl, rfl⟩
    | some pAug => exact Or.inr ⟨_, _, rfl, rfl, htu, htv, rfl, rfl⟩

/-- Matrix entries transfer along the entrywise scaling map. -/
lemma entry_map (c : ℚ) (M : List (List ℤ)) (i j : ℕ) :
    entry (M.map (List.map (fun z : ℤ => (z : ℚ) * c))) i j = (entryZ M i j : ℚ) * c := by
  unfold entry entryZ
  simp only [List.getD, List.get?_eq_getElem?, List.getElem?_map]
  cases h : M[i]? with
  | none => simp
  | some row =>
    simp only [Option.map_some', Option.getD_some, List.getElem?_map]
    cases h2 : row[j]? with
    | none => simp
    | some x => simp

/-- Transfer theorem: a run of the rational Hungarian solver on a matrix whose
entries are integer multiples of a fixed positive rational equals the run of
the integer mirror on the numerators. -/
theorem hungarian_transfer (c : ℚ) (hc : 0 < c) (M : List (List ℤ)) :
    hungarian (M.map (List.map (fun z : ℤ => (z : ℚ) * c))) = hungarianZ M := by
  unfold hungarian hungarianZ
  have hlen : (M.map (List.map (fun z : ℤ => (z : ℚ) * c))).length = M.length := by simp
  have hm : ((M.map (List.map (fun z : ℤ => (z : ℚ) * c))).head?.map List.length).getD 0
      = (M.head?.map List.length).getD 0 := by
    rcases M with _ | ⟨row, rest⟩ <;> simp
  rw [hlen, hm]
  by_cases h0 : M.length = 0 ∨ (M.head?.map List.length).getD 0 = 0
  · simp only [h0, if_true]
  · simp only [h0, if_false]
    by_cases h1 : M.length > (M.head?.map List.length).getD 0
    · simp only [h1, if_true]
    · simp only [h1, if_false]
      have hcost : ∀ i j,
          (fun i j => if i < M.length ∧ j < (M.head?.map List.length).getD 0 then
            -(entry (M.map (List.map (fun z : ℤ => (z : ℚ) * c))) i j) else 0) i j
          = (((fun i j => if i < M.length ∧ j < (M.head?.map List.length).getD 0 then
              -(entryZ M i j) else 0) i j : ℤ) : ℚ) * c := by
        intro i j
        dsimp only
        by_cases hb : i < M.length ∧ j < (M.head?.map List.length).getD 0
        · rw [if_pos hb, if_pos hb, entry_map]
          push_cast
          ring
        · rw [if_neg hb, if_neg hb]
          simp
      set costQ := fun i j => if i < M.length ∧ j < (M.head?.map List.length).getD 0 then
        -(entry (M.map (List.map (fun z : ℤ => (z : ℚ) * c))) i j) else 0 with hcq
      set costZ := fun i j => if i < M.length ∧ j < (M.head?.map List.length).getD 0 then
        -(entryZ M i j) else 0 with hcz
      set size := max M.length ((M.head?.map List.length).getD 0) with hsize
      have hfold : ∀ (l : List ℕ) (sq : OuterState) (sz : OuterStateZ), OuterRel c sq sz →
          (List.foldlM (hungarianRound costQ size) sq l = Option.none
            ∧ List.foldlM (hungarianRoundZ costZ size) sz l = Option.none)
          ∨ (∃ tq tz, List.foldlM (hungarianRound costQ size) sq l = Option.some tq
              ∧ List.foldlM (hungarianRoundZ costZ size) sz l = Option.some tz
              ∧ OuterRel c tq tz) := by
        intro l
        induction l with
        | nil => intro sq sz h; exact Or.inr ⟨sq, sz, rfl, rfl, h⟩
        | cons x xs ih =>
          intro sq sz h
          simp only [List.foldlM_cons]
          rcases hungarianRound_rel c hc costQ costZ hcost size sq sz h x with
            ⟨h1, h2⟩ | ⟨tq, tz, h1, h2, hrel⟩
          · rw [h1, h2]; exact Or.inl ⟨rfl, rfl⟩
          · rw [h1, h2]
            simpa using ih tq tz hrel
      rcases hfold (List.range' 1 size)
          ⟨fun _ => 0, fun _ => 0, fun _ => 0, fun _ => 0⟩
          ⟨fun _ => 0, fun _ => 0, fun _ => 0, fun _ => 0⟩
          ⟨fun _ => by simp, fun _ => by simp, rfl, rfl⟩ with
        ⟨h1, h2⟩ | ⟨tq, tz, h1, h2, htu, htv, htp, htway⟩
      · rw [h1, h2]
      · rw [h1, h2]
        dsimp only
        rw [htp]

-- ─────────────────────────────────────────────────────────────────────────────
-- Claim C4
-- ─────────────────────────────────────────────────────────────────────────────

/-- C4: for every person, room, room metrics, person meta, house meta and
override set, scoreRoom with priority mode amplify returns
(preferenceScore + bonusScore - penaltyScore) * priorityMultiplier, and with
priority mode bonus returns
(preferenceScore + bonusScore) * priorityMultiplier - penaltyScore, where the
three components are the sums of the preference, bonus and penalty terms
defined for that pairing. -/
theorem claim4_scoreRoom_mode_combination (person : Person) (room : Room)
    (metrics : RoomMetrics) (meta : PersonMeta) (houseMeta : HouseMeta)
    (overrides : ScoringOverrides) :
    scoreRoom person room metrics meta houseMeta PriorityMode.amplify overrides =
      (preferenceScoreTerms metrics meta overrides
        + bonusScoreTerms person room meta houseMeta
        - penaltyScoreTerms person room metrics meta) * meta.priorityMultiplier
    ∧ scoreRoom person room metrics meta houseMeta PriorityMode.bonus overrides =
      (preferenceScoreTerms metrics meta overrides
        + bonusScoreTerms person room meta houseMeta) * meta.priorityMultiplier
        - penaltyScoreTerms person room metrics meta := by
  refine ⟨?_, ?_⟩ <;> rw [scoreRoom_eq_terms] <;> simp

-- ─────────────────────────────────────────────────────────────────────────────
-- Claim C5
-- ─────────────────────────────────────────────────────────────────────────────

/-- C5: for every person partnered with a partner in the house, when the house
has at least one single-bed room the score gained over the same person with a
single relationship is exactly the double-room internal-couple bonus on double
rooms when the person's id sorts lexicographically before the partner's id,
and exactly the single-room internal-couple bonus on single rooms otherwise
(so swapping which partner has the smaller id swaps the roles); when the house
has no single-bed room no internal-couple bonus is granted. -/
theorem claim5_internal_couple_split (a : Person) (pid : String) (room : Room)
    (metrics : RoomMetrics) (meta : PersonMeta) (mode : PriorityMode)
    (ov : ScoringOverrides) :
    (scoreRoom { a with relationship :=
          ⟨RelationshipStatus.partnered, PartnerLocation.house, Option.some pid⟩ }
        room metrics meta ⟨true⟩ mode ov
      - scoreRoom { a with relationship :=
          ⟨RelationshipStatus.single, PartnerLocation.none, Option.none⟩ }
        room metrics meta ⟨true⟩ mode ov
      = meta.priorityMultiplier *
          (if a.id < pid then
            (if room.bedType = BedType.double then meta.doubleBedInternalCoupleWeight else 0)
          else
            (if room.bedType = BedType.single then meta.singleBedInternalCoupleWeight else 0)))
    ∧ (scoreRoom { a with relationship :=
          ⟨RelationshipStatus.partnered, PartnerLocation.house, Option.some pid⟩ }
        room metrics meta ⟨false⟩ mode ov
      - scoreRoom { a with relationship :=
          ⟨RelationshipStatus.single, PartnerLocation.none, Option.none⟩ }
        room metrics meta ⟨false⟩ mode ov = 0) := by
  constructor <;>
    · rw [scoreRoom_eq_terms, scoreRoom_eq_terms]
      simp only [bonusScoreTerms, penaltyScoreTerms]
      by_cases hlt : a.id < pid <;> rcases mode <;> rcases room.bedType <;>
        simp [hlt] <;> ring

-- ─────────────────────────────────────────────────────────────────────────────
-- Claim C6
-- ─────────────────────────────────────────────────────────────────────────────

/-- Let-free expansion of normalizeValues. -/
lemma normalizeValues_expand (values : List JsNum) :
    normalizeValues values =
      if values.length = 0 then .ok []
      else if values.any (fun v => !v.isFinite) then
        .error "Cannot normalize values: array contains NaN or Infinity. Check that all room attributes are valid numbers."
      else if listMax (values.map JsNum.val) = listMin (values.map JsNum.val) then
        .ok ((values.map JsNum.val).map (fun _ => 1))
      else
        .ok ((values.map JsNum.val).map (fun value =>
          (value - listMin (values.map JsNum.val)) /
            (listMax (values.map JsNum.val) - listMin (values.map JsNum.val)))) := rfl

/-- C6: normalizeValues maps the empty array to the empty array, fails exactly
when some input is NaN or infinite, and on success returns a same-length array
whose entries lie in the interval from 0 to 1; all-equal inputs map to all 1s,
and otherwise every output is (v - min) / (max - min). -/
theorem claim6_normalizeValues (values : List JsNum) :
    (values = [] → normalizeValues values = Except.ok [])
    ∧ ((∃ v ∈ values, v.isFinite = false) ↔ ∃ msg, normalizeValues values = Except.error msg)
    ∧ (∀ out, normalizeValues values = Except.ok out →
        out.length = values.length
        ∧ (∀ q ∈ out, 0 ≤ q ∧ q ≤ 1)
        ∧ ((values ≠ [] ∧ ∀ v ∈ values, ∀ w ∈ values, v = w) →
            out = values.map fun _ => 1)
        ∧ (listMax (values.map JsNum.val) ≠ listMin (values.map JsNum.val) →
            out = values.map fun v =>
              (v.val - listMin (values.map JsNum.val)) /
                (listMax (values.map JsNum.val) - listMin (values.map JsNum.val)))) := by
  refine ⟨?_, ?_, ?_⟩
  · intro h; subst h; rfl
  · rw [normalizeValues_expand]
    split
    · rename_i hlen
      have hnil : values = [] := List.length_eq_zero.mp (by omega)
      subst hnil; simp
    · split
      · rename_i hlen hany
        simp only [List.any_eq_true, Bool.not_eq_true'] at hany
        constructor
        · intro _; exact ⟨_, rfl⟩
        · intro _; exact hany.imp fun v hv => ⟨hv.1, hv.2⟩
      · rename_i hlen hany
        simp only [List.any_eq_true, Bool.not_eq_true'] at hany
        push_neg at hany
        constructor
        · rintro ⟨v, hv, hfin⟩
          exact absurd (hany v hv) (by simp [hfin])
        · rintro ⟨msg, hmsg⟩
          split at hmsg <;> simp at hmsg
  · intro out hout
    rw [normalizeValues_expand] at hout
    split at hout
    · rename_i hlen
      have hnil : values = [] := List.length_eq_zero.mp (by omega)
      subst hnil
      simp at hout
      subst hout
      simp
    · split at hout
      · simp at hout
      · rename_i hlen hany
        simp only [List.any_eq_true, Bool.not_eq_true'] at hany
        push_neg at hany
        have hne : values ≠ [] := fun h => hlen (by simp [h])
        have hqsne : values.map JsNum.val ≠ [] := by simpa using hne
        have hmem0 : (values.map JsNum.val).headD 0 ∈ values.map JsNum.val := by
          rcases values with _ | ⟨v, t⟩
          · exact absurd rfl hne
          · simp
        have hminmax : listMin (values.map JsNum.val) ≤ listMax (values.map JsNum.val) :=
          le_trans (listMin_le hmem0) (le_listMax hmem0)
        split at hout
        · rename_i heq
          have hout' : out = (values.map JsNum.val).map fun _ => (1 : ℚ) := by
            simpa using hout.symm
          subst hout'
          refine ⟨by simp, ?_, ?_, ?_⟩
          · intro q hq
            simp only [List.mem_map] at hq
            obtain ⟨v, _, hv⟩ := hq
            simp [← hv]
          · intro _
            rw [List.map_map]
            rfl
          · intro hne'
            exact absurd heq hne'
        · rename_i heq
          have hout' : out = (values.map JsNum.val).map fun value =>
              (value - listMin (values.map JsNum.val)) /
                (listMax (values.map JsNum.val) - listMin (values.map JsNum.val)) := by
            simpa using hout.symm
          subst hout'
          have hlt : listMin (values.map JsNum.val) < listMax (values.map JsNum.val) :=
            lt_of_le_of_ne hminmax (fun h => heq h.symm)
          have hpos : 0 < listMax (values.map JsNum.val) - listMin (values.map JsNum.val) := by
            linarith
          refine ⟨by simp, ?_, ?_, ?_⟩
          · intro q hq
            rw [List.map_map] at hq
            simp only [List.mem_map, Function.comp] at hq
            obtain ⟨w, hw, hwq⟩ := hq
            have h1 : listMin (values.map JsNum.val) ≤ w.val :=
              listMin_le (List.mem_map_of_mem JsNum.val hw)
            have h2 : w.val ≤ listMax (values.map JsNum.val) :=
              le_listMax (List.mem_map_of_mem JsNum.val hw)
            subst hwq
            constructor
            · exact div_nonneg (by linarith) (le_of_lt hpos)
            · rw [div_le_one hpos]; linarith
          · rintro ⟨-, hall⟩
            exfalso
            apply heq
            rcases values with _ | ⟨v, t⟩
            · exact absurd rfl hne
            · have : ∀ w ∈ (v :: t), w = v := fun w hw => hall w hw v (by simp)
              have hval : ∀ q ∈ (v :: t).map JsNum.val, q = v.val := by
                intro q hq
                simp only [List.mem_map] at hq
                obtain ⟨w, hw, hwq⟩ := hq
                rw [← hwq, this w hw]
              have hmin : listMin ((v :: t).map JsNum.val) = v.val :=
                le_antisymm (listMin_le (by simp))
                  (by
                    unfold listMin
                    generalize hL : (v :: t).map JsNum.val = L at hval
                    have hhead : L.headD 0 = v.val := by
                      rcases L with _ | ⟨q, L'⟩
                      · simp at hL
                      · exact hval q (by simp)
                    rw [hhead]
                    clear hL hhead
                    induction L with
                    | nil => simp
                    | cons q L' ih =>
                      have hq : q = v.val := hval q (by simp)
                      subst hq
                      simpa using ih (fun q hq => hval q (by simp [hq])))
              have hmax : listMax ((v :: t).map JsNum.val) = v.val :=
                le_antisymm
                  (by
                    unfold listMax
                    generalize hL : (v :: t).map JsNum.val = L at hval
                    have hhead : L.headD 0 = v.val := by
                      rcases L with _ | ⟨q, L'⟩
                      · simp at hL
                      · exact hval q (by simp)
                    rw [hhead]
                    clear hL hhead
                    induction L with
                    | nil => simp
                    | cons q L' ih =>
                      have hq : q = v.val := hval q (by simp)
                      subst hq
                      simpa using ih (fun q hq => hval q (by simp [hq])))
                  (le_listMax (by simp))
              rw [hmin, hmax]
          · intro _
            rw [List.map_map]
            rfl

/-- Witness for C6: the specification's concrete example, normalizing the
array 3, 7 yields 0, 1, whose length matches and whose entries are in range. -/
theorem claim6_normalizeValues_witness :
    normalizeValues [JsNum.num 3, JsNum.num 7] = Except.ok [0, 1]
    ∧ ([(0 : ℚ), 1].length = [JsNum.num 3, JsNum.num 7].length
        ∧ ∀ q ∈ [(0 : ℚ), 1], 0 ≤ q ∧ q ≤ 1) := by
  have h0 : normalizeValues [JsNum.num 3, JsNum.num 7] = Except.ok [0, 1] := by
    norm_num [normalizeValues_expand, listMin, listMax, JsNum.val, JsNum.isFinite,
      min_def, max_def]
  have h := (claim6_normalizeValues [JsNum.num 3, JsNum.num 7]).2.2 [0, 1] h0
  exact ⟨h0, h.1, h.2.1⟩

-- ─────────────────────────────────────────────────────────────────────────────
-- Claim C7
-- ─────────────────────────────────────────────────────────────────────────────

/-- The FNV-1a hash is a 32-bit value. -/
lemma fnv1aNat_lt (str : String) : fnv1aNat str < 4294967296 := by
  unfold fnv1aNat
  generalize str.data = l
  have h : ∀ (l : List Char) (h0 : ℕ), h0 < 4294967296 →
      l.foldl (fun hash c => ((hash ^^^ c.toNat) * 16777619) % 4294967296) h0 < 4294967296 := by
    intro l
    induction l with
    | nil => intro h0 hh; simpa using hh
    | cons c t ih =>
      intro h0 hh
      simpa using ih _ (Nat.mod_lt _ (by norm_num))
  exact h l 2166136261 (by norm_num)

/-- Counterexample to C7: the tie-breaker of the pair coxt, acki is exactly 1,
so the returned value does not always lie in the half-open interval from 0
(inclusive) to 1 (exclusive). -/
theorem claim7_counterexample :
    computeTieBreaker "coxt" "acki" = 1 ∧ ¬ computeTieBreaker "coxt" "acki" < 1 := by
  have h : fnv1aNat ("coxt" ++ ":" ++ "acki") = 4294967295 := by decide
  have h1 : computeTieBreaker "coxt" "acki" = 1 := by
    rw [computeTieBreaker, fnv1aHash, h]
    norm_num
  exact ⟨h1, by rw [h1]; exact lt_irrefl 1⟩

/-- C7 (amended): computeTieBreaker returns the 32-bit FNV-1a hash of the
string personId, colon, roomId, interpreted as an unsigned integer and
normalized by the maximum 32-bit value; the returned value always lies in the
closed interval from 0 to 1 (the upper bound is attained, so the interval
cannot be sharpened to a half-open one). -/
theorem claim7_tiebreaker_range (personId roomId : String) :
    computeTieBreaker personId roomId
      = (fnv1aNat (personId ++ ":" ++ roomId) : ℚ) / 4294967295
    ∧ 0 ≤ computeTieBreaker personId roomId
    ∧ computeTieBreaker personId roomId ≤ 1 := by
  refine ⟨rfl, ?_, ?_⟩
  · rw [computeTieBreaker, fnv1aHash]
    positivity
  · rw [computeTieBreaker, fnv1aHash]
    rw [div_le_one (by norm_num)]
    have h := fnv1aNat_lt (personId ++ ":" ++ roomId)
    have h2 : (fnv1aNat (personId ++ ":" ++ roomId) : ℚ) ≤ 4294967295 := by
      exact_mod_cast Nat.lt_succ_iff.mp (by omega)
    linarith

-- ─────────────────────────────────────────────────────────────────────────────
-- Claim C8
-- ─────────────────────────────────────────────────────────────────────────────

/-- Counterexample to C8: a matrix with one row and zero columns has more
rows than columns, yet hungarian returns an empty assignment instead of
rejecting it, silently dropping the row. -/
theorem claim8_counterexample :
    hungarian [([] : List ℚ)] = Except.ok []
    ∧ [([] : List ℚ)].length = 1
    ∧ (∀ msg, hungarian [([] : List ℚ)] ≠ Except.error msg) := by
  refine ⟨rfl, rfl, ?_⟩
  intro msg h
  rw [show hungarian [([] : List ℚ)] = Except.ok [] from rfl] at h
  exact Except.noConfusion h

/-- C8 (amended): solveAssignment fails fast with an error whenever there are
more people than rooms, and hungarian rejects any matrix with more rows than
a positive number of columns; however a matrix with zero columns is returned
as an empty assignment rather than rejected. -/
theorem claim8_n_gt_m_fails :
    (∀ (scores : List (List ℚ)) (people : List Person) (rooms : List Room)
        (options : AssignmentOptions), people.length > rooms.length →
      solveAssignment scores people rooms options
        = Except.error ("Cannot assign " ++ toString people.length ++ " people to "
            ++ toString rooms.length ++ " rooms. Need at least as many rooms as people."))
    ∧ (∀ M : List (List ℚ), M.length > (M.head?.map List.length).getD 0 →
        1 ≤ (M.head?.map List.length).getD 0 →
        hungarian M = Except.error ("Hungarian algorithm requires #people <= #rooms. Got "
          ++ toString M.length ++ " people and "
          ++ toString ((M.head?.map List.length).getD 0) ++ " rooms."))
    ∧ (∀ M : List (List ℚ), (M.head?.map List.length).getD 0 = 0 →
        hungarian M = Except.ok []) := by
  refine ⟨?_, ?_, ?_⟩
  · intro scores people rooms options hgt
    unfold solveAssignment
    rw [if_neg (by omega), if_pos hgt]
  · intro M hgt hpos
    unfold hungarian
    rw [if_neg (by omega), if_pos hgt]
  · intro M hz
    unfold hungarian
    rw [if_pos (Or.inr hz)]

/-- Witness for C8: three people cannot be assigned to two rooms, a 3-row
2-column matrix is rejected by hungarian, and a 1-row 0-column matrix is
returned as an empty assignment. -/
theorem claim8_n_gt_m_fails_witness :
    solveAssignment [[1, 2], [3, 4], [5, 6]]
        [mkPerson "alice", mkPerson "bob", mkPerson "charlie"]
        [mkRoom "room_1", mkRoom "room_2"] {}
      = Except.error ("Cannot assign "
          ++ toString [mkPerson "alice", mkPerson "bob", mkPerson "charlie"].length
          ++ " people to " ++ toString [mkRoom "room_1", mkRoom "room_2"].length
          ++ " rooms. Need at least as many rooms as people.")
    ∧ hungarian [[1, 2], [3, 4], [5, 6]]
      = Except.error ("Hungarian algorithm requires #people <= #rooms. Got "
          ++ toString [[(1 : ℚ), 2], [3, 4], [5, 6]].length ++ " people and "
          ++ toString (([[(1 : ℚ), 2], [3, 4], [5, 6]].head?.map List.length).getD 0)
          ++ " rooms.")
    ∧ hungarian [([] : List ℚ)] = Except.ok [] :=
  ⟨claim8_n_gt_m_fails.1 [[1, 2], [3, 4], [5, 6]]
      [mkPerson "alice", mkPerson "bob", mkPerson "charlie"]
      [mkRoom "room_1", mkRoom "room_2"] {} (by decide),
    claim8_n_gt_m_fails.2.1 [[1, 2], [3, 4], [5, 6]] (by decide) (by decide),
    claim8_n_gt_m_fails.2.2 [([] : List ℚ)] (by decide)⟩

-- ─────────────────────────────────────────────────────────────────────────────
-- Claim C9
-- ─────────────────────────────────────────────────────────────────────────────

/-- Counterexample to C9: with one person and an empty room set (an empty
column set) solveAssignment throws instead of yielding an empty assignment. -/
theorem claim9_counterexample :
    solveAssignment [([] : List ℚ)] [mkPerson "alice"] [] {}
      = Except.error "Cannot assign 1 people to 0 rooms. Need at least as many rooms as people."
    ∧ ∀ r, solveAssignment [([] : List ℚ)] [mkPerson "alice"] [] {}
        ≠ Except.ok r := by
  refine ⟨by decide, ?_⟩
  intro r h
  rw [show solveAssignment [([] : List ℚ)] [mkPerson "alice"] [] {}
      = Except.error "Cannot assign 1 people to 0 rooms. Need at least as many rooms as people."
    from by decide] at h
  exact Except.noConfusion h

/-- C9 (amended): an empty person set yields the empty assignment with total
score 0 whatever the rooms are, and hungarian maps an empty row set or an
empty column set to the empty index assignment; but an empty room set with at
least one person makes solveAssignment fail fast instead. -/
theorem claim9_empty_inputs (scores : List (List ℚ)) (rooms : List Room)
    (options : AssignmentOptions) :
    solveAssignment scores [] rooms options = Except.ok ⟨[], 0⟩
    ∧ hungarian [] = Except.ok []
    ∧ (∀ M : List (List ℚ), M.length = 0 ∨ (M.head?.map List.length).getD 0 = 0 →
        hungarian M = Except.ok [])
    ∧ (∀ people : List Person, people ≠ [] →
        solveAssignment scores people [] options
          = Except.error ("Cannot assign " ++ toString people.length ++ " people to "
              ++ toString ([] : List Room).length
              ++ " rooms. Need at least as many rooms as people.")) := by
  refine ⟨?_, rfl, ?_, ?_⟩
  · simp [solveAssignment]
  · intro M h
    unfold hungarian
    rw [if_pos h]
  · intro people hne
    unfold solveAssignment
    have hlen : people.length ≠ 0 := fun h => hne (List.length_eq_zero.mp h)
    rw [if_neg hlen, if_pos (by simp; omega)]

/-- Witness for C9: the empty input yields the empty assignment, and one
person with no rooms fails. -/
theorem claim9_empty_inputs_witness :
    solveAssignment [] [] [] {} = Except.ok ⟨[], 0⟩
    ∧ hungarian [([] : List ℚ)] = Except.ok []
    ∧ solveAssignment [([] : List ℚ)] [mkPerson "bob"] [] {}
      = Except.error ("Cannot assign " ++ toString [mkPerson "bob"].length ++ " people to "
          ++ toString ([] : List Room).length
          ++ " rooms. Need at least as many rooms as people.") :=
  ⟨(claim9_empty_inputs [] [] {}).1,
    (claim9_empty_inputs [([] : List ℚ)] [] {}).2.2.1 [([] : List ℚ)] (Or.inr rfl),
    (claim9_empty_inputs [([] : List ℚ)] [] {}).2.2.2 [mkPerson "bob"] (by decide)⟩

-- ─────────────────────────────────────────────────────────────────────────────
-- Claim C10
-- ─────────────────────────────────────────────────────────────────────────────

/-- C10: in the deterministic scoring path a person's gender never influences
their score: changing only the gender field leaves the resolved PersonMeta
and every room score unchanged; and the safety penalty, risk times concern,
enters the score exactly when the resolved hasSafetyConcern flag is true and
the resolved safety concern magnitude is strictly positive (scaled by the
priority multiplier in amplify mode). -/
theorem claim10_gender_blind (p : Person) (g : Gender) (defaults : PersonDefaults)
    (room : Room) (metrics : RoomMetrics) (houseMeta : HouseMeta)
    (mode : PriorityMode) (ov : ScoringOverrides) (meta : PersonMeta) :
    buildPeopleMeta [{ p with gender := g }] defaults = buildPeopleMeta [p] defaults
    ∧ scoreRoom { p with gender := g } room metrics meta houseMeta mode ov
        = scoreRoom p room metrics meta houseMeta mode ov
    ∧ (personHasSafetyConcern meta = true
        ↔ meta.hasSafetyConcern = true ∧ 0 < meta.safetyConcern)
    ∧ scoreRoom p room metrics meta houseMeta mode ov
        - scoreRoom p room metrics { meta with hasSafetyConcern := false } houseMeta mode ov
      = -((if personHasSafetyConcern meta then metrics.safetyRisk * meta.safetyConcern else 0)
          * (if mode = PriorityMode.amplify then meta.priorityMultiplier else 1)) := by
  refine ⟨rfl, rfl, ?_, ?_⟩
  · simp [personHasSafetyConcern]
  · rw [scoreRoom_eq_terms, scoreRoom_eq_terms]
    have hP : preferenceScoreTerms metrics { meta with hasSafetyConcern := false } ov
        = preferenceScoreTerms metrics meta ov := rfl
    have hB : bonusScoreTerms p room { meta with hasSafetyConcern := false } houseMeta
        = bonusScoreTerms p room meta houseMeta := rfl
    have hpen : penaltyScoreTerms p room metrics { meta with hasSafetyConcern := false }
        = (if p.currentBedType = BedType.double ∧ room.bedType = BedType.single then
            meta.bedDowngradePenalty else 0) := by
      unfold penaltyScoreTerms
      rw [show personHasSafetyConcern { meta with hasSafetyConcern := false } = false from rfl]
      simp
    have hpen2 : penaltyScoreTerms p room metrics meta
        = (if p.currentBedType = BedType.double ∧ room.bedType = BedType.single then
            meta.bedDowngradePenalty else 0)
          + (if personHasSafetyConcern meta then metrics.safetyRisk * meta.safetyConcern else 0) :=
      rfl
    rw [hP, hB, hpen, hpen2]
    have hmul : ({ meta with hasSafetyConcern := false } : PersonMeta).priorityMultiplier
        = meta.priorityMultiplier := rfl
    rcases mode <;> simp [hmul] <;>
      by_cases hsc : personHasSafetyConcern meta = true <;> simp [hsc] <;> ring

-- ─────────────────────────────────────────────────────────────────────────────
-- Claim C3
-- ─────────────────────────────────────────────────────────────────────────────

/-- The second component of the id-translation fold is the running sum of the
per-index scores. -/
lemma foldl_pair_snd (f : ℕ → ℚ) (G : List (String × String) → ℕ → List (String × String)) :
    ∀ (l : List ℕ) (init : List (String × String) × ℚ),
    (l.foldl (fun acc i => (G acc.1 i, acc.2 + f i)) init).2 = init.2 + (l.map f).sum := by
  intro l
  induction l with
  | nil => intro init; simp
  | cons x xs ih =>
    intro init
    simp only [List.foldl_cons, List.map_cons, List.sum_cons]
    rw [ih]
    ring_nf

/-- C3: whenever solveAssignment succeeds, the reported total score is the sum
of the entries of the original, unperturbed score matrix at the chosen
(person, room) indices, where the chosen indices are the output of the
Hungarian algorithm on the (by default perturbed) working matrix; the epsilon
perturbation never contributes to the reported total. -/
theorem claim3_totalScore_unperturbed (scores : List (List ℚ)) (people : List Person)
    (rooms : List Room) (options : AssignmentOptions) (r : AssignmentResult)
    (h : solveAssignment scores people rooms options = Except.ok r) :
    (people.length = 0 ∧ r.totalScore = 0)
    ∨ ∃ idx, hungarian (if options.deterministicTieBreak.getD true then
          buildPerturbedScores scores people rooms (options.epsilon.getD (1 / 1000000000))
        else scores) = Except.ok idx
      ∧ r.totalScore = ((List.range people.length).map
          (fun i => entry scores i ((idx.getD i (-1)).toNat))).sum := by
  simp only [solveAssignment] at h
  by_cases h0 : people.length = 0
  · rw [if_pos h0] at h
    simp only [Except.ok.injEq] at h
    subst h
    exact Or.inl ⟨h0, rfl⟩
  · rw [if_neg h0] at h
    by_cases h1 : people.length > rooms.length
    · rw [if_pos h1] at h
      exact absurd h (by simp)
    · rw [if_neg h1] at h
      right
      cases hh : hungarian (if options.deterministicTieBreak.getD true then
          buildPerturbedScores scores people rooms (options.epsilon.getD (1 / 1000000000))
        else scores) with
      | error e =>
        rw [hh] at h
        exact absurd h (by simp)
      | ok idx =>
        rw [hh] at h
        simp only [Except.ok.injEq] at h
        subst h
        refine ⟨idx, rfl, ?_⟩
        have := foldl_pair_snd (fun i => entry scores i ((idx.getD i (-1)).toNat))
          (fun a i => mapSet a (((people.get? i).map Person.id).getD "")
            (((rooms.get? ((idx.getD i (-1)).toNat)).map Room.id).getD ""))
          (List.range people.length) ([], 0)
        simpa using this


-- ─────────────────────────────────────────────────────────────────────────────
-- Lemmas about the extended comparison
-- ─────────────────────────────────────────────────────────────────────────────

lemma leInf_refl (a : Option ℚ) : leInf a a := by
  cases a <;> simp [leInf, ltInf]

lemma leInf_trans {a b c : Option ℚ} (h1 : leInf a b) (h2 : leInf b c) : leInf a c := by
  cases a <;> cases b <;> cases c <;>
    simp_all [leInf, ltInf] <;> linarith

lemma leInf_of_ltInf {a b : Option ℚ} (h : ltInf a b = true) : leInf a b := by
  cases a <;> cases b <;> simp_all [leInf, ltInf] <;> linarith

lemma leInf_of_not_ltInf {a b : Option ℚ} (h : ltInf b a = false) : leInf a b := h

lemma ltInf_some_none (q : ℚ) : ltInf (Option.some q) Option.none = true := rfl

lemma not_ltInf_some_none {q : ℚ} (h : ltInf (Option.some q) Option.none = false) : False := by
  simp [ltInf] at h

-- ─────────────────────────────────────────────────────────────────────────────
-- The scan fold satisfies its specification
-- ─────────────────────────────────────────────────────────────────────────────

/-- The empty scan satisfies the specification. -/
lemma scanSpec_nil (cost : ℕ → ℕ → ℚ) (u v : ℕ → ℚ) (i0 j0 : ℕ) (used : ℕ → Bool)
    (acc0 : ScanAcc) : ScanSpec cost u v i0 j0 used acc0 [] acc0 := by
  refine ⟨?_, ?_, ?_, Or.inl ⟨rfl, rfl⟩, ?_, leInf_refl _⟩ <;> simp

/-- One scan step extends the specification by the processed column. -/
lemma scanSpec_step (cost : ℕ → ℕ → ℚ) (u v : ℕ → ℚ) (i0 j0 : ℕ) (used : ℕ → Bool)
    (acc0 : ScanAcc) (l : List ℕ) (out : ScanAcc)
    (hspec : ScanSpec cost u v i0 j0 used acc0 l out) (x : ℕ) (hx : x ∉ l) :
    ScanSpec cost u v i0 j0 used acc0 (l ++ [x]) (scanStep cost u v i0 j0 used out x) := by
  obtain ⟨hmerge, hskip, husedc, hattain, hmin, hmono⟩ := hspec
  unfold scanStep
  have hattain' : (out.delta = acc0.delta ∧ out.j1 = acc0.j1)
      ∨ (out.j1 ∈ l ++ [x] ∧ used out.j1 = false ∧ out.delta = out.minv out.j1) := by
    rcases hattain with h | ⟨h1, h2, h3⟩
    · exact Or.inl h
    · exact Or.inr ⟨List.mem_append_left _ h1, h2, h3⟩
  by_cases hux : used x = true
  · simp only [hux, if_true]
    refine ⟨?_, ?_, husedc, hattain', ?_, hmono⟩
    · intro j hj hju
      rcases List.mem_append.mp hj with hj | hj
      · exact hmerge j hj hju
      · simp only [List.mem_singleton] at hj
        subst hj
        rw [hju] at hux
        exact absurd hux (by simp)
    · intro j hj
      exact hskip j (fun hmem => hj (List.mem_append_left _ hmem))
    · intro j hj hju
      rcases List.mem_append.mp hj with hj | hj
      · exact hmin j hj hju
      · simp only [List.mem_singleton] at hj
        subst hj
        rw [hju] at hux
        exact absurd hux (by simp)
  · replace hux : used x = false := by simpa using hux
    simp only [hux, Bool.false_eq_true, if_false]
    have hx0 : out.minv x = acc0.minv x ∧ out.way x = acc0.way x := hskip x hx
    set cur := red cost u v i0 x with hcur
    have hred : cost (i0 - 1) (x - 1) - u i0 - v x = cur := by rw [hcur]; rfl
    rw [hred]
    by_cases h1 : ltInf (Option.some cur) (out.minv x) = true
    · simp only [h1, if_true]
      have h1' : ltInf (Option.some cur) (acc0.minv x) = true := by rw [← hx0.1]; exact h1
      by_cases h2 : ltInf (Function.update out.minv x (Option.some cur) x) out.delta = true
      · simp only [h2, if_true]
        refine ⟨?_, ?_, ?_, ?_, ?_, ?_⟩
        · intro j hj hju
          rcases List.mem_append.mp hj with hj | hj
          · have hne : j ≠ x := fun h => hx (h ▸ hj)
            simp only [Function.update_noteq hne]
            exact hmerge j hj hju
          · simp only [List.mem_singleton] at hj
            subst hj
            simp [Function.update_same, h1', hx0.2]
        · intro j hj
          have hjl : j ∉ l := fun h => hj (List.mem_append_left _ h)
          have hjx : j ≠ x := fun h => hj (by simp [h])
          simp only [Function.update_noteq hjx]
          exact hskip j hjl
        · intro j hj
          have hjx : j ≠ x := by
            intro h
            rw [h] at hj
            rw [hj] at hux
            exact Bool.noConfusion hux
          simp only [Function.update_noteq hjx]
          exact husedc j hj
        · exact Or.inr ⟨List.mem_append_right _ (by simp), hux, by simp⟩
        · intro j hj hju
          rcases List.mem_append.mp hj with hj | hj
          · have hne : j ≠ x := fun h => hx (h ▸ hj)
            simp only [Function.update_same, Function.update_noteq hne]
            have hold := hmin j hj hju
            have hnew : leInf (Function.update out.minv x (Option.some cur) x) out.delta :=
              leInf_of_ltInf h2
            exact leInf_trans (by simpa using hnew) hold
          · simp only [List.mem_singleton] at hj
            subst hj
            simp only [Function.update_same]
            exact leInf_refl _
        · have hnew : leInf (Function.update out.minv x (Option.some cur) x) out.delta :=
            leInf_of_ltInf h2
          exact leInf_trans (by simpa using hnew) hmono
      · simp only [h2, Bool.false_eq_true, if_false]
        refine ⟨?_, ?_, ?_, ?_, ?_, hmono⟩
        · intro j hj hju
          rcases List.mem_append.mp hj with hj | hj
          · have hne : j ≠ x := fun h => hx (h ▸ hj)
            simp only [Function.update_noteq hne]
            exact hmerge j hj hju
          · simp only [List.mem_singleton] at hj
            subst hj
            simp [Function.update_same, h1', hx0.2]
        · intro j hj
          have hjl : j ∉ l := fun h => hj (List.mem_append_left _ h)
          have hjx : j ≠ x := fun h => hj (by simp [h])
          simp only [Function.update_noteq hjx]
          exact hskip j hjl
        · intro j hj
          have hjx : j ≠ x := by
            intro h
            rw [h] at hj
            rw [hj] at hux
            exact Bool.noConfusion hux
          simp only [Function.update_noteq hjx]
          exact husedc j hj
        · rcases hattain with ⟨hd, hj1⟩ | ⟨hj1l, hj1u, hd⟩
          · exact Or.inl ⟨hd, hj1⟩
          · refine Or.inr ⟨List.mem_append_left _ hj1l, hj1u, ?_⟩
            have hne : out.j1 ≠ x := fun h => hx (h ▸ hj1l)
            simp only [Function.update_noteq hne]
            exact hd
        · intro j hj hju
          rcases List.mem_append.mp hj with hj | hj
          · have hne : j ≠ x := fun h => hx (h ▸ hj)
            simp only [Function.update_noteq hne]
            exact hmin j hj hju
          · simp only [List.mem_singleton] at hj
            subst hj
            simp only [Function.update_same]
            exact leInf_of_not_ltInf (by simpa using h2)
    · simp only [h1, Bool.false_eq_true, if_false]
      have h1' : ltInf (Option.some cur) (acc0.minv x) = false := by rw [← hx0.1]; simpa using h1
      by_cases h2 : ltInf (out.minv x) out.delta = true
      · simp only [h2, if_true]
        refine ⟨?_, ?_, husedc, ?_, ?_, ?_⟩
        · intro j hj hju
          rcases List.mem_append.mp hj with hj | hj
          · exact hmerge j hj hju
          · simp only [List.mem_singleton] at hj
            subst hj
            simp only [h1', Bool.false_eq_true, if_false]
            exact hx0
        · intro j hj
          exact hskip j (fun h => hj (List.mem_append_left _ h))
        · exact Or.inr ⟨List.mem_append_right _ (by simp), hux, by simp⟩
        · intro j hj hju
          rcases List.mem_append.mp hj with hj | hj
          · exact leInf_trans (leInf_of_ltInf h2) (hmin j hj hju)
          · simp only [List.mem_singleton] at hj
            subst hj
            exact leInf_refl _
        · exact leInf_trans (leInf_of_ltInf h2) hmono
      · simp only [h2, Bool.false_eq_true, if_false]
        refine ⟨?_, ?_, husedc, ?_, ?_, hmono⟩
        · intro j hj hju
          rcases List.mem_append.mp hj with hj | hj
          · exact hmerge j hj hju
          · simp only [List.mem_singleton] at hj
            subst hj
            simp only [h1', Bool.false_eq_true, if_false]
            exact hx0
        · intro j hj
          exact hskip j (fun h => hj (List.mem_append_left _ h))
        · exact hattain'
        · intro j hj hju
          rcases List.mem_append.mp hj with hj | hj
          · exact hmin j hj hju
          · simp only [List.mem_singleton] at hj
            subst hj
            exact leInf_of_not_ltInf (by simpa using h2)

/-- The scan fold over any duplicate-free column list satisfies the
specification. -/
lemma scanSpec_foldl (cost : ℕ → ℕ → ℚ) (u v : ℕ → ℚ) (i0 j0 : ℕ) (used : ℕ → Bool)
    (acc0 : ScanAcc) (l : List ℕ) (hnd : l.Nodup) :
    ScanSpec cost u v i0 j0 used acc0 l
      (l.foldl (scanStep cost u v i0 j0 used) acc0) := by
  induction l using List.reverseRecOn with
  | nil => exact scanSpec_nil cost u v i0 j0 used acc0
  | append_singleton l x ih =>
    rw [List.foldl_append, List.foldl_cons, List.foldl_nil]
    have hnd' : l.Nodup := (List.nodup_append.mp hnd).1
    have hx : x ∉ l := by
      have hd := (List.nodup_append.mp hnd).2.2
      intro hmem
      exact hd hmem (by simp)
    exact scanSpec_step cost u v i0 j0 used acc0 l _ (ih hnd') x hx

-- ─────────────────────────────────────────────────────────────────────────────
-- The potential-update fold satisfies its specification
-- ─────────────────────────────────────────────────────────────────────────────

/-- The empty update satisfies the specification. -/
lemma updSpec_nil (p : ℕ → ℕ) (used : ℕ → Bool) (d : ℚ) (acc0 : UpdAcc) :
    UpdSpec p used d acc0 [] acc0 := by
  refine ⟨?_, ?_, ?_, ?_, ?_, ?_⟩ <;> simp

/-- One update step extends the specification by the processed column. -/
lemma updSpec_step (p : ℕ → ℕ) (used : ℕ → Bool) (d : ℚ) (acc0 : UpdAcc)
    (hinj : ∀ j j', used j = true → used j' = true → p j = p j' → j = j')
    (l : List ℕ) (out : UpdAcc) (hspec : UpdSpec p used d acc0 l out)
    (x : ℕ) (hx : x ∉ l) :
    UpdSpec p used d acc0 (l ++ [x]) (updateStep p used d out x) := by
  obtain ⟨huu, hus, hvu, hvs, hmu, hms⟩ := hspec
  unfold updateStep
  by_cases hux : used x = true
  · simp only [hux, if_true]
    refine ⟨?_, ?_, ?_, ?_, ?_, ?_⟩
    · intro j hj hj'
      rcases List.mem_append.mp hj with hj | hj
      · have hne : p j ≠ p x := fun h => hx ((hinj j x hj' hux h) ▸ hj)
        simp only [Function.update_noteq hne]
        exact huu j hj hj'
      · simp only [List.mem_singleton] at hj
        subst hj
        have h0 : out.u (p j) = acc0.u (p j) := by
          refine hus (p j) ?_
          intro j' hj' hjj' hpe
          exact hx ((hinj j' j hjj' hux hpe) ▸ hj')
        simp only [Function.update_same, h0]
    · intro r hr
      have hxr : p x ≠ r := hr x (List.mem_append_right _ (by simp)) hux
      simp only [Function.update_noteq (Ne.symm hxr)]
      exact hus r (fun j hj hju => hr j (List.mem_append_left _ hj) hju)
    · intro j hj hj'
      rcases List.mem_append.mp hj with hj | hj
      · have hne : j ≠ x := fun h => hx (h ▸ hj)
        simp only [Function.update_noteq hne]
        exact hvu j hj hj'
      · simp only [List.mem_singleton] at hj
        subst hj
        simp only [Function.update_same, hvs j (Or.inl hx)]
    · intro j hj
      have hne : j ≠ x := by
        rcases hj with hj | hj
        · exact fun h => hj (h ▸ List.mem_append_right _ (by simp))
        · intro h
          rw [h, hux] at hj
          exact Bool.noConfusion hj
      simp only [Function.update_noteq hne]
      refine hvs j ?_
      rcases hj with hj | hj
      · exact Or.inl (fun h => hj (List.mem_append_left _ h))
      · exact Or.inr hj
    · intro j hj hj'
      rcases List.mem_append.mp hj with hj | hj
      · exact hmu j hj hj'
      · simp only [List.mem_singleton] at hj
        subst hj
        rw [hj'] at hux
        exact Bool.noConfusion hux
    · intro j hj
      refine hms j ?_
      rcases hj with hj | hj
      · exact Or.inl (fun h => hj (List.mem_append_left _ h))
      · exact Or.inr hj
  · replace hux : used x = false := by simpa using hux
    simp only [hux, Bool.false_eq_true, if_false]
    refine ⟨?_, ?_, ?_, ?_, ?_, ?_⟩
    · intro j hj hj'
      rcases List.mem_append.mp hj with hj | hj
      · exact huu j hj hj'
      · simp only [List.mem_singleton] at hj
        subst hj
        rw [hj'] at hux
        exact Bool.noConfusion hux
    · intro r hr
      exact hus r (fun j hj hju => hr j (List.mem_append_left _ hj) hju)
    · intro j hj hj'
      rcases List.mem_append.mp hj with hj | hj
      · exact hvu j hj hj'
      · simp only [List.mem_singleton] at hj
        subst hj
        rw [hj'] at hux
        exact Bool.noConfusion hux
    · intro j hj
      refine hvs j ?_
      rcases hj with hj | hj
      · exact Or.inl (fun h => hj (List.mem_append_left _ h))
      · exact Or.inr hj
    · intro j hj hj'
      rcases List.mem_append.mp hj with hj | hj
      · have hne : j ≠ x := fun h => hx (h ▸ hj)
        simp only [Function.update_noteq hne]
        exact hmu j hj hj'
      · simp only [List.mem_singleton] at hj
        subst hj
        simp only [Function.update_same, hms j (Or.inl hx)]
    · intro j hj
      have hjl : j ∉ l ∨ used j = true := by
        rcases hj with hj | hj
        · exact Or.inl (fun h => hj (List.mem_append_left _ h))
        · exact Or.inr hj
      have hne : j ≠ x := by
        rcases hj with hj | hj
        · exact fun h => hj (h ▸ List.mem_append_right _ (by simp))
        · intro h
          rw [h, hux] at hj
          exact Bool.noConfusion hj
      simp only [Function.update_noteq hne]
      exact hms j hjl

/-- The update fold over any duplicate-free column list satisfies the
specification. -/
lemma updSpec_foldl (p : ℕ → ℕ) (used : ℕ → Bool) (d : ℚ) (acc0 : UpdAcc)
    (hinj : ∀ j j', used j = true → used j' = true → p j = p j' → j = j')
    (l : List ℕ) (hnd : l.Nodup) :
    UpdSpec p used d acc0 l (l.foldl (updateStep p used d) acc0) := by
  induction l using List.reverseRecOn with
  | nil => exact updSpec_nil p used d acc0
  | append_singleton l x ih =>
    rw [List.foldl_append, List.foldl_cons, List.foldl_nil]
    have hnd' : l.Nodup := (List.nodup_append.mp hnd).1
    have hx : x ∉ l := by
      have hd := (List.nodup_append.mp hnd).2.2
      intro hmem
      exact hd hmem (by simp)
    exact updSpec_step p used d acc0 hinj l _ (ih hnd') x hx

/-- applyDelta satisfies the update specification on all columns up to size. -/
lemma applyDelta_spec (p : ℕ → ℕ) (used : ℕ → Bool) (d : ℚ) (u v : ℕ → ℚ)
    (minv : ℕ → Option ℚ) (size : ℕ)
    (hinj : ∀ j j', used j = true → used j' = true → p j = p j' → j = j') :
    UpdSpec p used d ⟨u, v, minv⟩ (List.range (size + 1))
      (applyDelta p used d u v minv size) := by
  unfold applyDelta
  exact updSpec_foldl p used d ⟨u, v, minv⟩ hinj _ (List.nodup_range _)

lemma ltInf_some_some (a b : ℚ) :
    ltInf (Option.some a) (Option.some b) = decide (a < b) := rfl

/-- The appended element of a duplicate-free append is not in the prefix. -/
lemma not_mem_of_nodup_append {L : List ℕ} {x : ℕ} (h : (L ++ [x]).Nodup) : x ∉ L := by
  intro hm
  exact (List.nodup_append.mp h).2.2 hm (by simp)

/-- Marking s.j0 used extends the used-set characterization to L ++ [s.j0]. -/
lemma used_update_iff (s : InnerState) (L : List ℕ)
    (husedIff : ∀ j, s.used j = true ↔ j ∈ L) :
    ∀ j, Function.update s.used s.j0 true j = true ↔ j ∈ L ++ [s.j0] := by
  intro j
  by_cases hj : j = s.j0
  · subst hj
    simp
  · rw [Function.update_noteq hj]
    simp [husedIff, hj]

/-- The inner scan satisfies the scan specification on columns 1..size. -/
lemma innerScan_spec (cost : ℕ → ℕ → ℚ) (u v : ℕ → ℚ) (i0 j0 : ℕ) (used : ℕ → Bool)
    (minv : ℕ → Option ℚ) (way : ℕ → ℕ) (size : ℕ) :
    ScanSpec cost u v i0 j0 used ⟨minv, way, Option.none, 0⟩ (List.range' 1 size)
      (innerScan cost u v i0 j0 used minv way size) := by
  unfold innerScan
  exact scanSpec_foldl cost u v i0 j0 used _ _ (List.nodup_range' 1 size 1 (by decide))

/-- After the scan, every unexplored column outside the used set carries a
finite minv value that lower-bounds the reduced costs to every used column's
row, is attained by the way pointer, and is nonnegative past the first
iteration. -/
lemma scan_minv_some (size i : ℕ) (cost : ℕ → ℕ → ℚ) (p : ℕ → ℕ) (s : InnerState)
    (L : List ℕ) (inv : LoopInv size i cost p s L) (hst : RoundStatics size i p)
    (hmatch : s.j0 ≠ 0 → p s.j0 ≠ 0) (scan : ScanAcc)
    (hscan : ScanSpec cost s.u s.v (p s.j0) s.j0 (Function.update s.used s.j0 true)
      ⟨s.minv, s.way, Option.none, 0⟩ (List.range' 1 size) scan)
    (j : ℕ) (h1 : 1 ≤ j) (h2 : j ≤ size) (hj : j ∉ L ++ [s.j0]) :
    ∃ q, scan.minv j = Option.some q
      ∧ (∀ jv ∈ L ++ [s.j0], q ≤ red cost s.u s.v (p jv) j)
      ∧ scan.way j ∈ L ++ [s.j0]
      ∧ red cost s.u s.v (p (scan.way j)) j = q
      ∧ (L ≠ [] → 0 ≤ q) := by
  have hjL : j ∉ L := fun hm => hj (List.mem_append_left _ hm)
  have hjj0 : j ≠ s.j0 := fun h => hj (h ▸ List.mem_append_right _ (by simp))
  have hjr : j ∈ List.range' 1 size := List.mem_range'_1.mpr ⟨h1, by omega⟩
  have hju : Function.update s.used s.j0 true j = false := by
    rw [Function.update_noteq hjj0]
    cases hb : s.used j
    · rfl
    · exact absurd ((inv.usedIff j).mp hb) hjL
  obtain ⟨hmv, hwv⟩ := hscan.minvMerge j hjr hju
  dsimp only at hmv hwv
  -- nonnegativity of the freshly scanned reduced cost, past the first iteration
  have hcurNN : L ≠ [] → 0 ≤ red cost s.u s.v (p s.j0) j := by
    intro hL
    have hj0pos : 1 ≤ s.j0 := inv.j0pos hL
    have hp0 : p s.j0 ≠ 0 := hmatch (by omega)
    have hple : p s.j0 ≤ i - 1 := hst.pLe s.j0 hj0pos inv.j0le
    have hunm : ∀ jv ∈ L, p jv ≠ p s.j0 := by
      intro jv hjv heq
      have : jv = s.j0 := hst.pInj jv s.j0 (inv.Lle jv hjv) inv.j0le (heq ▸ hp0) heq
      exact not_mem_of_nodup_append inv.nodup (this ▸ hjv)
    exact inv.feasUnvis (p s.j0) (Nat.one_le_iff_ne_zero.mpr hp0) hple hunm j h1 h2
  by_cases hc : ltInf (Option.some (red cost s.u s.v (p s.j0) j)) (s.minv j) = true
  · rw [if_pos hc] at hmv hwv
    refine ⟨red cost s.u s.v (p s.j0) j, hmv, ?_, ?_, ?_, hcurNN⟩
    · intro jv hjv
      rcases List.mem_append.mp hjv with hjv | hjv
      · -- an already-visited column: bound through the previous minv value
        cases hb : s.minv j with
        | none =>
          rcases hLe : L with _ | ⟨y, ys⟩
          · simp [hLe] at hjv
          · exact absurd hb (inv.minvIsSome (by simp [hLe]) j h1 h2 hjL hjj0)
        | some qold =>
          rw [hb, ltInf_some_some, decide_eq_true_eq] at hc
          exact le_of_lt (lt_of_lt_of_le hc (inv.minvLB j h1 h2 hjL hjj0 qold hb jv hjv))
      · simp only [List.mem_singleton] at hjv
        subst hjv
        exact le_refl _
    · rw [hwv]
      exact List.mem_append_right _ (by simp)
    · rw [hwv]
  · replace hc : ltInf (Option.some (red cost s.u s.v (p s.j0) j)) (s.minv j) = false := by
      simpa using hc
    rw [if_neg (by simp [hc])] at hmv hwv
    cases hb : s.minv j with
    | none =>
      rw [hb] at hc
      exact absurd hc (by simp [ltInf])
    | some qold =>
      rw [hb] at hmv
      rw [hb, ltInf_some_some, decide_eq_false_iff_not, not_lt] at hc
      obtain ⟨hwL, hwred⟩ := inv.minvAT j h1 h2 hjL hjj0 qold hb
      refine ⟨qold, hmv, ?_, ?_, ?_, fun _ => inv.minvNN j h1 h2 hjL hjj0 qold hb⟩
      · intro jv hjv
        rcases List.mem_append.mp hjv with hjv | hjv
        · exact inv.minvLB j h1 h2 hjL hjj0 qold hb jv hjv
        · simp only [List.mem_singleton] at hjv
          subst hjv
          exact hc
      · rw [hwv]
        exact List.mem_append_left _ hwL
      · rw [hwv]
        exact hwred

/-- Any duplicate-free list of columns whose nonzero members are matched
numbers at most i: the matching maps them injectively into the rows 1..i. -/
lemma matched_length_le (size i : ℕ) (p : ℕ → ℕ) (hst : RoundStatics size i p)
    (l : List ℕ) (hnodup : l.Nodup)
    (hle : ∀ j ∈ l, j ≤ size)
    (hmat : ∀ j ∈ l, j ≠ 0 → p j ≠ 0) :
    l.length ≤ i := by
  have hcard : l.toFinset.card = l.length := List.toFinset_card_of_nodup hnodup
  have hmaps : ∀ x ∈ l.toFinset, p x ∈ Finset.Icc 1 i := by
    intro x hx
    rw [List.mem_toFinset] at hx
    rcases Nat.eq_zero_or_pos x with h0 | hpos
    · subst h0
      rw [hst.p0]
      exact Finset.mem_Icc.mpr ⟨hst.ipos, le_refl i⟩
    · have hne := hmat x hx (by omega)
      have := hst.pLe x hpos (hle x hx)
      exact Finset.mem_Icc.mpr ⟨Nat.one_le_iff_ne_zero.mpr hne, by omega⟩
  have hinj : Set.InjOn p l.toFinset := by
    intro x hx y hy heq
    rw [Finset.mem_coe, List.mem_toFinset] at hx hy
    rcases Nat.eq_zero_or_pos x with h0 | hposx
    · rcases Nat.eq_zero_or_pos y with h0' | hposy
      · omega
      · exfalso
        have hpy := hmat y hy (by omega)
        have hly := hst.pLe y hposy (hle y hy)
        subst h0
        rw [hst.p0] at heq
        omega
    · have hpx := hmat x hx (by omega)
      exact hst.pInj x y (hle x hx) (hle y hy) hpx heq
  calc l.length = l.toFinset.card := hcard.symm
    _ ≤ (Finset.Icc 1 i).card := Finset.card_le_card_of_injOn p hmaps hinj
    _ = i := by rw [Nat.card_Icc]; omega

/-- As long as the used columns number at most size, an unexplored column
exists. -/
lemma unused_exists (size : ℕ) (l : List ℕ) (hlen : l.length ≤ size)
    (hzero : 0 ∈ l) :
    ∃ j, 1 ≤ j ∧ j ≤ size ∧ j ∉ l := by
  by_contra hcon
  push_neg at hcon
  have hsub : List.range (size + 1) ⊆ l := by
    intro x hx
    rw [List.mem_range] at hx
    rcases Nat.eq_zero_or_pos x with h0 | hpos
    · exact h0 ▸ hzero
    · exact hcon x hpos (by omega)
  have h1 : (List.range (size + 1)).toFinset.card ≤ l.toFinset.card :=
    Finset.card_le_card (fun x hx => by
      rw [List.mem_toFinset] at *
      exact hsub hx)
  rw [List.toFinset_card_of_nodup (List.nodup_range _)] at h1
  have h2 : l.toFinset.card ≤ l.length := l.toFinset_card_le
  rw [List.length_range] at h1
  omega

/-- The scan's delta is finite, attained at the unexplored column j1, and is
the least minv value over unexplored columns; it is nonnegative past the
first iteration. -/
lemma scan_delta_char (size i : ℕ) (cost : ℕ → ℕ → ℚ) (p : ℕ → ℕ) (s : InnerState)
    (L : List ℕ) (inv : LoopInv size i cost p s L) (hst : RoundStatics size i p)
    (hmatch : s.j0 ≠ 0 → p s.j0 ≠ 0) (scan : ScanAcc)
    (hscan : ScanSpec cost s.u s.v (p s.j0) s.j0 (Function.update s.used s.j0 true)
      ⟨s.minv, s.way, Option.none, 0⟩ (List.range' 1 size) scan) :
    ∃ d, scan.delta = Option.some d
      ∧ scan.j1 ∉ L ++ [s.j0] ∧ 1 ≤ scan.j1 ∧ scan.j1 ≤ size
      ∧ scan.minv scan.j1 = Option.some d
      ∧ (∀ j, 1 ≤ j → j ≤ size → j ∉ L ++ [s.j0] → ∀ q,
          scan.minv j = Option.some q → d ≤ q)
      ∧ (L ≠ [] → 0 ≤ d) := by
  have hlen : (L ++ [s.j0]).length ≤ i := by
    refine matched_length_le size i p hst (L ++ [s.j0]) inv.nodup ?_ ?_
    · intro j hj
      rcases List.mem_append.mp hj with hj | hj
      · exact inv.Lle j hj
      · simp only [List.mem_singleton] at hj
        exact hj ▸ inv.j0le
    · intro j hj hj0
      rcases List.mem_append.mp hj with hj | hj
      · exact inv.Lmatched j hj hj0
      · simp only [List.mem_singleton] at hj
        exact hj ▸ hmatch (hj ▸ hj0)
  have hzero : 0 ∈ L ++ [s.j0] := by
    rcases hLe : L with _ | ⟨y, ys⟩
    · have := inv.firstIter hLe
      rw [this]
      simp
    · exact List.mem_append_left _ (hLe ▸ inv.zeroMem (by simp [hLe]))
  obtain ⟨jx, hx1, hx2, hx3⟩ := unused_exists size (L ++ [s.j0])
    (le_trans hlen hst.ile) hzero
  obtain ⟨qx, hqx, _, _, _, _⟩ := scan_minv_some size i cost p s L inv hst hmatch
    scan hscan jx hx1 hx2 hx3
  have hxr : jx ∈ List.range' 1 size := List.mem_range'_1.mpr ⟨hx1, by omega⟩
  have hxne : jx ≠ s.j0 := fun h => hx3 (h ▸ List.mem_append_right _ (by simp))
  have hxu : Function.update s.used s.j0 true jx = false := by
    rw [Function.update_noteq hxne]
    cases hb : s.used jx
    · rfl
    · exact absurd ((inv.usedIff jx).mp hb)
        (fun hm => hx3 (List.mem_append_left _ hm))
  have hdmin := hscan.deltaMin jx hxr hxu
  rw [hqx] at hdmin
  cases hd : scan.delta with
  | none =>
    rw [hd] at hdmin
    exact absurd hdmin (by simp [leInf, ltInf])
  | some d =>
    have hattain := hscan.deltaAttain
    rcases hattain with ⟨h1, _⟩ | ⟨hj1mem, hj1used, hj1delta⟩
    · rw [hd] at h1
      exact absurd h1.symm (by simp)
    · rw [List.mem_range'_1] at hj1mem
      have hj1notin : scan.j1 ∉ L ++ [s.j0] := by
        intro hm
        have : Function.update s.used s.j0 true scan.j1 = true := by
          by_cases hq : scan.j1 = s.j0
          · rw [hq]
            simp
          · rw [Function.update_noteq hq]
            exact (inv.usedIff scan.j1).mpr (by
              rcases List.mem_append.mp hm with hm | hm
              · exact hm
              · simp only [List.mem_singleton] at hm
                exact absurd hm hq)
        rw [hj1used] at this
        exact Bool.noConfusion this
      have hminj1 : scan.minv scan.j1 = Option.some d := by
        rw [← hj1delta, hd]
      refine ⟨d, rfl, hj1notin, hj1mem.1, by omega, hminj1, ?_, ?_⟩
      · intro j hj1 hj2 hj3 q hq
        have hjr : j ∈ List.range' 1 size := List.mem_range'_1.mpr ⟨hj1, by omega⟩
        have hjne : j ≠ s.j0 := fun h => hj3 (h ▸ List.mem_append_right _ (by simp))
        have hju : Function.update s.used s.j0 true j = false := by
          rw [Function.update_noteq hjne]
          cases hb : s.used j
          · rfl
          · exact absurd ((inv.usedIff j).mp hb)
              (fun hm => hj3 (List.mem_append_left _ hm))
        have := hscan.deltaMin j hjr hju
        rw [hd, hq] at this
        unfold leInf ltInf at this
        simpa using this
      · intro hL
        obtain ⟨q1, hq1, _, _, _, hNN⟩ := scan_minv_some size i cost p s L inv hst
          hmatch scan hscan scan.j1 hj1mem.1 (by omega) hj1notin
        rw [hminj1] at hq1
        obtain rfl : d = q1 := by injection hq1
        exact hNN hL

/-- One iteration of the do-while body preserves the loop invariant: delta is
finite and the scanned-and-updated state satisfies the invariant with the
column s.j0 appended to the used list. -/
lemma body_step (size i : ℕ) (cost : ℕ → ℕ → ℚ) (p : ℕ → ℕ) (hst : RoundStatics size i p)
    (s : InnerState) (L : List ℕ) (inv : LoopInv size i cost p s L)
    (hmatch : s.j0 ≠ 0 → p s.j0 ≠ 0) (scan : ScanAcc)
    (hscaneq : scan = innerScan cost s.u s.v (p s.j0) s.j0
      (Function.update s.used s.j0 true) s.minv s.way size) :
    ∃ d, scan.delta = Option.some d ∧
      LoopInv size i cost p
        ⟨(applyDelta p (Function.update s.used s.j0 true) d s.u s.v scan.minv size).u,
         (applyDelta p (Function.update s.used s.j0 true) d s.u s.v scan.minv size).v,
         scan.way,
         (applyDelta p (Function.update s.used s.j0 true) d s.u s.v scan.minv size).minv,
         Function.update s.used s.j0 true,
         scan.j1⟩
        (L ++ [s.j0]) := by
  have hscan : ScanSpec cost s.u s.v (p s.j0) s.j0 (Function.update s.used s.j0 true)
      ⟨s.minv, s.way, Option.none, 0⟩ (List.range' 1 size) scan := by
    rw [hscaneq]
    exact innerScan_spec cost s.u s.v (p s.j0) s.j0 _ s.minv s.way size
  obtain ⟨d, hd, hj1notin, hj11, hj1le, hminj1, hdmin, hdNN⟩ :=
    scan_delta_char size i cost p s L inv hst hmatch scan hscan
  refine ⟨d, hd, ?_⟩
  set used' := Function.update s.used s.j0 true with hused'eq
  set upd := applyDelta p used' d s.u s.v scan.minv size with hupdeq
  have husedIff' : ∀ j, used' j = true ↔ j ∈ L ++ [s.j0] := used_update_iff s L inv.usedIff
  have hL'le : ∀ j ∈ L ++ [s.j0], j ≤ size := by
    intro j hj
    rcases List.mem_append.mp hj with hj | hj
    · exact inv.Lle j hj
    · simp only [List.mem_singleton] at hj
      exact hj ▸ inv.j0le
  have hL'p : ∀ j ∈ L ++ [s.j0], p j ≠ 0 := by
    intro j hj
    rcases Nat.eq_zero_or_pos j with h0 | hpos
    · subst h0
      rw [hst.p0]
      have := hst.ipos
      omega
    · rcases List.mem_append.mp hj with hj | hj
      · exact inv.Lmatched j hj (by omega)
      · simp only [List.mem_singleton] at hj
        exact hj ▸ hmatch (by omega)
  have hzero : 0 ∈ L ++ [s.j0] := by
    rcases hLe : L with _ | ⟨y, ys⟩
    · rw [inv.firstIter hLe]
      simp
    · exact List.mem_append_left _ (hLe ▸ inv.zeroMem (by simp [hLe]))
  have hinj : ∀ j j', used' j = true → used' j' = true → p j = p j' → j = j' := by
    intro j j' hj hj' heq
    have hjm := (husedIff' j).mp hj
    have hjm' := (husedIff' j').mp hj'
    exact hst.pInj j j' (hL'le j hjm) (hL'le j' hjm') (hL'p j hjm) heq
  have hU := applyDelta_spec p used' d s.u s.v scan.minv size hinj
  have hmemr : ∀ j ∈ L ++ [s.j0], j ∈ List.range (size + 1) := by
    intro j hj
    rw [List.mem_range]
    have := hL'le j hj
    omega
  have huu : ∀ j ∈ L ++ [s.j0], upd.u (p j) = s.u (p j) + d :=
    fun j hj => hU.uUpd j (hmemr j hj) ((husedIff' j).mpr hj)
  have hvu : ∀ j ∈ L ++ [s.j0], upd.v j = s.v j - d :=
    fun j hj => hU.vUpd j (hmemr j hj) ((husedIff' j).mpr hj)
  have husk : ∀ r, (∀ jv ∈ L ++ [s.j0], p jv ≠ r) → upd.u r = s.u r := by
    intro r hr
    exact hU.uSkip r (fun j hjr hju => hr j ((husedIff' j).mp hju))
  have hvsk : ∀ j, j ∉ L ++ [s.j0] → upd.v j = s.v j := by
    intro j hj
    refine hU.vSkip j (Or.inr ?_)
    cases hb : used' j
    · rfl
    · exact absurd ((husedIff' j).mp hb) hj
  have hmvu : ∀ j, j ≤ size → j ∉ L ++ [s.j0] → upd.minv j = subInf (scan.minv j) d := by
    intro j h2 hj
    refine hU.minvUpd j (List.mem_range.mpr (by omega)) ?_
    cases hb : used' j
    · rfl
    · exact absurd ((husedIff' j).mp hb) hj
  have hredM : ∀ jv ∈ L ++ [s.j0], ∀ j,
      (j ∈ L ++ [s.j0] → red cost upd.u upd.v (p jv) j = red cost s.u s.v (p jv) j)
      ∧ (j ∉ L ++ [s.j0] → red cost upd.u upd.v (p jv) j = red cost s.u s.v (p jv) j - d) := by
    intro jv hjv j
    constructor
    · intro hj
      unfold red
      rw [huu jv hjv, hvu j hj]
      ring
    · intro hj
      unfold red
      rw [huu jv hjv, hvsk j hj]
      ring
  have hredU : ∀ r, (∀ jv ∈ L ++ [s.j0], p jv ≠ r) → ∀ j,
      (j ∈ L ++ [s.j0] → red cost upd.u upd.v r j = red cost s.u s.v r j + d)
      ∧ (j ∉ L ++ [s.j0] → red cost upd.u upd.v r j = red cost s.u s.v r j) := by
    intro r hr j
    constructor
    · intro hj
      unfold red
      rw [husk r hr, hvu j hj]
      ring
    · intro hj
      unfold red
      rw [husk r hr, hvsk j hj]
  refine ⟨?_, ?_, ?_, ?_, ?_, ?_, ?_, ?_, ?_, ?_, ?_, ?_, ?_, ?_, ?_, ?_, ?_, ?_, ?_⟩
  · -- nodup
    rw [List.nodup_append]
    refine ⟨inv.nodup, List.nodup_singleton _, ?_⟩
    intro a ha hb
    simp only [List.mem_singleton] at hb
    subst hb
    exact hj1notin ha
  · -- usedIff
    exact husedIff'
  · -- Lle
    exact hL'le
  · -- j0le
    exact hj1le
  · -- firstIter
    intro h
    exact absurd h (by simp)
  · -- zeroMem
    exact fun _ => hzero
  · -- j0pos
    exact fun _ => hj11
  · -- Lmatched
    exact fun j hj _ => hL'p j hj
  · -- minvNone
    intro h
    exact absurd h (by simp)
  · -- minvIsSome
    intro _ j h1 h2 hjL' hjne
    obtain ⟨q, hq, _, _, _, _⟩ := scan_minv_some size i cost p s L inv hst hmatch
      scan hscan j h1 h2 hjL'
    dsimp only
    rw [hmvu j h2 hjL', hq]
    simp [subInf]
  · -- minvNN
    intro j h1 h2 hjL' hjne q hq
    dsimp only at hq
    rw [hmvu j h2 hjL'] at hq
    obtain ⟨q0, hq0, _, _, _, _⟩ := scan_minv_some size i cost p s L inv hst hmatch
      scan hscan j h1 h2 hjL'
    rw [hq0] at hq
    simp only [subInf] at hq
    injection hq with hqe
    have hle := hdmin j h1 h2 hjL' q0 hq0
    linarith
  · -- minvLB
    intro j h1 h2 hjL' hjne q hq jv hjv
    dsimp only at hq ⊢
    rw [hmvu j h2 hjL'] at hq
    obtain ⟨q0, hq0, hLB, _, _, _⟩ := scan_minv_some size i cost p s L inv hst hmatch
      scan hscan j h1 h2 hjL'
    rw [hq0] at hq
    simp only [subInf] at hq
    injection hq with hqe
    rw [(hredM jv hjv j).2 hjL']
    have := hLB jv hjv
    linarith
  · -- minvAT
    intro j h1 h2 hjL' hjne q hq
    dsimp only at hq ⊢
    rw [hmvu j h2 hjL'] at hq
    obtain ⟨q0, hq0, _, hwmem, hwred, _⟩ := scan_minv_some size i cost p s L inv hst hmatch
      scan hscan j h1 h2 hjL'
    rw [hq0] at hq
    simp only [subInf] at hq
    injection hq with hqe
    refine ⟨hwmem, ?_⟩
    rw [(hredM (scan.way j) hwmem j).2 hjL', hwred]
    linarith
  · -- feasUnvis
    intro r hr1 hr2 hrun j h1 h2
    dsimp only at hrun ⊢
    have hold := inv.feasUnvis r hr1 hr2
      (fun jv hjv => hrun jv (List.mem_append_left _ hjv)) j h1 h2
    by_cases hj : j ∈ L ++ [s.j0]
    · rw [(hredU r hrun j).1 hj]
      have hL : L ≠ [] := by
        intro hLnil
        rw [hLnil] at hj
        simp only [List.nil_append, List.mem_singleton] at hj
        rw [inv.firstIter hLnil] at hj
        omega
      have := hdNN hL
      linarith
    · rw [(hredU r hrun j).2 hj]
      exact hold
  · -- visExplored
    intro jv hjv j hj h1
    dsimp only at hjv hj ⊢
    rw [(hredM jv hjv j).1 hj]
    rcases List.mem_append.mp hjv with hjv' | hjv'
    · rcases List.mem_append.mp hj with hj' | hj'
      · exact inv.visExplored jv hjv' j hj' h1
      · simp only [List.mem_singleton] at hj'
        subst hj'
        refine inv.j0Explored ?_ jv hjv'
        -- 1 ≤ j = s.j0 here
        omega
    · simp only [List.mem_singleton] at hjv'
      subst hjv'
      by_cases hj0 : s.j0 = 0
      · exfalso
        have hLnil : L = [] := by
          rcases hL : L with _ | ⟨y, ys⟩
          · rfl
          · exact absurd (inv.j0pos (by simp [hL])) (by omega)
        rw [hLnil, hj0] at hj
        simp only [List.nil_append, List.mem_singleton] at hj
        omega
      · have hp0 := hmatch hj0
        have hple := hst.pLe s.j0 (by omega) inv.j0le
        have hjle : j ≤ size := hL'le j hj
        refine inv.feasUnvis (p s.j0) (Nat.one_le_iff_ne_zero.mpr hp0) hple ?_ j h1 hjle
        intro jv' hjv' heq
        have hji : jv' = s.j0 := hst.pInj jv' s.j0 (inv.Lle jv' hjv') inv.j0le (heq ▸ hp0) heq
        exact not_mem_of_nodup_append inv.nodup (hji ▸ hjv')
  · -- j0Explored
    intro _ jv hjv
    dsimp only at hjv ⊢
    rw [(hredM jv hjv scan.j1).2 hj1notin]
    obtain ⟨q1, hq1, hLB, _, _, _⟩ := scan_minv_some size i cost p s L inv hst hmatch
      scan hscan scan.j1 hj11 hj1le hj1notin
    rw [hminj1] at hq1
    injection hq1 with hqe
    have := hLB jv hjv
    linarith
  · -- tightMatched
    intro j h1 h2 hpj
    dsimp only
    by_cases hj : j ∈ L ++ [s.j0]
    · rw [(hredM j hj j).1 hj]
      exact inv.tightMatched j h1 h2 hpj
    · have hr : ∀ jv ∈ L ++ [s.j0], p jv ≠ p j := by
        intro jv hjv heq
        have : jv = j := hst.pInj jv j (hL'le jv hjv) h2 (heq ▸ hpj) heq
        exact hj (this ▸ hjv)
      rw [(hredU (p j) hr j).2 hj]
      exact inv.tightMatched j h1 h2 hpj
  · -- wayL
    intro j hj hjne
    dsimp only at hj ⊢
    have hwayeq : scan.way j = s.way j := (hscan.minvUsed j ((husedIff' j).mpr hj)).2
    rcases List.mem_append.mp hj with hj' | hj'
    · obtain ⟨hwmem, hwidx, hwred⟩ := inv.wayL j hj' hjne
      refine ⟨?_, ?_, ?_⟩
      · rw [hwayeq]
        exact List.mem_append_left _ hwmem
      · rw [hwayeq, List.indexOf_append_of_mem hwmem, List.indexOf_append_of_mem hj']
        exact hwidx
      · rw [hwayeq, (hredM (s.way j) (List.mem_append_left _ hwmem) j).1 hj]
        exact hwred
    · simp only [List.mem_singleton] at hj'
      subst hj'
      obtain ⟨hwmem, hwred⟩ := inv.j0Way hjne
      refine ⟨?_, ?_, ?_⟩
      · rw [hwayeq]
        exact List.mem_append_left _ hwmem
      · rw [hwayeq, List.indexOf_append_of_mem hwmem]
        have h2 : (L ++ [s.j0]).indexOf s.j0 = L.length := by
          rw [List.indexOf_append_of_not_mem (not_mem_of_nodup_append inv.nodup)]
          simp
        rw [h2]
        exact List.indexOf_lt_length.mpr hwmem
      · rw [hwayeq, (hredM (s.way s.j0) (List.mem_append_left _ hwmem) s.j0).1 hj]
        exact hwred
  · -- j0Way
    intro _
    dsimp only
    obtain ⟨q1, hq1, _, hwmem, hwred, _⟩ := scan_minv_some size i cost p s L inv hst hmatch
      scan hscan scan.j1 hj11 hj1le hj1notin
    rw [hminj1] at hq1
    injection hq1 with hqe
    refine ⟨hwmem, ?_⟩
    rw [(hredM (scan.way scan.j1) hwmem scan.j1).2 hj1notin, hwred]
    linarith

/-- The do-while loop terminates within the provided fuel and exits in a state
satisfying the invariant whose selected column is unmatched. -/
lemma findPath_runs (size i : ℕ) (cost : ℕ → ℕ → ℚ) (p : ℕ → ℕ)
    (hst : RoundStatics size i p) :
    ∀ (fuel : ℕ) (s : InnerState) (L : List ℕ), LoopInv size i cost p s L →
    (s.j0 ≠ 0 → p s.j0 ≠ 0) → size + 1 ≤ fuel + L.length →
    ∃ s' L', findPath cost p size fuel s = Option.some s'
      ∧ LoopInv size i cost p s' L' ∧ p s'.j0 = 0 ∧ 1 ≤ s'.j0 ∧ L' ≠ [] := by
  intro fuel
  induction fuel with
  | zero =>
    intro s L inv hmatch hfuel
    exfalso
    have hlen : (L ++ [s.j0]).length ≤ i := by
      refine matched_length_le size i p hst (L ++ [s.j0]) inv.nodup ?_ ?_
      · intro j hj
        rcases List.mem_append.mp hj with hj | hj
        · exact inv.Lle j hj
        · simp only [List.mem_singleton] at hj
          exact hj ▸ inv.j0le
      · intro j hj hj0
        rcases List.mem_append.mp hj with hj | hj
        · exact inv.Lmatched j hj hj0
        · simp only [List.mem_singleton] at hj
          exact hj ▸ hmatch (hj ▸ hj0)
    have hile := hst.ile
    simp only [List.length_append, List.length_singleton] at hlen
    omega
  | succ fuel ih =>
    intro s L inv hmatch hfuel
    obtain ⟨d, hd, inv'⟩ := body_step size i cost p hst s L inv hmatch _ rfl
    simp only [findPath]
    rw [hd]
    dsimp only
    by_cases hexit : p (innerScan cost s.u s.v (p s.j0) s.j0
        (Function.update s.used s.j0 true) s.minv s.way size).j1 = 0
    · rw [if_pos hexit]
      refine ⟨_, L ++ [s.j0], rfl, inv', hexit, ?_, by simp⟩
      exact inv'.j0pos (by simp)
    · rw [if_neg hexit]
      refine ih _ (L ++ [s.j0]) inv' (fun _ => hexit) ?_
      simp only [List.length_append, List.length_singleton]
      omega

/-- At any loop entry past the first iteration the potentials are feasible for
all rows up to the inserted one. -/
lemma exit_feas (size i : ℕ) (cost : ℕ → ℕ → ℚ) (p : ℕ → ℕ)
    (hst : RoundStatics size i p) (s : InnerState) (L : List ℕ)
    (inv : LoopInv size i cost p s L) (hL : L ≠ []) :
    Feas size i cost s.u s.v := by
  intro r j hr1 hr2 hj1 hj2
  by_cases hcov : ∃ jv ∈ L, p jv = r
  · obtain ⟨jv, hjv, hpjv⟩ := hcov
    subst hpjv
    by_cases hjmem : j ∈ L
    · exact inv.visExplored jv hjv j hjmem hj1
    · by_cases hjj0 : j = s.j0
      · subst hjj0
        exact inv.j0Explored (by omega) jv hjv
      · cases hb : s.minv j with
        | none => exact absurd hb (inv.minvIsSome hL j hj1 hj2 hjmem hjj0)
        | some q =>
          have h0q := inv.minvNN j hj1 hj2 hjmem hjj0 q hb
          have hlb := inv.minvLB j hj1 hj2 hjmem hjj0 q hb jv hjv
          linarith
  · push_neg at hcov
    have h0L : 0 ∈ L := inv.zeroMem hL
    have hri : r ≠ i := by
      intro h
      exact (hcov 0 h0L) (by rw [hst.p0, h])
    exact inv.feasUnvis r hr1 (by omega) hcov j hj1 hj2

/-- The chain predicate only reads the matching at its own nodes. -/
lemma augChain_congr (cost : ℕ → ℕ → ℚ) (uu vv : ℕ → ℚ) (way : ℕ → ℕ) (size : ℕ) :
    ∀ (c : List ℕ) (p p' : ℕ → ℕ) (j0 : ℕ), (∀ x ∈ c, p x = p' x) →
    AugChain cost uu vv way size p j0 c → AugChain cost uu vv way size p' j0 c := by
  intro c
  induction c with
  | nil => intro p p' j0 _ h; exact h
  | cons w rest ih =>
    intro p p' j0 hagree h
    obtain ⟨h1, h2, h3, h4, h5, h6⟩ := h
    refine ⟨h1, h2, h3, h4, ?_, ?_⟩
    · rw [← hagree w (by simp)]
      exact h5
    · exact ih p p' w (fun x hx => hagree x (by simp [hx])) h6

/-- The augmenting walk terminates and preserves the walk invariant, ending
with the virtual column as current. -/
lemma augment_go (size i : ℕ) (cost : ℕ → ℕ → ℚ) (uu vv : ℕ → ℚ) (way : ℕ → ℕ) :
    ∀ (c : List ℕ) (fuel : ℕ) (p : ℕ → ℕ) (j0 : ℕ),
    AugChain cost uu vv way size p j0 c → AugInv size i cost uu vv p j0 →
    c.length < fuel →
    ∃ pf, augment way fuel p j0 = Option.some pf ∧ AugInv size i cost uu vv pf 0 := by
  intro c
  induction c with
  | nil =>
    intro fuel p j0 hchain hinv hfuel
    cases fuel with
    | zero => omega
    | succ fuel =>
      have hj0 : j0 = 0 := hchain
      subst hj0
      exact ⟨p, by simp [augment], hinv⟩
  | cons w rest ih =>
    intro fuel p j0 hchain hinv hfuel
    obtain ⟨hne, hway, hwle, hnotin, hred, hrest⟩ := hchain
    cases fuel with
    | zero => omega
    | succ fuel =>
      have hstep : augment way (fuel + 1) p j0
          = augment way fuel (Function.update p j0 (p (way j0))) (way j0) := by
        simp [augment, hne]
      rw [hstep, hway]
      have hj0w : j0 ≠ w := fun h => hnotin (h ▸ List.mem_cons_self w rest)
      have hj0rest : j0 ∉ rest := fun h => hnotin (List.mem_cons_of_mem w h)
      have hchain' : AugChain cost uu vv way size (Function.update p j0 (p w)) w rest := by
        refine augChain_congr cost uu vv way size rest p _ w ?_ hrest
        intro x hx
        have : x ≠ j0 := fun h => hj0rest (h ▸ hx)
        rw [Function.update_noteq this]
      have hinv' : AugInv size i cost uu vv (Function.update p j0 (p w)) w := by
        refine ⟨?_, hwle, ?_, ?_, ?_, ?_⟩
        · rw [Function.update_noteq (by omega : (0 : ℕ) ≠ j0)]
          exact hinv.p0
        · intro j h1 h2
          by_cases hj : j = j0
          · subst hj
            rw [Function.update_same]
            rcases Nat.eq_zero_or_pos w with h0 | hpos
            · rw [h0, hinv.p0]
            · exact hinv.pLe w hpos hwle
          · rw [Function.update_noteq hj]
            exact hinv.pLe j h1 h2
        · intro r hr1 hr2
          obtain ⟨j, hjle, hjne, hpj⟩ := hinv.cover r hr1 hr2
          by_cases hjw : j = w
          · refine ⟨j0, hinv.j0le, hj0w, ?_⟩
            rw [Function.update_same, ← hjw, hpj]
          · refine ⟨j, hjle, hjw, ?_⟩
            rw [Function.update_noteq hjne, hpj]
        · intro a b hale hble haw hbw hpne heq
          by_cases ha : a = j0
          · by_cases hb : b = j0
            · rw [ha, hb]
            · rw [ha, Function.update_same] at hpne
              rw [ha, Function.update_same, Function.update_noteq hb] at heq
              have hwb := hinv.inj w b hwle hble (Ne.symm hj0w) hb hpne heq
              rw [ha] at haw
              exact absurd hwb.symm (fun hh => hbw hh)
          · by_cases hb : b = j0
            · rw [Function.update_noteq ha] at hpne
              rw [Function.update_noteq ha, hb, Function.update_same] at heq
              have haw2 := hinv.inj a w hale hwle ha (Ne.symm hj0w) hpne heq
              exact absurd haw2 haw
            · rw [Function.update_noteq ha] at hpne
              rw [Function.update_noteq ha, Function.update_noteq hb] at heq
              exact hinv.inj a b hale hble ha hb hpne heq
        · intro j h1 h2 hjw hpne
          by_cases hj : j = j0
          · subst hj
            rw [Function.update_same]
            exact hred
          · rw [Function.update_noteq hj] at hpne ⊢
            exact hinv.tight j h1 h2 hj hpne
      exact ih fuel _ w hchain' hinv' (by simp at hfuel ⊢; omega)

/-- Every visited column's back-pointer chain reaches the virtual column,
descending in visit order. -/
lemma chain_exists (size i : ℕ) (cost : ℕ → ℕ → ℚ) (p : ℕ → ℕ) (s : InnerState)
    (L : List ℕ) (inv : LoopInv size i cost p s L) :
    ∀ (n : ℕ) (j : ℕ), j ∈ L → L.indexOf j ≤ n →
    ∃ c, AugChain cost s.u s.v s.way size p j c
      ∧ (∀ x ∈ c, x ∈ L ∧ L.indexOf x < L.indexOf j) ∧ c.length ≤ L.indexOf j := by
  intro n
  induction n with
  | zero =>
    intro j hj hidx
    by_cases hj0 : j = 0
    · subst hj0
      exact ⟨[], by simp [AugChain], by simp, by simp⟩
    · obtain ⟨_, hidx', _⟩ := inv.wayL j hj hj0
      omega
  | succ n ihn =>
    intro j hj hidx
    by_cases hj0 : j = 0
    · subst hj0
      exact ⟨[], by simp [AugChain], by simp, by simp⟩
    · obtain ⟨hwmem, hwidx, hwred⟩ := inv.wayL j hj hj0
      obtain ⟨c', hchain', hmem', hlen'⟩ := ihn (s.way j) hwmem (by omega)
      refine ⟨s.way j :: c', ?_, ?_, ?_⟩
      · refine ⟨hj0, rfl, inv.Lle _ hwmem, ?_, hwred, hchain'⟩
        intro hmem
        rcases List.mem_cons.mp hmem with h | h
        · rw [← h] at hwidx
          omega
        · have := (hmem' j h).2
          omega
      · intro x hx
        rcases List.mem_cons.mp hx with h | h
        · rw [h]
          exact ⟨hwmem, hwidx⟩
        · have := hmem' x h
          exact ⟨this.1, by omega⟩
      · simp only [List.length_cons]
        omega

/-- One outer round succeeds and extends the matching by one row. -/
lemma hungarianRound_sound (size i : ℕ) (cost : ℕ → ℕ → ℚ) (st : OuterState)
    (hinv : RoundInv size (i - 1) cost st) (hi1 : 1 ≤ i) (hile : i ≤ size) :
    ∃ st', hungarianRound cost size st i = Option.some st'
      ∧ RoundInv size i cost st' := by
  obtain ⟨⟨hval, hcov, hinj⟩, hfeas, htight⟩ := hinv
  have hst : RoundStatics size i (Function.update st.p 0 i) := by
    refine ⟨hi1, hile, Function.update_same 0 i st.p, ?_, ?_, ?_⟩
    · intro j h1 h2
      rw [Function.update_noteq (by omega : j ≠ 0)]
      exact hval j h1 h2
    · intro j j' hjle hjle' hpj heq
      by_cases hj : j = 0
      · by_cases hj' : j' = 0
        · rw [hj, hj']
        · exfalso
          rw [hj, Function.update_same] at heq
          rw [Function.update_noteq hj'] at heq
          have := hval j' (by omega) hjle'
          omega
      · by_cases hj' : j' = 0
        · exfalso
          rw [Function.update_noteq hj] at heq
          rw [hj', Function.update_same] at heq
          have := hval j (by omega) hjle
          omega
        · rw [Function.update_noteq hj] at hpj heq
          rw [Function.update_noteq hj'] at heq
          exact hinj j j' (by omega) hjle (by omega) hjle' hpj heq
    · intro r hr1 hr2
      obtain ⟨j, ⟨hj1, hj2⟩, hpj⟩ := hcov r hr1 hr2
      exact ⟨j, ⟨hj1, hj2⟩, by rw [Function.update_noteq (by omega : j ≠ 0)]; exact hpj⟩
  have hinv0 : LoopInv size i cost (Function.update st.p 0 i)
      ⟨st.u, st.v, st.way, fun _ => Option.none, fun _ => false, 0⟩ [] := by
    refine ⟨?_, ?_, ?_, ?_, ?_, ?_, ?_, ?_, ?_, ?_, ?_, ?_, ?_, ?_, ?_, ?_, ?_, ?_, ?_⟩
    · simp
    · intro j
      simp
    · intro j hj
      simp at hj
    · simp
    · intro _
      rfl
    · intro h
      exact absurd rfl h
    · intro h
      exact absurd rfl h
    · intro j hj
      simp at hj
    · intro _ j
      rfl
    · intro h
      exact absurd rfl h
    · intro j _ _ _ _ q hq
      exact absurd hq (by simp)
    · intro j _ _ _ _ q hq
      exact absurd hq (by simp)
    · intro j _ _ _ _ q hq
      exact absurd hq (by simp)
    · intro r hr1 hr2 _ j hj1 hj2
      exact hfeas r j hr1 hr2 hj1 hj2
    · intro jv hjv
      simp at hjv
    · intro h
      exact absurd rfl h
    · intro j h1 h2 hpj
      dsimp only at hpj ⊢
      rw [Function.update_noteq (by omega : j ≠ 0)] at hpj ⊢
      exact htight j h1 h2 hpj
    · intro j hj
      simp at hj
    · intro h
      exact absurd rfl h
  obtain ⟨s', L', hrun, inv', hexit, hj0pos, hL'ne⟩ :=
    findPath_runs size i cost (Function.update st.p 0 i) hst (size + 2)
      ⟨st.u, st.v, st.way, fun _ => Option.none, fun _ => false, 0⟩ [] hinv0
      (fun h => absurd rfl h) (by simp)
  simp only [hungarianRound]
  rw [hrun]
  dsimp only
  have hj0notL : s'.j0 ∉ L' := not_mem_of_nodup_append inv'.nodup
  obtain ⟨hwmem, hwred⟩ := inv'.j0Way (by omega)
  obtain ⟨c', hchain', hmem', hlen'⟩ := chain_exists size i cost
    (Function.update st.p 0 i) s' L' inv' (L'.indexOf (s'.way s'.j0)) (s'.way s'.j0)
    hwmem (le_refl _)
  have hchain : AugChain cost s'.u s'.v s'.way size (Function.update st.p 0 i)
      s'.j0 (s'.way s'.j0 :: c') := by
    refine ⟨by omega, rfl, inv'.Lle _ hwmem, ?_, hwred, hchain'⟩
    intro hmem
    rcases List.mem_cons.mp hmem with h | h
    · exact hj0notL (h ▸ hwmem)
    · exact hj0notL (hmem' s'.j0 h).1
  have hauginv : AugInv size i cost s'.u s'.v (Function.update st.p 0 i) s'.j0 := by
    refine ⟨hst.p0, inv'.j0le, ?_, ?_, ?_, ?_⟩
    · intro j h1 h2
      have := hst.pLe j h1 h2
      omega
    · intro r hr1 hr2
      by_cases hri : r = i
      · exact ⟨0, by omega, by omega, by rw [hst.p0, hri]⟩
      · obtain ⟨j, ⟨hj1, hj2⟩, hpj⟩ := hst.pCover r hr1 (by omega)
        refine ⟨j, hj2, ?_, hpj⟩
        intro hjj0
        rw [hjj0, hexit] at hpj
        omega
    · intro j j' hjle hjle' _ _ hpj heq
      exact hst.pInj j j' hjle hjle' hpj heq
    · intro j h1 h2 _ hpj
      exact inv'.tightMatched j h1 h2 hpj
  have hL'len : L'.length ≤ i := by
    refine matched_length_le size i (Function.update st.p 0 i) hst L'
      (List.nodup_append.mp inv'.nodup).1 inv'.Lle inv'.Lmatched
  have hidxlt : L'.indexOf (s'.way s'.j0) < L'.length := List.indexOf_lt_length.mpr hwmem
  obtain ⟨pf, haug, hfinal⟩ := augment_go size i cost s'.u s'.v s'.way
    (s'.way s'.j0 :: c') (size + 2) (Function.update st.p 0 i) s'.j0 hchain hauginv
    (by simp only [List.length_cons]; omega)
  rw [haug]
  dsimp only
  refine ⟨⟨s'.u, s'.v, pf, s'.way⟩, rfl, ?_, ?_, ?_⟩
  · refine ⟨?_, ?_, ?_⟩
    · intro j h1 h2
      exact hfinal.pLe j h1 h2
    · intro r hr1 hr2
      obtain ⟨j, hjle, hjne, hpj⟩ := hfinal.cover r hr1 hr2
      exact ⟨j, ⟨by omega, hjle⟩, hpj⟩
    · intro j j' h1 h2 h1' h2' hpj heq
      exact hfinal.inj j j' h2 h2' (by omega) (by omega) hpj heq
  · exact exit_feas size i cost (Function.update st.p 0 i) hst s' L' inv' hL'ne
  · intro j h1 h2 hpj
    exact hfinal.tight j h1 h2 (by omega) hpj

/-- The initial all-zero state satisfies the round invariant for zero rows. -/
lemma roundInv_zero (size : ℕ) (cost : ℕ → ℕ → ℚ) :
    RoundInv size 0 cost ⟨fun _ => 0, fun _ => 0, fun _ => 0, fun _ => 0⟩ := by
  refine ⟨⟨?_, ?_, ?_⟩, ?_, ?_⟩
  · intro j _ _
    exact le_refl 0
  · intro r hr1 hr2
    omega
  · intro j j' _ _ _ _ hpj _
    exact absurd rfl hpj
  · intro r j hr1 hr2 _ _
    omega
  · intro j _ _ hpj
    exact absurd rfl hpj

/-- Folding the round over consecutive rows extends the invariant. -/
lemma rounds_sound (size : ℕ) (cost : ℕ → ℕ → ℚ) :
    ∀ (b a : ℕ) (st : OuterState), a + b ≤ size → RoundInv size a cost st →
    ∃ st', List.foldlM (hungarianRound cost size) st (List.range' (a + 1) b)
        = Option.some st' ∧ RoundInv size (a + b) cost st' := by
  intro b
  induction b with
  | zero =>
    intro a st _ h
    exact ⟨st, rfl, h⟩
  | succ b ih =>
    intro a st hab h
    rw [List.range'_succ]
    obtain ⟨st1, h1, hinv1⟩ := hungarianRound_sound size (a + 1) cost st h
      (by omega) (by omega)
    obtain ⟨st', h2, hinv2⟩ := ih (a + 1) st1 (by omega) hinv1
    refine ⟨st', ?_, ?_⟩
    · rw [List.foldlM_cons, h1]
      simpa using h2
    · have : a + (b + 1) = a + 1 + b := by omega
      rw [this]
      exact hinv2

/-- In a full square matching every column is matched. -/
lemma matches_full (m : ℕ) (p : ℕ → ℕ) (hM : Matches m m p) :
    ∀ j, 1 ≤ j → j ≤ m → 1 ≤ p j := by
  obtain ⟨hval, hcov, hinj⟩ := hM
  intro j hj1 hj2
  by_contra hcon
  have hpj0 : p j = 0 := by omega
  -- the filter of matched columns surjects onto the m rows, so it is all
  -- of Icc 1 m, contradicting p j = 0
  have hsub : Finset.Icc 1 m ⊆ ((Finset.Icc 1 m).filter (fun x => p x ≠ 0)).image p := by
    intro r hr
    rw [Finset.mem_Icc] at hr
    obtain ⟨jw, ⟨hw1, hw2⟩, hpw⟩ := hcov r hr.1 hr.2
    refine Finset.mem_image.mpr ⟨jw, ?_, hpw⟩
    refine Finset.mem_filter.mpr ⟨Finset.mem_Icc.mpr ⟨hw1, hw2⟩, ?_⟩
    omega
  have hcard1 : ((Finset.Icc 1 m).filter (fun x => p x ≠ 0)).image p
      ⊆ Finset.Icc 1 m := by
    intro r hr
    obtain ⟨jw, hjw, hpw⟩ := Finset.mem_image.mp hr
    obtain ⟨hjm, hne⟩ := Finset.mem_filter.mp hjw
    rw [Finset.mem_Icc] at hjm
    rw [Finset.mem_Icc, ← hpw]
    constructor
    · omega
    · exact hval jw hjm.1 hjm.2
  have heq := Finset.Subset.antisymm hcard1 hsub
  have hfeq : (Finset.Icc 1 m).filter (fun x => p x ≠ 0) = Finset.Icc 1 m := by
    have hc1 : ((Finset.Icc 1 m).filter (fun x => p x ≠ 0)).card = m := by
      have h1 : (((Finset.Icc 1 m).filter (fun x => p x ≠ 0)).image p).card
          ≤ ((Finset.Icc 1 m).filter (fun x => p x ≠ 0)).card :=
        Finset.card_image_le
      have h2 : (((Finset.Icc 1 m).filter (fun x => p x ≠ 0)).image p).card = m := by
        rw [heq, Nat.card_Icc]
        omega
      have h3 : ((Finset.Icc 1 m).filter (fun x => p x ≠ 0)).card
          ≤ (Finset.Icc 1 m).card := Finset.card_le_card (Finset.filter_subset _ _)
      rw [Nat.card_Icc] at h3
      omega
    exact Finset.eq_of_subset_of_card_le (Finset.filter_subset _ _)
      (by rw [hc1, Nat.card_Icc]; omega)
  have : j ∈ (Finset.Icc 1 m).filter (fun x => p x ≠ 0) := by
    rw [hfeq]
    exact Finset.mem_Icc.mpr ⟨hj1, hj2⟩
  exact (Finset.mem_filter.mp this).2 hpj0

/-- Sums over Icc 1 n reindex to sums over range n. -/
lemma sum_Icc_one_eq_sum_range (n : ℕ) (f : ℕ → ℚ) :
    ∑ r in Finset.Icc 1 n, f r = ∑ k in Finset.range n, f (k + 1) := by
  rw [← Nat.Ico_succ_right, Finset.sum_Ico_eq_sum_range]
  exact Finset.sum_congr rfl (fun k _ => by rw [Nat.add_comm 1 k])

/-- Characterization of the result-extraction fold of the solver: positions
of unmatched rows keep their initial value, and each matched row receives its
assigned column. -/
lemma resFold_char (p : ℕ → ℕ) (n : ℕ) :
    ∀ (l : List ℕ), l.Nodup → ∀ (res0 : ℕ → ℤ),
    (∀ y, (∀ j ∈ l, ¬(1 ≤ p j ∧ p j ≤ n ∧ p j - 1 = y)) →
      l.foldl (fun res j =>
        let personIndex : ℤ := (p j : ℤ) - 1
        if 0 ≤ personIndex ∧ personIndex < (n : ℤ) then
          Function.update res (p j - 1) ((j : ℤ) - 1)
        else res) res0 y = res0 y)
    ∧ (∀ j ∈ l, 1 ≤ p j → p j ≤ n →
        (∀ j' ∈ l, 1 ≤ p j' → p j' ≤ n → p j' = p j → j' = j) →
      l.foldl (fun res j =>
        let personIndex : ℤ := (p j : ℤ) - 1
        if 0 ≤ personIndex ∧ personIndex < (n : ℤ) then
          Function.update res (p j - 1) ((j : ℤ) - 1)
        else res) res0 (p j - 1) = (j : ℤ) - 1) := by
  intro l
  induction l using List.reverseRecOn with
  | nil =>
    intro _ res0
    constructor
    · intro y _
      rfl
    · intro j hj
      simp at hj
  | append_singleton l x ih =>
    intro hnd res0
    have hnd' : l.Nodup := (List.nodup_append.mp hnd).1
    have hx : x ∉ l := by
      have hd := (List.nodup_append.mp hnd).2.2
      intro hmem
      exact hd hmem (by simp)
    obtain ⟨ihA, ihB⟩ := ih hnd' res0
    have hcond : ∀ j : ℕ, (0 ≤ (p j : ℤ) - 1 ∧ (p j : ℤ) - 1 < (n : ℤ))
        ↔ (1 ≤ p j ∧ p j ≤ n) := by
      intro j
      omega
    constructor
    · intro y hy
      rw [List.foldl_append, List.foldl_cons, List.foldl_nil]
      dsimp only
      by_cases hcx : 1 ≤ p x ∧ p x ≤ n
      · rw [if_pos ((hcond x).mpr hcx)]
        have hne : p x - 1 ≠ y := by
          intro h
          exact hy x (List.mem_append_right _ (by simp)) ⟨hcx.1, hcx.2, h⟩
        rw [Function.update_noteq (Ne.symm hne)]
        exact ihA y (fun j hj => hy j (List.mem_append_left _ hj))
      · rw [if_neg (fun hc => hcx ((hcond x).mp hc))]
        exact ihA y (fun j hj => hy j (List.mem_append_left _ hj))
    · intro j hj h1 h2 huniq
      rw [List.foldl_append, List.foldl_cons, List.foldl_nil]
      dsimp only
      rcases List.mem_append.mp hj with hjl | hjx
      · have hmid := ihB j hjl h1 h2
          (fun j' hj' a b c => huniq j' (List.mem_append_left _ hj') a b c)
        by_cases hcx : 1 ≤ p x ∧ p x ≤ n
        · rw [if_pos ((hcond x).mpr hcx)]
          have hne : p x - 1 ≠ p j - 1 := by
            intro h
            have hpeq : p x = p j := by omega
            have := huniq x (List.mem_append_right _ (by simp)) hcx.1 hcx.2 hpeq
            exact hx (this ▸ hjl)
          rw [Function.update_noteq (Ne.symm hne)]
          exact hmid
        · rw [if_neg (fun hc => hcx ((hcond x).mp hc))]
          exact hmid
      · simp only [List.mem_singleton] at hjx
        subst hjx
        rw [if_pos ((hcond j).mpr ⟨h1, h2⟩), Function.update_same]

/-- Linear-programming duality for the padded square problem: the matched
total cost is at most the cost of any injective assignment of the first n
rows into the m columns. -/
lemma duality (n m : ℕ) (cost : ℕ → ℕ → ℚ) (u v : ℕ → ℚ) (p σ : ℕ → ℕ)
    (hM : Matches m m p) (hF : Feas m m cost u v) (hT : TightOn m cost u v p)
    (hpad : ∀ r j, n + 1 ≤ r → r ≤ m → 1 ≤ j → j ≤ m → cost (r - 1) (j - 1) = 0)
    (hσ : ∀ r, 1 ≤ r → r ≤ n → 1 ≤ σ r ∧ σ r ≤ m)
    (hσinj : ∀ r r', 1 ≤ r → r ≤ n → 1 ≤ r' → r' ≤ n → σ r = σ r' → r = r') :
    ∑ j in Finset.Icc 1 m, cost (p j - 1) (j - 1)
      ≤ ∑ r in Finset.Icc 1 n, cost (r - 1) (σ r - 1) := by
  have hnm : n ≤ m := by
    rcases Nat.eq_zero_or_pos n with h0 | hpos
    · omega
    · have := hσ n hpos (le_refl n)
      have := hσinj
      -- n ≤ m since σ injects Icc 1 n into Icc 1 m
      by_contra hcon
      push_neg at hcon
      have hsub : (Finset.Icc 1 n).image σ ⊆ Finset.Icc 1 m := by
        intro x hxm
        obtain ⟨r, hr, hσr⟩ := Finset.mem_image.mp hxm
        rw [Finset.mem_Icc] at hr
        obtain ⟨ha, hb⟩ := hσ r hr.1 hr.2
        rw [Finset.mem_Icc, ← hσr]
        exact ⟨ha, hb⟩
      have hcard : ((Finset.Icc 1 n).image σ).card = n := by
        rw [Finset.card_image_of_injOn, Nat.card_Icc]
        · omega
        · intro a ha b hb heq
          rw [Finset.mem_coe, Finset.mem_Icc] at ha hb
          exact hσinj a b ha.1 ha.2 hb.1 hb.2 heq
      have := Finset.card_le_card hsub
      rw [hcard, Nat.card_Icc] at this
      omega
  have hfull := matches_full m p hM
  obtain ⟨hval, hcov, hinj⟩ := hM
  have h1 : ∑ j in Finset.Icc 1 m, cost (p j - 1) (j - 1)
      = ∑ j in Finset.Icc 1 m, (u (p j) + v j) := by
    refine Finset.sum_congr rfl ?_
    intro j hj
    rw [Finset.mem_Icc] at hj
    have ht := hT j hj.1 hj.2 (by have := hfull j hj.1 hj.2; omega)
    unfold red at ht
    linarith
  have h2 : ∑ j in Finset.Icc 1 m, u (p j) = ∑ r in Finset.Icc 1 m, u r := by
    refine Finset.sum_bij (fun j _ => p j) ?_ ?_ ?_ ?_
    · intro a ha
      rw [Finset.mem_Icc] at ha ⊢
      exact ⟨hfull a ha.1 ha.2, hval a ha.1 ha.2⟩
    · intro a ha b hb heq
      rw [Finset.mem_Icc] at ha hb
      exact hinj a b ha.1 ha.2 hb.1 hb.2 (by have := hfull a ha.1 ha.2; omega) heq
    · intro r hr
      rw [Finset.mem_Icc] at hr
      obtain ⟨j, ⟨hj1, hj2⟩, hpj⟩ := hcov r hr.1 hr.2
      exact ⟨j, Finset.mem_Icc.mpr ⟨hj1, hj2⟩, hpj⟩
    · intro a _
      rfl
  have hIccSplit : Finset.Icc 1 m = Finset.Icc 1 n ∪ Finset.Icc (n + 1) m := by
    ext x
    simp only [Finset.mem_Icc, Finset.mem_union]
    omega
  have hdisj : Disjoint (Finset.Icc 1 n) (Finset.Icc (n + 1) m) := by
    rw [Finset.disjoint_left]
    intro a ha hb
    rw [Finset.mem_Icc] at ha hb
    omega
  have hu_split : ∑ r in Finset.Icc 1 m, u r
      = ∑ r in Finset.Icc 1 n, u r + ∑ r in Finset.Icc (n + 1) m, u r := by
    rw [hIccSplit, Finset.sum_union hdisj]
  have himgsub : (Finset.Icc 1 n).image σ ⊆ Finset.Icc 1 m := by
    intro x hxm
    obtain ⟨r, hr, hσr⟩ := Finset.mem_image.mp hxm
    rw [Finset.mem_Icc] at hr
    obtain ⟨ha, hb⟩ := hσ r hr.1 hr.2
    rw [Finset.mem_Icc, ← hσr]
    exact ⟨ha, hb⟩
  have hv_split : ∑ j in Finset.Icc 1 m, v j
      = ∑ j in Finset.Icc 1 m \ (Finset.Icc 1 n).image σ, v j
        + ∑ j in (Finset.Icc 1 n).image σ, v j :=
    (Finset.sum_sdiff himgsub).symm
  have himg_sum : ∑ j in (Finset.Icc 1 n).image σ, v j
      = ∑ r in Finset.Icc 1 n, v (σ r) := by
    refine Finset.sum_image ?_
    intro a ha b hb heq
    rw [Finset.mem_Icc] at ha hb
    exact hσinj a b ha.1 ha.2 hb.1 hb.2 heq
  have himgcard : ((Finset.Icc 1 n).image σ).card = n := by
    rw [Finset.card_image_of_injOn, Nat.card_Icc]
    · omega
    · intro a ha b hb heq
      rw [Finset.mem_coe, Finset.mem_Icc] at ha hb
      exact hσinj a b ha.1 ha.2 hb.1 hb.2 heq
  have hcardeq : (Finset.Icc (n + 1) m).card
      = (Finset.Icc 1 m \ (Finset.Icc 1 n).image σ).card := by
    rw [Finset.card_sdiff himgsub, himgcard, Nat.card_Icc, Nat.card_Icc]
    omega
  have hpair : ∑ r in Finset.Icc (n + 1) m, u r
      + ∑ j in Finset.Icc 1 m \ (Finset.Icc 1 n).image σ, v j ≤ 0 := by
    have e := Finset.equivOfCardEq hcardeq
    have hsumB : ∑ j in Finset.Icc 1 m \ (Finset.Icc 1 n).image σ, v j
        = ∑ x : Finset.Icc (n + 1) m, v (e x) := by
      rw [← Finset.sum_coe_sort (Finset.Icc 1 m \ (Finset.Icc 1 n).image σ) v]
      exact (Equiv.sum_comp e (fun x => v x)).symm
    have hsumA : ∑ r in Finset.Icc (n + 1) m, u r
        = ∑ x : Finset.Icc (n + 1) m, u x :=
      (Finset.sum_coe_sort (Finset.Icc (n + 1) m) u).symm
    rw [hsumA, hsumB, ← Finset.sum_add_distrib]
    refine Finset.sum_nonpos ?_
    intro x _
    have hxA : (x : ℕ) ∈ Finset.Icc (n + 1) m := x.2
    have hyB : ((e x : ℕ)) ∈ Finset.Icc 1 m \ (Finset.Icc 1 n).image σ := (e x).2
    rw [Finset.mem_Icc] at hxA
    have hyIcc := (Finset.mem_sdiff.mp hyB).1
    rw [Finset.mem_Icc] at hyIcc
    have hfe := hF (x : ℕ) ((e x : ℕ)) (by omega) hxA.2 hyIcc.1 hyIcc.2
    unfold red at hfe
    rw [hpad (x : ℕ) ((e x : ℕ)) hxA.1 hxA.2 hyIcc.1 hyIcc.2] at hfe
    linarith
  have hcomp : ∑ r in Finset.Icc 1 n, (u r + v (σ r))
      ≤ ∑ r in Finset.Icc 1 n, cost (r - 1) (σ r - 1) := by
    refine Finset.sum_le_sum ?_
    intro r hr
    rw [Finset.mem_Icc] at hr
    obtain ⟨hs1, hs2⟩ := hσ r hr.1 hr.2
    have hfe := hF r (σ r) hr.1 (by omega) hs1 hs2
    unfold red at hfe
    linarith
  rw [h1, Finset.sum_add_distrib, h2, hu_split, hv_split, himg_sum]
  have hfinal : ∑ r in Finset.Icc 1 n, u r + ∑ r in Finset.Icc 1 n, v (σ r)
      = ∑ r in Finset.Icc 1 n, (u r + v (σ r)) := Finset.sum_add_distrib.symm
  linarith

/-- Main structural theorem about the solver on well-formed rectangular
matrices: it succeeds, returns one valid column per row without reuse, and
the selected entries' total is maximal among injective assignments. -/
lemma hungarian_ok (M : List (List ℚ)) (n m : ℕ) (hlen : M.length = n)
    (hrect : ∀ row ∈ M, row.length = m) (hn : 0 < n) (hnm : n ≤ m) :
    ∃ res : List ℤ, hungarian M = Except.ok res ∧ res.length = n
      ∧ (∀ k, k < n → 0 ≤ res.getD k 0 ∧ res.getD k 0 < (m : ℤ))
      ∧ (∀ k k', k < n → k' < n → res.getD k 0 = res.getD k' 0 → k = k')
      ∧ (∀ τ : ℕ → ℕ, (∀ k, k < n → τ k < m) →
          (∀ k k', k < n → k' < n → τ k = τ k' → k = k') →
          ∑ k in Finset.range n, entry M k (τ k)
            ≤ ∑ k in Finset.range n, entry M k (res.getD k 0).toNat) := by
  have hm : (M.head?.map List.length).getD 0 = m := by
    cases M with
    | nil => simp at hlen; omega
    | cons r t =>
      simp only [List.head?_cons, Option.map_some', Option.getD_some]
      exact hrect r (List.mem_cons_self r t)
  have hm0 : 0 < m := by omega
  simp only [hungarian, hlen, hm]
  rw [if_neg (by omega), if_neg (by omega)]
  have hmax : max n m = m := Nat.max_eq_right hnm
  rw [hmax]
  obtain ⟨st, hfold, hinv⟩ := rounds_sound m
    (fun i j => if i < n ∧ j < m then -entry M i j else 0) m 0
    ⟨fun _ => 0, fun _ => 0, fun _ => 0, fun _ => 0⟩ (by omega)
    (roundInv_zero m _)
  simp only [Nat.zero_add] at hfold hinv
  rw [hfold]
  dsimp only
  obtain ⟨⟨hval, hcov, hinjm⟩, hF, hT⟩ := hinv
  have hfull := matches_full m st.p ⟨hval, hcov, hinjm⟩
  obtain ⟨outA, outB⟩ := resFold_char st.p n (List.range' 1 m)
    (List.nodup_range' 1 m 1 (by decide)) (fun _ => (-1 : ℤ))
  set out := (List.range' 1 m).foldl (fun res j =>
      let personIndex : ℤ := (st.p j : ℤ) - 1
      if 0 ≤ personIndex ∧ personIndex < (n : ℤ) then
        Function.update res (st.p j - 1) ((j : ℤ) - 1)
      else res) (fun _ => (-1 : ℤ)) with houtdef
  have hrow : ∀ k, k < n → ∃ j, (1 ≤ j ∧ j ≤ m) ∧ st.p j = k + 1
      ∧ out k = (j : ℤ) - 1 := by
    intro k hk
    obtain ⟨j, ⟨hj1, hj2⟩, hpj⟩ := hcov (k + 1) (by omega) (by omega)
    refine ⟨j, ⟨hj1, hj2⟩, hpj, ?_⟩
    have houtj := outB j (List.mem_range'_1.mpr ⟨hj1, by omega⟩)
      (by omega) (by omega) ?_
    · rw [hpj] at houtj
      simpa using houtj
    · intro j' hj' h1' h2' heq
      rw [List.mem_range'_1] at hj'
      exact hinjm j' j hj'.1 (by omega) hj1 hj2 (by rw [heq, hpj]; omega) heq
  have hgetD : ∀ k, k < n → ((List.range n).map out).getD k 0 = out k := by
    intro k hk
    simp [List.getD, List.getElem?_map, List.getElem?_range hk]
  refine ⟨(List.range n).map out, rfl, by simp, ?_, ?_, ?_⟩
  · intro k hk
    rw [hgetD k hk]
    obtain ⟨j, ⟨hj1, hj2⟩, hpj, hout⟩ := hrow k hk
    rw [hout]
    omega
  · intro k k' hk hk' heq
    rw [hgetD k hk, hgetD k' hk'] at heq
    obtain ⟨j, ⟨hj1, hj2⟩, hpj, hout⟩ := hrow k hk
    obtain ⟨j', ⟨hj1', hj2'⟩, hpj', hout'⟩ := hrow k' hk'
    rw [hout, hout'] at heq
    have hjj : j = j' := by omega
    subst hjj
    rw [hpj] at hpj'
    omega
  · intro τ hτb hτinj
    have hdual := duality n m
      (fun i j => if i < n ∧ j < m then -entry M i j else 0) st.u st.v st.p
      (fun r => τ (r - 1) + 1) ⟨hval, hcov, hinjm⟩ hF hT ?_ ?_ ?_
    · -- translate both sides of the duality inequality
      have hsplit := Finset.sum_filter_add_sum_filter_not (Finset.Icc 1 m)
        (fun j => st.p j ≤ n)
        (fun j => if st.p j - 1 < n ∧ j - 1 < m then -entry M (st.p j - 1) (j - 1) else 0)
      have hzero2 : ∑ j in (Finset.Icc 1 m).filter (fun j => ¬ st.p j ≤ n),
          (if st.p j - 1 < n ∧ j - 1 < m then -entry M (st.p j - 1) (j - 1) else 0) = 0 := by
        refine Finset.sum_eq_zero ?_
        intro j hj
        obtain ⟨hjI, hjgt⟩ := Finset.mem_filter.mp hj
        rw [Finset.mem_Icc] at hjI
        rw [if_neg]
        intro hc
        omega
      have hbij : ∑ j in (Finset.Icc 1 m).filter (fun j => st.p j ≤ n),
          (if st.p j - 1 < n ∧ j - 1 < m then -entry M (st.p j - 1) (j - 1) else 0)
          = ∑ k in Finset.range n, -entry M k ((out k).toNat) := by
        refine Finset.sum_bij (fun j _ => st.p j - 1) ?_ ?_ ?_ ?_
        · intro a ha
          dsimp only
          obtain ⟨haI, hale⟩ := Finset.mem_filter.mp ha
          rw [Finset.mem_Icc] at haI
          rw [Finset.mem_range]
          have := hfull a haI.1 haI.2
          omega
        · intro a ha b hb heq
          dsimp only at heq
          obtain ⟨haI, hale⟩ := Finset.mem_filter.mp ha
          obtain ⟨hbI, hble⟩ := Finset.mem_filter.mp hb
          rw [Finset.mem_Icc] at haI hbI
          have h1 := hfull a haI.1 haI.2
          have h2 := hfull b hbI.1 hbI.2
          exact hinjm a b haI.1 haI.2 hbI.1 hbI.2 (by omega) (by omega)
        · intro k hk
          rw [Finset.mem_range] at hk
          obtain ⟨j, ⟨hj1, hj2⟩, hpj, hout⟩ := hrow k hk
          refine ⟨j, Finset.mem_filter.mpr ⟨Finset.mem_Icc.mpr ⟨hj1, hj2⟩, by omega⟩, ?_⟩
          dsimp only
          omega
        · intro a ha
          dsimp only
          obtain ⟨haI, hale⟩ := Finset.mem_filter.mp ha
          rw [Finset.mem_Icc] at haI
          have hp1 := hfull a haI.1 haI.2
          have houta := outB a (List.mem_range'_1.mpr ⟨haI.1, by omega⟩) hp1 hale ?_
          · have htn : (((a : ℤ) - 1)).toNat = a - 1 := by omega
            rw [houta, htn, if_pos ⟨by omega, by omega⟩]
          · intro j' hj' h1' h2' heq
            rw [List.mem_range'_1] at hj'
            exact hinjm j' a hj'.1 (by omega) haI.1 haI.2 (by omega) heq
      have hbcomp : ∑ r in Finset.Icc 1 n,
          (if r - 1 < n ∧ τ (r - 1) + 1 - 1 < m then
            -entry M (r - 1) (τ (r - 1) + 1 - 1) else 0)
          = ∑ k in Finset.range n, -entry M k (τ k) := by
        rw [sum_Icc_one_eq_sum_range]
        refine Finset.sum_congr rfl ?_
        intro k hk
        rw [Finset.mem_range] at hk
        simp only [Nat.add_sub_cancel]
        rw [if_pos ⟨by omega, hτb k hk⟩]
      rw [← hsplit, hzero2, add_zero, hbij, hbcomp] at hdual
      have hgoal2 : ∑ k in Finset.range n,
          entry M k (((List.range n).map out).getD k 0).toNat
          = ∑ k in Finset.range n, entry M k ((out k).toNat) :=
        Finset.sum_congr rfl (fun k hk => by rw [hgetD k (Finset.mem_range.mp hk)])
      rw [hgoal2]
      have hn1 : ∑ k in Finset.range n, -entry M k ((out k).toNat)
          = -∑ k in Finset.range n, entry M k ((out k).toNat) := by
        rw [Finset.sum_neg_distrib]
      have hn2 : ∑ k in Finset.range n, -entry M k (τ k)
          = -∑ k in Finset.range n, entry M k (τ k) := by
        rw [Finset.sum_neg_distrib]
      rw [hn1, hn2] at hdual
      linarith
    · intro r j hr1 hr2 hj1 hj2
      dsimp only
      rw [if_neg]
      intro hc
      omega
    · intro r hr1 hr2
      dsimp only
      have := hτb (r - 1) (by omega)
      omega
    · intro r r' hr1 hr2 hr1' hr2' heq
      dsimp only at heq
      have h1 : τ (r - 1) = τ (r' - 1) := by omega
      have := hτinj (r - 1) (r' - 1) (by omega) (by omega) h1
      omega

/-- C1: for every score matrix with n rows and m columns, 0 < n <= m (all
entries are finite rationals in this model), the Hungarian solver succeeds
and returns exactly one chosen column per row, with no column reused by two
rows, and the total of the selected matrix entries is maximal over all
one-to-one assignments of rows to columns. -/
theorem claim1_hungarian_optimal (M : List (List ℚ)) (n m : ℕ) (hlen : M.length = n)
    (hrect : ∀ row ∈ M, row.length = m) (hn : 0 < n) (hnm : n ≤ m) :
    ∃ res : List ℤ, hungarian M = Except.ok res ∧ res.length = n
      ∧ (∀ k, k < n → 0 ≤ res.getD k 0 ∧ res.getD k 0 < (m : ℤ))
      ∧ (∀ k k', k < n → k' < n → res.getD k 0 = res.getD k' 0 → k = k')
      ∧ (∀ τ : ℕ → ℕ, (∀ k, k < n → τ k < m) →
          (∀ k k', k < n → k' < n → τ k = τ k' → k = k') →
          ∑ k in Finset.range n, entry M k (τ k)
            ≤ ∑ k in Finset.range n, entry M k (res.getD k 0).toNat) :=
  hungarian_ok M n m hlen hrect hn hnm

/-- Witness for C1: the optimality theorem applied to the concrete 2x2 matrix
of the solver test suite. -/
theorem claim1_hungarian_optimal_witness :
    ∃ res : List ℤ, hungarian [[(1 : ℚ), 10], [10, 1]] = Except.ok res ∧ res.length = 2
      ∧ (∀ k, k < 2 → 0 ≤ res.getD k 0 ∧ res.getD k 0 < (2 : ℤ))
      ∧ (∀ k k', k < 2 → k' < 2 → res.getD k 0 = res.getD k' 0 → k = k')
      ∧ (∀ τ : ℕ → ℕ, (∀ k, k < 2 → τ k < 2) →
          (∀ k k', k < 2 → k' < 2 → τ k = τ k' → k = k') →
          ∑ k in Finset.range 2, entry [[(1 : ℚ), 10], [10, 1]] k (τ k)
            ≤ ∑ k in Finset.range 2, entry [[(1 : ℚ), 10], [10, 1]] k (res.getD k 0).toNat) :=
  claim1_hungarian_optimal [[(1 : ℚ), 10], [10, 1]] 2 2 rfl
    (by intro row hrow; fin_cases hrow <;> rfl) (by decide) (by decide)

/-- The perturbed matrix has as many rows as the original. -/
lemma length_buildPerturbedScores (scores : List (List ℚ)) (people : List Person)
    (rooms : List Room) (ε : ℚ) :
    (buildPerturbedScores scores people rooms ε).length = scores.length := by
  unfold buildPerturbedScores
  exact List.length_mapIdx

/-- The perturbed matrix has the same row lengths as the original. -/
lemma rect_buildPerturbedScores (scores : List (List ℚ)) (people : List Person)
    (rooms : List Room) (ε : ℚ) (m : ℕ) (hrect : ∀ row ∈ scores, row.length = m) :
    ∀ row ∈ buildPerturbedScores scores people rooms ε, row.length = m := by
  intro row hrow
  unfold buildPerturbedScores at hrow
  rw [List.mem_iff_getElem?] at hrow
  obtain ⟨i, hi⟩ := hrow
  rw [List.getElem?_mapIdx] at hi
  cases hs : scores[i]? with
  | none =>
    rw [hs] at hi
    simp at hi
  | some row0 =>
    rw [hs] at hi
    simp only [Option.map_some', Option.some.injEq] at hi
    rw [← hi]
    rw [List.length_mapIdx]
    refine hrect row0 ?_
    rw [List.mem_iff_getElem?]
    exact ⟨i, hs⟩

/-- Entrywise description of the perturbed matrix. -/
lemma entry_buildPerturbedScores (scores : List (List ℚ)) (people : List Person)
    (rooms : List Room) (ε : ℚ) (k l : ℕ) (row : List ℚ)
    (hk : scores[k]? = Option.some row) (hl : l < row.length) :
    entry (buildPerturbedScores scores people rooms ε) k l
      = entry scores k l
        + ε * computeTieBreaker (((people.get? k).map Person.id).getD "")
            (((rooms.get? l).map Room.id).getD "") := by
  unfold buildPerturbedScores entry
  simp only [List.getD, List.get?_eq_getElem?, List.getElem?_mapIdx, hk,
    Option.map_some', Option.getD_some]
  have hrl : row[l]? = Option.some row[l] := List.getElem?_eq_getElem hl
  rw [hrl]
  simp only [Option.map_some', Option.getD_some]

/-- The first component of the id-translation fold ignores the score sums. -/
lemma foldl_pair_fst (f : ℕ → ℚ) (G : List (String × String) → ℕ → List (String × String)) :
    ∀ (l : List ℕ) (init : List (String × String) × ℚ),
    (l.foldl (fun acc i => (G acc.1 i, acc.2 + f i)) init).1 = l.foldl G init.1 := by
  intro l
  induction l with
  | nil =>
    intro init
    rfl
  | cons x xs ih =>
    intro init
    simp only [List.foldl_cons]
    rw [ih]

/-- With pairwise-distinct keys the Map.set fold builds the literal entry
list. -/
lemma fold_mapSet_eq_map (f g : ℕ → String) :
    ∀ (l : List ℕ), l.Nodup → (∀ k ∈ l, ∀ k' ∈ l, f k = f k' → k = k') →
    l.foldl (fun mp k => mapSet mp (f k) (g k)) [] = l.map (fun k => (f k, g k)) := by
  intro l
  induction l using List.reverseRecOn with
  | nil =>
    intro _ _
    rfl
  | append_singleton l x ih =>
    intro hnd hdist
    have hnd' : l.Nodup := (List.nodup_append.mp hnd).1
    have hx : x ∉ l := by
      have hd := (List.nodup_append.mp hnd).2.2
      intro hmem
      exact hd hmem (by simp)
    rw [List.foldl_append, List.foldl_cons, List.foldl_nil,
      ih hnd' (fun k hk k' hk' h =>
        hdist k (List.mem_append_left _ hk) k' (List.mem_append_left _ hk') h),
      List.map_append]
    unfold mapSet
    rw [if_neg]
    · simp
    · rw [List.any_eq_true]
      rintro ⟨kv, hkv, hkey⟩
      rw [List.mem_map] at hkv
      obtain ⟨k, hk, hkeq⟩ := hkv
      rw [← hkeq] at hkey
      simp only [decide_eq_true_eq] at hkey
      have := hdist k (List.mem_append_left _ hk) x
        (List.mem_append_right _ (by simp)) hkey
      exact hx (this ▸ hk)

/-- Map.get of a literal entry list with distinct keys finds the paired
value. -/
lemma mapGet_map_list (f g : ℕ → String) :
    ∀ (l : List ℕ), (∀ k ∈ l, ∀ k' ∈ l, f k = f k' → k = k') →
    ∀ k ∈ l, mapGet (l.map (fun k => (f k, g k))) (f k) = Option.some (g k) := by
  intro l
  induction l with
  | nil =>
    intro _ k hk
    simp at hk
  | cons a as ih =>
    intro hdist k hk
    by_cases hkey : f a = f k
    · have ha : a = k := hdist a (by simp) k hk hkey
      subst ha
      unfold mapGet
      rw [List.map_cons, List.find?_cons_of_pos _ (by simp)]
      rfl
    · unfold mapGet
      rw [List.map_cons, List.find?_cons_of_neg _ (by simpa using hkey)]
      rcases List.mem_cons.mp hk with h | h
      · exact absurd (by rw [h] : f a = f k) hkey
      · exact ih (fun k1 hk1 k2 hk2 hfe =>
          hdist k1 (List.mem_cons_of_mem a hk1) k2 (List.mem_cons_of_mem a hk2) hfe) k h

/-- Map.get of a literal entry list misses keys outside the key set. -/
lemma mapGet_map_none (f g : ℕ → String) :
    ∀ (l : List ℕ) (x : String), (∀ k ∈ l, f k ≠ x) →
    mapGet (l.map (fun k => (f k, g k))) x = Option.none := by
  intro l
  induction l with
  | nil =>
    intro x _
    rfl
  | cons a as ih =>
    intro x hmiss
    unfold mapGet
    rw [List.map_cons, List.find?_cons_of_neg _ (by simpa using hmiss a (by simp))]
    exact ih x (fun k hk => hmiss k (List.mem_cons_of_mem a hk))

/-- Sums over range n are invariant under a permutation of range n. -/
lemma sum_range_perm (n : ℕ) (π πinv : ℕ → ℕ)
    (hπ : ∀ k, k < n → π k < n) (hπinv : ∀ k, k < n → πinv k < n)
    (hlr : ∀ k, k < n → πinv (π k) = k) (hrl : ∀ k, k < n → π (πinv k) = k)
    (f : ℕ → ℚ) :
    ∑ k in Finset.range n, f (π k) = ∑ k in Finset.range n, f k := by
  refine Finset.sum_bij (fun k _ => π k) ?_ ?_ ?_ ?_
  · intro a ha
    rw [Finset.mem_range] at ha ⊢
    exact hπ a ha
  · intro a ha b hb heq
    rw [Finset.mem_range] at ha hb
    dsimp only at heq
    calc a = πinv (π a) := (hlr a ha).symm
      _ = πinv (π b) := by rw [heq]
      _ = b := hlr b hb
  · intro b hb
    rw [Finset.mem_range] at hb
    exact ⟨πinv b, Finset.mem_range.mpr (hπinv b hb), hrl b hb⟩
  · intro a _
    rfl

/-- Conjugating an optimal assignment of the permuted problem by the
permutations yields an optimal assignment of the original problem. -/
lemma isOptimal_conj (P Q : List (List ℚ)) (n m : ℕ) (π πinv ρ ρinv : ℕ → ℕ)
    (hπ : ∀ k, k < n → π k < n) (hπinv : ∀ k, k < n → πinv k < n)
    (hπlr : ∀ k, k < n → πinv (π k) = k) (hπrl : ∀ k, k < n → π (πinv k) = k)
    (hρ : ∀ l, l < m → ρ l < m) (hρinv : ∀ l, l < m → ρinv l < m)
    (hρlr : ∀ l, l < m → ρinv (ρ l) = l) (hρrl : ∀ l, l < m → ρ (ρinv l) = l)
    (hPQ : ∀ k l, k < n → l < m → entry Q k l = entry P (π k) (ρ l))
    (σ : ℕ → ℕ) (hσ : IsOptimalAssignment Q n m σ) :
    IsOptimalAssignment P n m (fun k => ρ (σ (πinv k))) := by
  obtain ⟨hb, hinj, hopt⟩ := hσ
  refine ⟨?_, ?_, ?_⟩
  · intro k hk
    exact hρ _ (hb _ (hπinv k hk))
  · intro k k' hk hk' heq
    dsimp only at heq
    have h1 : σ (πinv k) = σ (πinv k') := by
      have h := congrArg ρinv heq
      rw [hρlr _ (hb _ (hπinv k hk)), hρlr _ (hb _ (hπinv k' hk'))] at h
      exact h
    have h2 := hinj _ _ (hπinv k hk) (hπinv k' hk') h1
    calc k = π (πinv k) := (hπrl k hk).symm
      _ = π (πinv k') := by rw [h2]
      _ = k' := hπrl k' hk'
  · intro τ hτb hτinj
    have hτ'b : ∀ k, k < n → ρinv (τ (π k)) < m :=
      fun k hk => hρinv _ (hτb _ (hπ k hk))
    have hτ'inj : ∀ k k', k < n → k' < n → ρinv (τ (π k)) = ρinv (τ (π k')) → k = k' := by
      intro k k' hk hk' heq
      have h1 : τ (π k) = τ (π k') := by
        have h := congrArg ρ heq
        rw [hρrl _ (hτb _ (hπ k hk)), hρrl _ (hτb _ (hπ k' hk'))] at h
        exact h
      have h2 := hτinj _ _ (hπ k hk) (hπ k' hk') h1
      calc k = πinv (π k) := (hπlr k hk).symm
        _ = πinv (π k') := by rw [h2]
        _ = k' := hπlr k' hk'
    have hle := hopt (fun k => ρinv (τ (π k))) hτ'b hτ'inj
    dsimp only at hle ⊢
    have hL : ∑ k in Finset.range n, entry Q k (ρinv (τ (π k)))
        = ∑ k in Finset.range n, entry P k (τ k) := by
      have h1 : ∀ k ∈ Finset.range n,
          entry Q k (ρinv (τ (π k))) = (fun j => entry P j (τ j)) (π k) := by
        intro k hk
        rw [Finset.mem_range] at hk
        dsimp only
        rw [hPQ k _ hk (hτ'b k hk), hρrl _ (hτb _ (hπ k hk))]
      rw [Finset.sum_congr rfl h1]
      exact sum_range_perm n π πinv hπ hπinv hπlr hπrl (fun j => entry P j (τ j))
    have hR : ∑ k in Finset.range n, entry Q k (σ k)
        = ∑ k in Finset.range n, entry P k (ρ (σ (πinv k))) := by
      have h1 : ∀ k ∈ Finset.range n,
          entry Q k (σ k) = (fun j => entry P j (ρ (σ (πinv j)))) (π k) := by
        intro k hk
        rw [Finset.mem_range] at hk
        dsimp only
        rw [hπlr k hk]
        exact hPQ k (σ k) hk (hb k hk)
      rw [Finset.sum_congr rfl h1]
      exact sum_range_perm n π πinv hπ hπinv hπlr hπrl (fun j => entry P j (ρ (σ (πinv j))))
    rw [← hL, ← hR]
    exact hle

/-- The Hungarian solver's answer, read as a row-to-column function, is an
optimal assignment. -/
lemma hungarian_gives_optimal (P : List (List ℚ)) (n m : ℕ) (hlen : P.length = n)
    (hrect : ∀ row ∈ P, row.length = m) (hn : 0 < n) (hnm : n ≤ m) :
    ∃ res : List ℤ, hungarian P = Except.ok res ∧ res.length = n
      ∧ IsOptimalAssignment P n m (fun k => (res.getD k 0).toNat) := by
  obtain ⟨res, h1, h2, h3, h4, h5⟩ := hungarian_ok P n m hlen hrect hn hnm
  refine ⟨res, h1, h2, ?_, ?_, h5⟩
  · intro k hk
    dsimp only
    have := h3 k hk
    omega
  · intro k k' hk hk' heq
    dsimp only at heq
    have hb1 := h3 k hk
    have hb2 := h3 k' hk'
    exact h4 k k' hk hk' (by omega)

/-- Explicit description of a successful default-options solver run: the map
lists every person paired with the room the index assignment selects, and the
total sums the original scores. -/
lemma solveAssignment_char (scores : List (List ℚ)) (people : List Person)
    (rooms : List Room) (res : List ℤ)
    (hn0 : people.length ≠ 0) (hnm : ¬ people.length > rooms.length)
    (hdist : ∀ k k', k < people.length → k' < people.length →
      (((people.get? k).map Person.id).getD "") = (((people.get? k').map Person.id).getD "")
      → k = k')
    (hres : hungarian (buildPerturbedScores scores people rooms (1 / 1000000000))
      = Except.ok res) :
    solveAssignment scores people rooms {} = Except.ok
      ⟨(List.range people.length).map (fun k =>
          ((((people.get? k).map Person.id).getD ""),
           (((rooms.get? ((res.getD k (-1)).toNat)).map Room.id).getD ""))),
       ((List.range people.length).map
          (fun i => entry scores i ((res.getD i (-1)).toNat))).sum⟩ := by
  simp only [solveAssignment]
  rw [if_neg hn0, if_neg hnm]
  rw [show (({} : AssignmentOptions).deterministicTieBreak.getD true) = true from rfl]
  simp only [if_true]
  rw [show (({} : AssignmentOptions).epsilon.getD (1 / 1000000000)) = 1 / 1000000000 from rfl]
  rw [hres]
  dsimp only
  simp only [Except.ok.injEq, AssignmentResult.mk.injEq]
  constructor
  · have hfst := foldl_pair_fst (fun i => entry scores i ((res.getD i (-1)).toNat))
      (fun a i => mapSet a (((people.get? i).map Person.id).getD "")
        (((rooms.get? ((res.getD i (-1)).toNat)).map Room.id).getD ""))
      (List.range people.length) ([], 0)
    rw [hfst]
    refine fold_mapSet_eq_map
      (fun i => ((people.get? i).map Person.id).getD "")
      (fun i => ((rooms.get? ((res.getD i (-1)).toNat)).map Room.id).getD "")
      (List.range people.length) (List.nodup_range _) ?_
    intro k hk k' hk' heq
    rw [List.mem_range] at hk hk'
    exact hdist k k' hk hk' heq
  · have hsnd := foldl_pair_snd (fun i => entry scores i ((res.getD i (-1)).toNat))
      (fun a i => mapSet a (((people.get? i).map Person.id).getD "")
        (((rooms.get? ((res.getD i (-1)).toNat)).map Room.id).getD ""))
      (List.range people.length) ([], 0)
    simpa using hsnd

/-- getD with any default reads the stored element at in-range positions. -/
lemma getD_default_irrel (res : List ℤ) (k : ℕ) (hk : k < res.length) (d d' : ℤ) :
    res.getD k d = res.getD k d' := by
  simp [List.getD, List.getElem?_eq_getElem hk]

/-- C2 (amended): if all person ids are distinct and the perturbed score
matrix of the original ordering has a unique optimal assignment, then
permuting the people and rooms arrays together with the rows and columns of
the score matrix does not change the personId to roomId mapping returned by
solveAssignment with its default deterministic tie-breaking. -/
theorem claim2_permutation_invariance
    (scores scores' : List (List ℚ)) (people people' : List Person)
    (rooms rooms' : List Room) (n m : ℕ)
    (hns : scores.length = n) (hrs : ∀ row ∈ scores, row.length = m)
    (hns' : scores'.length = n) (hrs' : ∀ row ∈ scores', row.length = m)
    (hnp : people.length = n) (hnp' : people'.length = n)
    (hmr : rooms.length = m) (hmr' : rooms'.length = m)
    (hn : 0 < n) (hnm : n ≤ m)
    (π πinv ρ ρinv : ℕ → ℕ)
    (hπ : ∀ k, k < n → π k < n) (hπinv : ∀ k, k < n → πinv k < n)
    (hπlr : ∀ k, k < n → πinv (π k) = k) (hπrl : ∀ k, k < n → π (πinv k) = k)
    (hρ : ∀ l, l < m → ρ l < m) (hρinv : ∀ l, l < m → ρinv l < m)
    (hρlr : ∀ l, l < m → ρinv (ρ l) = l) (hρrl : ∀ l, l < m → ρ (ρinv l) = l)
    (hpp : ∀ k, k < n → people'.get? k = people.get? (π k))
    (hrr : ∀ l, l < m → rooms'.get? l = rooms.get? (ρ l))
    (hss : ∀ k l, k < n → l < m → entry scores' k l = entry scores (π k) (ρ l))
    (hdist : ∀ k k', k < n → k' < n →
      (((people.get? k).map Person.id).getD "") = (((people.get? k').map Person.id).getD "")
      → k = k')
    (huniq : ∀ σ σ' : ℕ → ℕ,
      IsOptimalAssignment (buildPerturbedScores scores people rooms (1 / 1000000000)) n m σ →
      IsOptimalAssignment (buildPerturbedScores scores people rooms (1 / 1000000000)) n m σ' →
      ∀ k, k < n → σ k = σ' k) :
    ∃ r r' : AssignmentResult,
      solveAssignment scores people rooms {} = Except.ok r
      ∧ solveAssignment scores' people' rooms' {} = Except.ok r'
      ∧ ∀ x, mapGet r'.assignment x = mapGet r.assignment x := by
  have hPlen : (buildPerturbedScores scores people rooms (1 / 1000000000)).length = n := by
    rw [length_buildPerturbedScores, hns]
  have hPrect := rect_buildPerturbedScores scores people rooms (1 / 1000000000) m hrs
  have hP'len : (buildPerturbedScores scores' people' rooms' (1 / 1000000000)).length = n := by
    rw [length_buildPerturbedScores, hns']
  have hP'rect := rect_buildPerturbedScores scores' people' rooms' (1 / 1000000000) m hrs'
  have hpid : ∀ k, k < n → (((people'.get? k).map Person.id).getD "")
      = (((people.get? (π k)).map Person.id).getD "") := by
    intro k hk
    rw [hpp k hk]
  have hrid : ∀ l, l < m → (((rooms'.get? l).map Room.id).getD "")
      = (((rooms.get? (ρ l)).map Room.id).getD "") := by
    intro l hl
    rw [hrr l hl]
  have hPP' : ∀ k l, k < n → l < m →
      entry (buildPerturbedScores scores' people' rooms' (1 / 1000000000)) k l
      = entry (buildPerturbedScores scores people rooms (1 / 1000000000)) (π k) (ρ l) := by
    intro k l hk hl
    have hklen' : k < scores'.length := by omega
    have hklen : π k < scores.length := by have := hπ k hk; omega
    have hrow' : scores'[k]? = Option.some scores'[k] := List.getElem?_eq_getElem hklen'
    have hrow : scores[π k]? = Option.some scores[π k] := List.getElem?_eq_getElem hklen
    rw [entry_buildPerturbedScores scores' people' rooms' _ k l scores'[k] hrow'
      (by rw [hrs' _ (List.getElem_mem _)]; omega)]
    rw [entry_buildPerturbedScores scores people rooms _ (π k) (ρ l) scores[π k] hrow
      (by rw [hrs _ (List.getElem_mem _)]; have := hρ l hl; omega)]
    rw [hss k l hk hl, hpid k hk, hrid l hl]
  obtain ⟨res1, hres1, hlen1, hopt1⟩ := hungarian_gives_optimal
    (buildPerturbedScores scores people rooms (1 / 1000000000)) n m hPlen hPrect hn hnm
  obtain ⟨res2, hres2, hlen2, hopt2⟩ := hungarian_gives_optimal
    (buildPerturbedScores scores' people' rooms' (1 / 1000000000)) n m hP'len hP'rect hn hnm
  have hconj := isOptimal_conj
    (buildPerturbedScores scores people rooms (1 / 1000000000))
    (buildPerturbedScores scores' people' rooms' (1 / 1000000000)) n m
    π πinv ρ ρinv hπ hπinv hπlr hπrl hρ hρinv hρlr hρrl hPP'
    (fun k => (res2.getD k 0).toNat) hopt2
  have hagree := huniq (fun k => (res1.getD k 0).toNat)
    (fun k => ρ ((res2.getD (πinv k) 0).toNat)) hopt1 hconj
  dsimp only at hagree
  have hdist' : ∀ k k', k < n → k' < n →
      (((people'.get? k).map Person.id).getD "") = (((people'.get? k').map Person.id).getD "")
      → k = k' := by
    intro k k' hk hk' heq
    rw [hpid k hk, hpid k' hk'] at heq
    have h2 := hdist (π k) (π k') (hπ k hk) (hπ k' hk') heq
    calc k = πinv (π k) := (hπlr k hk).symm
      _ = πinv (π k') := by rw [h2]
      _ = k' := hπlr k' hk'
  have hrun1 := solveAssignment_char scores people rooms res1 (by omega) (by omega)
    (by rw [hnp]; exact hdist) hres1
  have hrun2 := solveAssignment_char scores' people' rooms' res2 (by omega) (by omega)
    (by rw [hnp']; exact hdist') hres2
  refine ⟨_, _, hrun1, hrun2, ?_⟩
  intro x
  dsimp only
  rw [hnp, hnp']
  by_cases hex : ∃ a, a < n ∧ (((people.get? a).map Person.id).getD "") = x
  · obtain ⟨a, ha, hxa⟩ := hex
    rw [← hxa]
    have hm1 := mapGet_map_list
      (fun k => ((people.get? k).map Person.id).getD "")
      (fun k => ((rooms.get? ((res1.getD k (-1)).toNat)).map Room.id).getD "")
      (List.range n)
      (fun k hk k' hk' h => hdist k k'
        (List.mem_range.mp hk) (List.mem_range.mp hk') h)
      a (List.mem_range.mpr ha)
    have hm2 := mapGet_map_list
      (fun k => ((people'.get? k).map Person.id).getD "")
      (fun k => ((rooms'.get? ((res2.getD k (-1)).toNat)).map Room.id).getD "")
      (List.range n)
      (fun k hk k' hk' h => hdist' k k'
        (List.mem_range.mp hk) (List.mem_range.mp hk') h)
      (πinv a) (List.mem_range.mpr (hπinv a ha))
    dsimp only at hm1 hm2
    have hkey2 : (((people'.get? (πinv a)).map Person.id).getD "")
        = (((people.get? a).map Person.id).getD "") := by
      rw [hpid (πinv a) (hπinv a ha), hπrl a ha]
    rw [hkey2] at hm2
    rw [hm1, hm2]
    have hσ2b := hopt2.1 (πinv a) (hπinv a ha)
    have hval2 : (((rooms'.get? ((res2.getD (πinv a) (-1)).toNat)).map Room.id).getD "")
        = (((rooms.get? ((res1.getD a (-1)).toNat)).map Room.id).getD "") := by
      rw [getD_default_irrel res2 (πinv a) (by have := hπinv a ha; omega) (-1) 0]
      rw [getD_default_irrel res1 a (by omega) (-1) 0]
      rw [hrid ((res2.getD (πinv a) 0).toNat) hσ2b]
      rw [← hagree a ha]
    rw [hval2]
  · push_neg at hex
    have hm1 := mapGet_map_none
      (fun k => ((people.get? k).map Person.id).getD "")
      (fun k => ((rooms.get? ((res1.getD k (-1)).toNat)).map Room.id).getD "")
      (List.range n) x
      (fun k hk => hex k (List.mem_range.mp hk))
    have hm2 := mapGet_map_none
      (fun k => ((people'.get? k).map Person.id).getD "")
      (fun k => ((rooms'.get? ((res2.getD k (-1)).toNat)).map Room.id).getD "")
      (List.range n) x
      (fun k hk => by
        dsimp only
        rw [hpid k (List.mem_range.mp hk)]
        exact hex (π k) (hπ k (List.mem_range.mp hk)))
    dsimp only at hm1 hm2
    rw [hm1, hm2]

/-- Witness for C2 (amended): the identity permutation instance on a one
person, one room input. -/
theorem claim2_permutation_invariance_witness :
    ∃ r r' : AssignmentResult,
      solveAssignment [[(5 : ℚ)]] [mkPerson "alice"] [mkRoom "r1"] {} = Except.ok r
      ∧ solveAssignment [[(5 : ℚ)]] [mkPerson "alice"] [mkRoom "r1"] {} = Except.ok r'
      ∧ ∀ x, mapGet r'.assignment x = mapGet r.assignment x :=
  claim2_permutation_invariance [[(5 : ℚ)]] [[(5 : ℚ)]] [mkPerson "alice"] [mkPerson "alice"]
    [mkRoom "r1"] [mkRoom "r1"] 1 1 rfl
    (by intro row h; simp only [List.mem_singleton] at h; subst h; rfl) rfl
    (by intro row h; simp only [List.mem_singleton] at h; subst h; rfl)
    rfl rfl rfl rfl (by decide) (by decide)
    (fun k => k) (fun k => k) (fun l => l) (fun l => l)
    (fun k hk => hk) (fun k hk => hk) (fun k _ => rfl) (fun k _ => rfl)
    (fun l hl => hl) (fun l hl => hl) (fun l _ => rfl) (fun l _ => rfl)
    (fun k _ => rfl) (fun l _ => rfl) (fun k l _ _ => rfl)
    (fun k k' hk hk' _ => by omega)
    (by
      intro σ σ' h1 h2 k hk
      have b1 := h1.1 k hk
      have b2 := h2.1 k hk
      omega)

/-- The perturbed matrix of a 2x2 problem, written out cell by cell. -/
lemma buildPerturbedScores_two (a b c d eps : ℚ) (p1 p2 : Person) (r1 r2 : Room) :
    buildPerturbedScores [[a, b], [c, d]] [p1, p2] [r1, r2] eps
      = [[a + eps * computeTieBreaker p1.id r1.id, b + eps * computeTieBreaker p1.id r2.id],
         [c + eps * computeTieBreaker p2.id r1.id, d + eps * computeTieBreaker p2.id r2.id]] := rfl

/-- The tie-breaker of a pair whose hash is known. -/
lemma computeTieBreaker_of_hash (pid rid : String) (h : ℕ)
    (hh : fnv1aNat (pid ++ ":" ++ rid) = h) :
    computeTieBreaker pid rid = (h : ℚ) / 4294967295 := by
  rw [computeTieBreaker, fnv1aHash, hh]

/-- Concrete run of the solver on the test-suite 2x2 example: alice receives
room 2 and bob room 1 for a total of 20. -/
lemma solveAssignment_testrun :
    solveAssignment [[1, 10], [10, 1]] [mkPerson "alice", mkPerson "bob"]
      [mkRoom "room_1", mkRoom "room_2"] {}
    = Except.ok ⟨[("alice", "room_2"), ("bob", "room_1")], 20⟩ := by
  have hmat : buildPerturbedScores [[1, 10], [10, 1]] [mkPerson "alice", mkPerson "bob"]
      [mkRoom "room_1", mkRoom "room_2"] (1 / 1000000000)
      = ([[4294967298565188100, 42949672953615520957],
          [42949672953348863177, 4294967298298530320]] : List (List ℤ)).map
          (List.map (fun z : ℤ => (z : ℚ) * (1 / 4294967295000000000))) := by
    rw [buildPerturbedScores_two]
    simp only [mkPerson, mkRoom]
    rw [computeTieBreaker_of_hash "alice" "room_1" 3565188100 (by decide),
      computeTieBreaker_of_hash "alice" "room_2" 3615520957 (by decide),
      computeTieBreaker_of_hash "bob" "room_1" 3348863177 (by decide),
      computeTieBreaker_of_hash "bob" "room_2" 3298530320 (by decide)]
    norm_num
  simp only [solveAssignment]
  rw [if_neg (by decide), if_neg (by decide)]
  rw [show (({} : AssignmentOptions).deterministicTieBreak.getD true) = true from rfl]
  simp only [if_true]
  rw [show (({} : AssignmentOptions).epsilon.getD (1 / 1000000000)) = 1 / 1000000000 from rfl]
  rw [hmat, hungarian_transfer (1 / 4294967295000000000) (by norm_num)]
  rw [show hungarianZ [[4294967298565188100, 42949672953615520957],
      [42949672953348863177, 4294967298298530320]] = Except.ok [1, 0] from by decide]
  norm_num [List.length_cons, List.length_nil, List.range_succ, mapSet, mapGet, entry,
    List.getD, mkPerson, mkRoom]
  decide

/-- The ids glbvs and yacxa drive the FNV-1a accumulator to the same state
(fnv1aNat of both is 2713492047), so for every room id the two tie-breaker
strings hash identically; the tie is an exact hash collision of the source's
own hash function, not an artifact of the number representation. -/
lemma fnv1aNat_id_collision :
    fnv1aNat "glbvs:ra" = 3503322482 ∧ fnv1aNat "yacxa:ra" = 3503322482
    ∧ fnv1aNat "glbvs:rb" = 3486544863 ∧ fnv1aNat "yacxa:rb" = 3486544863 := by
  refine ⟨by decide, by decide, by decide, by decide⟩

/-- Concrete run for the tie-breaking counterexample, original order.  The
two people's ids collide under FNV-1a, so every cell of the perturbed
all-zero matrix coincides with the cell below it; the solver assigns glbvs
room ra. -/
lemma solveAssignment_tierun1 :
    solveAssignment [[0, 0], [0, 0]] [mkPerson "glbvs", mkPerson "yacxa"]
      [mkRoom "ra", mkRoom "rb"] {}
    = Except.ok ⟨[("glbvs", "ra"), ("yacxa", "rb")], 0⟩ := by
  have hmat : buildPerturbedScores [[0, 0], [0, 0]] [mkPerson "glbvs", mkPerson "yacxa"]
      [mkRoom "ra", mkRoom "rb"] (1 / 1000000000)
      = ([[3503322482, 3486544863], [3503322482, 3486544863]] : List (List ℤ)).map
          (List.map (fun z : ℤ => (z : ℚ) * (1 / 4294967295000000000))) := by
    rw [buildPerturbedScores_two]
    simp only [mkPerson, mkRoom]
    rw [computeTieBreaker_of_hash "glbvs" "ra" 3503322482 (by decide),
      computeTieBreaker_of_hash "glbvs" "rb" 3486544863 (by decide),
      computeTieBreaker_of_hash "yacxa" "ra" 3503322482 (by decide),
      computeTieBreaker_of_hash "yacxa" "rb" 3486544863 (by decide)]
    norm_num
  simp only [solveAssignment]
  rw [if_neg (by decide), if_neg (by decide)]
  rw [show (({} : AssignmentOptions).deterministicTieBreak.getD true) = true from rfl]
  simp only [if_true]
  rw [show (({} : AssignmentOptions).epsilon.getD (1 / 1000000000)) = 1 / 1000000000 from rfl]
  rw [hmat, hungarian_transfer (1 / 4294967295000000000) (by norm_num)]
  rw [show hungarianZ [[3503322482, 3486544863], [3503322482, 3486544863]]
      = Except.ok [0, 1] from by decide]
  norm_num [List.length_cons, List.length_nil, List.range_succ, mapSet, mapGet, entry,
    List.getD, mkPerson, mkRoom]
  decide

/-- Concrete run for the tie-breaking counterexample, people swapped together
with the matrix rows (the all-zero matrix is unchanged by the row swap).
Because the two ids collide under FNV-1a, the perturbed working matrix of
this run is cell-for-cell the same matrix as in the original order, so the
solver necessarily returns the same column for each row index; glbvs, now at
the second row, receives room rb. -/
lemma solveAssignment_tierun2 :
    solveAssignment [[0, 0], [0, 0]] [mkPerson "yacxa", mkPerson "glbvs"]
      [mkRoom "ra", mkRoom "rb"] {}
    = Except.ok ⟨[("yacxa", "ra"), ("glbvs", "rb")], 0⟩ := by
  have hmat : buildPerturbedScores [[0, 0], [0, 0]] [mkPerson "yacxa", mkPerson "glbvs"]
      [mkRoom "ra", mkRoom "rb"] (1 / 1000000000)
      = ([[3503322482, 3486544863], [3503322482, 3486544863]] : List (List ℤ)).map
          (List.map (fun z : ℤ => (z : ℚ) * (1 / 4294967295000000000))) := by
    rw [buildPerturbedScores_two]
    simp only [mkPerson, mkRoom]
    rw [computeTieBreaker_of_hash "glbvs" "ra" 3503322482 (by decide),
      computeTieBreaker_of_hash "glbvs" "rb" 3486544863 (by decide),
      computeTieBreaker_of_hash "yacxa" "ra" 3503322482 (by decide),
      computeTieBreaker_of_hash "yacxa" "rb" 3486544863 (by decide)]
    norm_num
  simp only [solveAssignment]
  rw [if_neg (by decide), if_neg (by decide)]
  rw [show (({} : AssignmentOptions).deterministicTieBreak.getD true) = true from rfl]
  simp only [if_true]
  rw [show (({} : AssignmentOptions).epsilon.getD (1 / 1000000000)) = 1 / 1000000000 from rfl]
  rw [hmat, hungarian_transfer (1 / 4294967295000000000) (by norm_num)]
  rw [show hungarianZ [[3503322482, 3486544863], [3503322482, 3486544863]]
      = Except.ok [0, 1] from by decide]
  norm_num [List.length_cons, List.length_nil, List.range_succ, mapSet, mapGet, entry,
    List.getD, mkPerson, mkRoom]
  decide

/-- Counterexample to C2: person ids glbvs and yacxa are an FNV-1a state
collision, so on an all-zero score matrix the perturbed working matrices of
the original and the people-swapped orderings are the same matrix cell for
cell (no arithmetic comparison distinguishes them in any number
representation).  The solver therefore returns the same row-to-column index
vector in both runs, and since that vector assigns distinct columns to the
two rows, swapping the people together with the corresponding score-matrix
rows necessarily moves glbvs from room ra to room rb. -/
theorem claim2_counterexample :
    solveAssignment [[0, 0], [0, 0]] [mkPerson "glbvs", mkPerson "yacxa"]
      [mkRoom "ra", mkRoom "rb"] {}
      = Except.ok ⟨[("glbvs", "ra"), ("yacxa", "rb")], 0⟩
    ∧ solveAssignment [[0, 0], [0, 0]] [mkPerson "yacxa", mkPerson "glbvs"]
      [mkRoom "ra", mkRoom "rb"] {}
      = Except.ok ⟨[("yacxa", "ra"), ("glbvs", "rb")], 0⟩
    ∧ buildPerturbedScores [[0, 0], [0, 0]] [mkPerson "glbvs", mkPerson "yacxa"]
        [mkRoom "ra", mkRoom "rb"] (1 / 1000000000)
      = buildPerturbedScores [[0, 0], [0, 0]] [mkPerson "yacxa", mkPerson "glbvs"]
        [mkRoom "ra", mkRoom "rb"] (1 / 1000000000)
    ∧ mapGet [("glbvs", "ra"), ("yacxa", "rb")] "glbvs"
      ≠ mapGet [("yacxa", "ra"), ("glbvs", "rb")] "glbvs" := by
  refine ⟨solveAssignment_tierun1, solveAssignment_tierun2, ?_, by decide⟩
  rw [buildPerturbedScores_two, buildPerturbedScores_two]
  simp only [mkPerson, mkRoom]
  rw [computeTieBreaker_of_hash "glbvs" "ra" 3503322482 (by decide),
    computeTieBreaker_of_hash "glbvs" "rb" 3486544863 (by decide),
    computeTieBreaker_of_hash "yacxa" "ra" 3503322482 (by decide),
    computeTieBreaker_of_hash "yacxa" "rb" 3486544863 (by decide)]

/-- Witness for C3: the unperturbed-total theorem applied to the concrete
test-suite run, whose reported total 20 sums the original entries 10 and 10
of the chosen cells. -/
theorem claim3_totalScore_unperturbed_witness :
    (([mkPerson "alice", mkPerson "bob"] : List Person).length = 0
      ∧ (⟨[("alice", "room_2"), ("bob", "room_1")], 20⟩ : AssignmentResult).totalScore = 0)
    ∨ ∃ idx, hungarian (if (({} : AssignmentOptions).deterministicTieBreak.getD true) then
          buildPerturbedScores [[(1 : ℚ), 10], [10, 1]] [mkPerson "alice", mkPerson "bob"]
            [mkRoom "room_1", mkRoom "room_2"]
            (({} : AssignmentOptions).epsilon.getD (1 / 1000000000))
        else [[(1 : ℚ), 10], [10, 1]]) = Except.ok idx
      ∧ (⟨[("alice", "room_2"), ("bob", "room_1")], 20⟩ : AssignmentResult).totalScore
        = ((List.range ([mkPerson "alice", mkPerson "bob"] : List Person).length).map
            (fun i => entry [[(1 : ℚ), 10], [10, 1]] i ((idx.getD i (-1)).toNat))).sum :=
  claim3_totalScore_unperturbed [[(1 : ℚ), 10], [10, 1]] [mkPerson "alice", mkPerson "bob"]
    [mkRoom "room_1", mkRoom "room_2"] {} ⟨[("alice", "room_2"), ("bob", "room_1")], 20⟩
    solveAssignment_testrun
